import Mathlib

/-!
Verification development for the MuggleTranslator repository.

Text is modelled as `List Char` (Rust operates on UTF-8 byte strings; we work
at the level of characters, so offsets count characters where Rust counts
bytes — none of the verified claims depends on byte-level offsets).
Rust regular expressions are embedded as executable matchers with the regex
crate's leftmost-first `find_iter` semantics.  Fallible Rust functions
returning `anyhow::Result` are embedded as `Except String`.
-/

namespace MT

abbrev Str := List Char

/-- Whitespace test used by Rust `char::is_whitespace` / `str::trim`
(approximated by the ASCII whitespace characters Lean knows about). -/
def isWs (c : Char) : Bool := c.isWhitespace

/-- Rust `str::trim_start`. -/
def trimStart (s : Str) : Str := s.dropWhile isWs

/-- Rust `str::trim_end`. -/
def trimEnd (s : Str) : Str := (s.reverse.dropWhile isWs).reverse

/-- Rust `str::trim`. -/
def trim (s : Str) : Str := trimEnd (trimStart s)

/-- Rust `str::trim().is_empty()`: every character is whitespace. -/
def trimEmpty (s : Str) : Bool := s.all isWs

/-- One decimal digit character of a value below ten. -/
def digitCh (n : Nat) : Char := Nat.digitChar n

/-- Fuel-driven loop producing the decimal digits of `n`, most significant
digit first. -/
def decDigitsGo : Nat → Nat → Str
  | 0, _ => []
  | _ + 1, 0 => []
  | fuel + 1, n => decDigitsGo fuel (n / 10) ++ [digitCh (n % 10)]

/-- Decimal digit string of a natural number, most significant digit first
(empty for zero, which never occurs unpadded in the embedded code). -/
def decDigits (n : Nat) : Str := decDigitsGo n n

/-- Zero-pad a string on the left to the given width, as Rust `{:0w}`
formatting does. -/
def padZeros (w : Nat) (s : Str) : Str := List.replicate (w - s.length) '0' ++ s

/-- Decimal value of a digit string (inverse of `decDigits` and `padZeros`). -/
def readNat (s : Str) : Nat := s.foldl (fun acc c => acc * 10 + (c.toNat - 48)) 0

/-- Occurrence of `pat` as a contiguous substring of `s`
(Rust `str::contains`). -/
def containsLit (pat : Str) (s : Str) : Bool :=
  match s with
  | [] => pat.isPrefixOf ([] : Str)
  | _ :: rest => pat.isPrefixOf s || containsLit pat rest

/-- Split `s` at the first occurrence of `pat`, returning the part before the
occurrence and the part after it (Rust `str::find` followed by slicing). -/
def splitOnce (pat : Str) (s : Str) : Option (Str × Str) :=
  match s with
  | [] => if pat.isPrefixOf ([] : Str) then some ([], []) else none
  | c :: rest =>
    if pat.isPrefixOf s then some ([], s.drop pat.length)
    else (splitOnce pat rest).map (fun pr => (c :: pr.1, pr.2))

/-- Character index of the first occurrence of `pat` in `s`
(Rust `str::find`). -/
def findLit (pat : Str) (s : Str) : Option Nat :=
  (splitOnce pat s).map (fun pr => pr.1.length)

/-- Split `s` at the last occurrence of `pat` (Rust `str::rfind`), returning
the part before that occurrence and the part after it. -/
def splitLast (pat : Str) (s : Str) : Option (Str × Str) :=
  match s with
  | [] => if pat.isPrefixOf ([] : Str) then some ([], []) else none
  | c :: rest =>
    match splitLast pat rest with
    | some pr => some (c :: pr.1, pr.2)
    | none => if pat.isPrefixOf s then some ([], s.drop pat.length) else none

/-- A matcher embeds one compiled regular expression: given the character
just before the current position (for word boundaries) and the remaining
input, it returns the length of the preferred match at this position, if any.
-/
abbrev Matcher := Option Char → Str → Option Nat

/-- Leftmost match search: returns `(gap, matched, rest)` for the first
position at which the matcher succeeds with a nonzero length, mirroring the
regex crate's scan in `find_iter`. -/
def firstHit (m : Matcher) : Option Char → Str → Option (Str × Str × Str)
  | prev, s =>
    match m prev s with
    | some (k + 1) =>
      if k + 1 ≤ s.length then some ([], s.take (k + 1), s.drop (k + 1)) else none
    | _ =>
      match s with
      | [] => none
      | c :: rest => (firstHit m (some c) rest).map (fun pr => (c :: pr.1, pr.2.1, pr.2.2))

/-- Fuelled iteration of `firstHit`, producing the list of (gap, match)
pairs and the trailing gap: the skeleton of `find_iter`, `replace_all` and
`split`-style uses of a regex. -/
def scanGo (m : Matcher) : Nat → Option Char → Str → List (Str × Str) × Str
  | 0, _, s => ([], s)
  | fuel + 1, prev, s =>
    match firstHit m prev s with
    | none => ([], s)
    | some (g, t, r) =>
      let out := scanGo m fuel t.getLast? r
      ((g, t) :: out.1, out.2)

/-- All non-overlapping leftmost-first matches of a regex in `s`, with the
text between them. -/
def scanAll (m : Matcher) (s : Str) : List (Str × Str) × Str :=
  scanGo m s.length none s

/-- The list of matched substrings (regex `find_iter` collected). -/
def findMatches (m : Matcher) (s : Str) : List Str :=
  (scanAll m s).1.map (·.2)

/-- Regex `replace_all` with a replacement function of the matched text. -/
def replaceAll (m : Matcher) (f : Str → Str) (s : Str) : Str :=
  (((scanAll m s).1.map (fun pr => pr.1 ++ f pr.2)).foldr (· ++ ·) []) ++ (scanAll m s).2

/-- Matcher for a literal pattern (Rust `str::matches`). -/
def litM (pat : Str) : Matcher := fun _ s =>
  if pat.isEmpty then none else if pat.isPrefixOf s then some pat.length else none

/-- Number of non-overlapping occurrences of a literal pattern
(Rust `text.matches(pat).count()`). -/
def countLit (pat : Str) (s : Str) : Nat := (findMatches (litM pat) s).length

/-- Rust `str::replace` (all occurrences of a literal pattern). -/
def replaceLit (pat : Str) (new : Str) (s : Str) : Str :=
  replaceAll (litM pat) (fun _ => new) s

/-- Concatenation of all (gap, match) pairs of a scan. -/
def joinPairs (ps : List (Str × Str)) : Str := ps.foldr (fun p acc => p.1 ++ p.2 ++ acc) []

/-! ## sentinels.rs -/

/-- Control token `<<MT_TAB>>`. -/
def TAB : Str := "<<MT_TAB>>".data

/-- Control token `<<MT_BR>>`. -/
def BR : Str := "<<MT_BR>>".data

/-- Control token `<<MT_NBH>>`. -/
def NBH : Str := "<<MT_NBH>>".data

/-- Control token `<<MT_SHY>>`. -/
def SHY : Str := "<<MT_SHY>>".data

/-- `CONTROL_TOKENS` array from sentinels.rs. -/
def CONTROL_TOKENS : List Str := [TAB, BR, NBH, SHY]

/-- `nt_token`: `<<MT_NT:{id:04}>>`. -/
def ntToken (id : Nat) : Str := "<<MT_NT:".data ++ padZeros 4 (decDigits id) ++ ">>".data

/-- `seg_start`: `<<MT_SEG:{id:06}>>`. -/
def segStart (id : Nat) : Str := "<<MT_SEG:".data ++ padZeros 6 (decDigits id) ++ ">>".data

/-- `seg_end`: `<<MT_END:{id:06}>>`. -/
def segEnd (id : Nat) : Str := "<<MT_END:".data ++ padZeros 6 (decDigits id) ++ ">>".data

/-- `slot_token`: `<<MT_SLOT:{id:06}>>`. -/
def slotToken (id : Nat) : Str := "<<MT_SLOT:".data ++ padZeros 6 (decDigits id) ++ ">>".data

/-- Length of the match of `tag` followed by exactly `w` decimal digits and
`>>`, at the start of `s` (the shape of the numbered sentinel tokens). -/
def numTokLen (tag : Str) (w : Nat) (s : Str) : Option Nat :=
  if tag.isPrefixOf s then
    let rest := s.drop tag.length
    if (rest.take w).length = w ∧ (rest.take w).all Char.isDigit ∧
        ">>".data.isPrefixOf (rest.drop w) then
      some (tag.length + w + 2)
    else none
  else none

/-- Matcher for `CONTROL_TOKEN_RE` / `CONTROL_SEQ_RE`
(`<<MT_(?:TAB|BR|NBH|SHY)>>`; the two compiled regexes in sentinels.rs denote
the same language). -/
def controlM : Matcher := fun _ s =>
  if TAB.isPrefixOf s then some TAB.length
  else if BR.isPrefixOf s then some BR.length
  else if NBH.isPrefixOf s then some NBH.length
  else if SHY.isPrefixOf s then some SHY.length
  else none

/-- Matcher for `NT_RE` (`<<MT_NT:(\d{4})>>`). -/
def ntM : Matcher := fun _ s => numTokLen "<<MT_NT:".data 4 s

/-- Matcher for `ANY_SENTINEL_RE`
(`<<MT_(?:TAB|BR|NBH|SHY|NT:\d{4}|SEG:\d{6}|END:\d{6}|SLOT:\d{6})>>`). -/
def anySentinelM : Matcher := fun prev s =>
  match controlM prev s with
  | some n => some n
  | none =>
    match numTokLen "<<MT_NT:".data 4 s with
    | some n => some n
    | none =>
      match numTokLen "<<MT_SEG:".data 6 s with
      | some n => some n
      | none =>
        match numTokLen "<<MT_END:".data 6 s with
        | some n => some n
        | none => numTokLen "<<MT_SLOT:".data 6 s

/-- Character class `[A-Za-z0-9_:\-]` of `ANY_MT_TOKEN_RE`. -/
def mtBodyCh (c : Char) : Bool :=
  c.isAlphanum || c == '_' || c == ':' || c == '-'

/-- Matcher for `ANY_MT_TOKEN_RE` (`<<MT_[A-Za-z0-9_:\-]{1,64}>>`).  The body
class excludes `>`, so the greedy repetition is forced to the maximal run. -/
def mtTokenM : Matcher := fun _ s =>
  if "<<MT_".data.isPrefixOf s then
    let rest := s.drop 5
    let r := (rest.takeWhile mtBodyCh).length
    if 1 ≤ r ∧ r ≤ 64 ∧ ">>".data.isPrefixOf (rest.drop r) then some (5 + r + 2)
    else none
  else none

/-- `control_tokens_from_text`. -/
def controlTokensFromText (text : Str) : List Str :=
  if text.isEmpty then [] else findMatches controlM text

/-- `is_control_token`. -/
def isControlToken (s : Str) : Bool := CONTROL_TOKENS.contains s

/-- `split_by_control_sequence`: alternating plaintext / control-token parts,
beginning and ending with (possibly empty) plaintext. -/
def splitByControlSequence (text : Str) : List Str :=
  if text.isEmpty then [[]]
  else
    let sc := scanAll controlM text
    sc.1.foldr (fun p acc => p.1 :: p.2 :: acc) [sc.2]

/-- Insert-or-overwrite into an association list, mirroring
`HashMap::insert` (with lookups done by `List.lookup`, first match). -/
def upsert (k : Nat) (v : Str) : List (Nat × Str) → List (Nat × Str)
  | [] => [(k, v)]
  | (k', v') :: rest => if k' = k then (k, v) :: rest else (k', v') :: upsert k v rest

/-- Loop body of `parse_segmented_output`: the remaining input stands for the
`cursor`-suffix of the original text. -/
def parseSegmentedGo : Str → List Nat → List (Nat × Str) → Except String (List (Nat × Str))
  | _, [], acc => .ok acc
  | cur, id :: rest, acc =>
    match splitOnce (segStart id) cur with
    | none => .error "missing SEG start"
    | some (_, afterStart) =>
      match splitOnce (segEnd id) afterStart with
      | none => .error "missing SEG end"
      | some (body, afterEnd) => parseSegmentedGo afterEnd rest (upsert id body acc)

/-- `parse_segmented_output`. -/
def parseSegmentedOutput (text : Str) (expectedIds : List Nat) :
    Except String (List (Nat × Str)) :=
  parseSegmentedGo text expectedIds []

/-- Loop body of `parse_slot_output`.  The remaining input is the
`cursor`-suffix of the original text; it also returns the suffix left after
the last slot, on which the source performs its final (dead) check. -/
def parseSlotGo : Str → List Nat → List (Nat × Str) → Except String (List (Nat × Str) × Str)
  | cur, [], acc => .ok (acc, cur)
  | cur, id :: rest, acc =>
    match splitOnce (slotToken id) cur with
    | none => .error "missing SLOT"
    | some (_, afterMarker) =>
      match rest with
      | [] => .ok (upsert id afterMarker acc, [])
      | next :: _ =>
        match splitOnce (slotToken next) afterMarker with
        | none => .error "missing SLOT"
        | some (body, _) =>
          parseSlotGo (afterMarker.drop body.length) rest (upsert id body acc)

/-- `parse_slot_output`. -/
def parseSlotOutput (text : Str) (expectedIds : List Nat) :
    Except String (List (Nat × Str)) :=
  match expectedIds with
  | [] => .ok []
  | first :: _ =>
    match splitOnce (slotToken first) text with
    | none => .error "missing SLOT"
    | some (pre, _) =>
      if !trimEmpty pre then .error "unexpected_prefix_before_first_slot"
      else
        match parseSlotGo text expectedIds [] with
        | .error e => .error e
        | .ok (acc, rem) =>
          if rem.length ≠ 0 ∧ !trimEmpty rem then .error "unexpected_suffix_after_last_slot"
          else .ok acc

/-! ## freezer.rs

The `FREEZE_RE` alternation is embedded alternative by alternative, in the
order of the `format!` string building it.  Word boundaries `\b` follow the
regex crate's rule (a position where exactly one side is a word character);
word characters are approximated by ASCII alphanumerics plus underscore,
which is exact on ASCII text.  Unicode classes `\p{L}\p{N}` are approximated
by ASCII alphanumerics, Latin-1/Latin-Extended letters and the script ranges
named in the pattern. -/

/-- Word character for `\b` (ASCII approximation of the regex crate's `\w`). -/
def isWordCh (c : Char) : Bool := c.isAlphanum || c == '_'

/-- Wordness of an optional character (absent counts as non-word). -/
def isWordOpt : Option Char → Bool
  | none => false
  | some c => isWordCh c

/-- Word boundary between an optional previous and next character. -/
def boundary (prev next : Option Char) : Bool := isWordOpt prev != isWordOpt next

/-- The scripts of `other_script_run`: Devanagari, Bengali, Arabic, Cyrillic,
Greek, Hebrew, Thai, Hangul syllables, Hiragana, Katakana. -/
def isOtherScript (c : Char) : Bool :=
  let u := c.toNat
  (0x900 ≤ u ∧ u ≤ 0x97F) || (0x980 ≤ u ∧ u ≤ 0x9FF) || (0x600 ≤ u ∧ u ≤ 0x6FF) ||
  (0x400 ≤ u ∧ u ≤ 0x4FF) || (0x370 ≤ u ∧ u ≤ 0x3FF) || (0x590 ≤ u ∧ u ≤ 0x5FF) ||
  (0xE00 ≤ u ∧ u ≤ 0xE7F) || (0xAC00 ≤ u ∧ u ≤ 0xD7AF) ||
  (0x3040 ≤ u ∧ u ≤ 0x309F) || (0x30A0 ≤ u ∧ u ≤ 0x30FF)

/-- Approximation of `[\p{L}\p{N}]` used by `trademark_token`. -/
def isLetterNum (c : Char) : Bool :=
  c.isAlphanum || isOtherScript c || (0xC0 ≤ c.toNat ∧ c.toNat ≤ 0x24F)

/-- `trademark_token`: `[\p{L}\p{N}]{2,24}[®™©]`.  The class
excludes the trademark symbols, so the greedy repetition is the maximal run.
-/
def tmTokenM (s : Str) : Option Nat :=
  let r := (s.takeWhile isLetterNum).length
  if 2 ≤ r ∧ r ≤ 24 then
    match (s.drop r).head? with
    | some c => if c == '®' || c == '™' || c == '©' then some (r + 1) else none
    | none => none
  else none

/-- `other_script_run`: one or more characters of the listed script ranges. -/
def otherScriptM (s : Str) : Option Nat :=
  let r := (s.takeWhile isOtherScript).length
  if r = 0 then none else some r

/-- Character class `[^\s<>()]` of the `url` alternative. -/
def urlCh (c : Char) : Bool :=
  !(isWs c) && c != '<' && c != '>' && c != '(' && c != ')'

/-- `url`: `https?://[^\s<>()]+`. -/
def urlM (s : Str) : Option Nat :=
  if "http".data.isPrefixOf s then
    let k := if (s.drop 4).head? = some 's' then 5 else 4
    if "://".data.isPrefixOf (s.drop k) then
      let r := ((s.drop (k + 3)).takeWhile urlCh).length
      if r = 0 then none else some (k + 3 + r)
    else none
  else none

/-- Local-part class `[A-Za-z0-9._%+\-]` of the `email` alternative. -/
def emailLocalCh (c : Char) : Bool :=
  c.isAlphanum || c == '.' || c == '_' || c == '%' || c == '+' || c == '-'

/-- Domain class `[A-Za-z0-9.\-]` of the `email` alternative. -/
def emailDomCh (c : Char) : Bool := c.isAlphanum || c == '.' || c == '-'

/-- Backtracking over the split of the email domain
`[A-Za-z0-9.\-]+\.[A-Za-z]{2,}`: the first class prefers the longest prefix
`j` of the maximal domain run such that a dot and at least two letters
follow. -/
def emailDomSplit (s : Str) : Nat → Option Nat
  | 0 => none
  | j + 1 =>
    if (s.drop (j + 1)).head? = some '.' then
      let m := ((s.drop (j + 2)).takeWhile Char.isAlpha).length
      if 2 ≤ m then some (j + 2 + m) else emailDomSplit s j
    else emailDomSplit s j

/-- `email`: `[A-Za-z0-9._%+\-]+@[A-Za-z0-9.\-]+\.[A-Za-z]{2,}`. -/
def emailM (s : Str) : Option Nat :=
  let l := (s.takeWhile emailLocalCh).length
  if l = 0 then none
  else if (s.drop l).head? = some '@' then
    let s2 := s.drop (l + 1)
    let d := (s2.takeWhile emailDomCh).length
    (emailDomSplit s2 d).map (fun n => l + 1 + n)
  else none

/-- Path-component class `[^\\/:*?"<>|\r\n]` of the `win_path` alternative. -/
def pathCh (c : Char) : Bool :=
  c != '\\' && c != '/' && c != ':' && c != '*' && c != '?' && c != '"' &&
  c != '<' && c != '>' && c != '|' && c != '\r' && c != '\n'

/-- Characters consumed by `(?:[^\\...]+\\)*[^\\...]*` after the drive
letter: the component class excludes the backslash, so the greedy star takes
every nonempty backslash-terminated component and the trailing class takes
the final maximal run. -/
def winCompsGo : Nat → Str → Nat
  | 0, s => (s.takeWhile pathCh).length
  | fuel + 1, s =>
    let r := (s.takeWhile pathCh).length
    if r ≥ 1 ∧ (s.drop r).head? = some '\\' then r + 1 + winCompsGo fuel (s.drop (r + 1))
    else r

/-- `win_path`: `(?:[A-Za-z]:\\(?:[^\\/:*?"<>|\r\n]+\\)*[^\\/:*?"<>|\r\n]*)`. -/
def winPathM (s : Str) : Option Nat :=
  match s with
  | a :: ':' :: '\\' :: rest =>
    if a.isAlpha then some (3 + winCompsGo rest.length rest) else none
  | _ => none

/-- Inner class `[^{}\r\n]` of the `placeholder` alternative. -/
def phInnerCh (c : Char) : Bool :=
  c != '\x7b' && c != '\x7d' && c != '\r' && c != '\n'

/-- Shared body of the two `placeholder` branches, after their distinct
openers: `[^{}\r\n]{1,100}\}`. -/
def phBody (pre : Nat) (rest : Str) : Option Nat :=
  let r := (rest.takeWhile phInnerCh).length
  if 1 ≤ r ∧ r ≤ 100 ∧ (rest.drop r).head? = some '\x7d' then some (pre + r + 1) else none

/-- `placeholder`: `(?:\{[^{}\r\n]{1,100}\}|\$\{[^{}\r\n]{1,100}\})`. -/
def placeholderM (s : Str) : Option Nat :=
  match s with
  | '\x7b' :: rest => phBody 1 rest
  | '$' :: '\x7b' :: rest => phBody 2 rest
  | _ => none

/-- `percent_slot`: `%\d+`. -/
def percentSlotM (s : Str) : Option Nat :=
  match s with
  | '%' :: rest =>
    let r := (rest.takeWhile Char.isDigit).length
    if r = 0 then none else some (1 + r)
  | _ => none

/-- Length of the maximal digit run at the start of `s`. -/
def digitsRun (s : Str) : Nat := (s.takeWhile Char.isDigit).length

/-- Candidate consumption lengths of `(?:[.,]\d+)*`, in the greedy
backtracking order (most repetitions first, down to zero). -/
def sepDigitStar : Nat → Str → List Nat
  | 0, _ => [0]
  | fuel + 1, s =>
    match s with
    | c :: rest =>
      if c == '.' || c == ',' then
        let r := digitsRun rest
        if r ≥ 1 then (sepDigitStar fuel (rest.drop r)).map (· + 1 + r) ++ [0] else [0]
      else [0]
    | [] => [0]

/-- Candidate consumption lengths of `(?:[.,]\d+)+` (at least one
repetition). -/
def sepDigitPlus (s : Str) : List Nat :=
  match s with
  | c :: rest =>
    if c == '.' || c == ',' then
      let r := digitsRun rest
      if r ≥ 1 then (sepDigitStar rest.length (rest.drop r)).map (· + 1 + r) else []
    else []
  | [] => []

/-- Candidate consumption lengths of `(?:-\d+)+`. -/
def dashDigitPlusGo : Nat → Str → List Nat
  | 0, _ => []
  | fuel + 1, s =>
    match s with
    | '-' :: rest =>
      let r := digitsRun rest
      if r ≥ 1 then
        let deeper := (dashDigitPlusGo fuel (rest.drop r)).map (· + 1 + r)
        deeper ++ [1 + r]
      else []
    | _ => []

/-- Candidate consumption lengths of `(?:-\d+(?:[.,]\d+)*)?` (present, with
its own greedy tail, before absent). -/
def optDashSeq (s : Str) : List Nat :=
  match s with
  | '-' :: rest =>
    let r := digitsRun rest
    if r ≥ 1 then ((sepDigitStar rest.length (rest.drop r)).map (· + 1 + r)) ++ [0] else [0]
  | _ => [0]

/-- Candidate consumption lengths of `(?:\([A-Za-z0-9]+\))*`, greedy first. -/
def parenStar : Nat → Str → List Nat
  | 0, _ => [0]
  | fuel + 1, s =>
    match s with
    | '(' :: rest =>
      let r := (rest.takeWhile Char.isAlphanum).length
      if r ≥ 1 ∧ (rest.drop r).head? = some ')' then
        (parenStar fuel (rest.drop (r + 1))).map (· + r + 2) ++ [0]
      else [0]
    | _ => [0]

/-- First candidate total length whose end position satisfies the trailing
`\b` (the character after the match, if any, must be a non-word character
exactly when the last matched character is a word character; every candidate
here ends in a digit, a letter or `)`). -/
def pickBoundary (s : Str) (cands : List Nat) : Option Nat :=
  cands.find? (fun len => boundary ((s.take len).getLast?) ((s.drop len).head?))

/-- Branch `\b\d+(?:[.,]\d+)+(?:-\d+(?:[.,]\d+)*)?(?:\([A-Za-z0-9]+\))*\b` of
`clause_ref`. -/
def clauseB1 (prev : Option Char) (s : Str) : Option Nat :=
  if isWordOpt prev then none
  else
    let d := digitsRun s
    if d = 0 then none
    else
      let cands :=
        (sepDigitPlus (s.drop d)).flatMap (fun n1 =>
          (optDashSeq (s.drop (d + n1))).flatMap (fun n2 =>
            (parenStar s.length (s.drop (d + n1 + n2))).map (fun n3 => d + n1 + n2 + n3)))
      pickBoundary s cands

/-- Branch `\b\d+(?:-\d+)+(?:\([A-Za-z0-9]+\))*\b` of `clause_ref`. -/
def clauseB2 (prev : Option Char) (s : Str) : Option Nat :=
  if isWordOpt prev then none
  else
    let d := digitsRun s
    if d = 0 then none
    else
      let cands :=
        (dashDigitPlusGo s.length (s.drop d)).flatMap (fun n1 =>
          (parenStar s.length (s.drop (d + n1))).map (fun n2 => d + n1 + n2))
      pickBoundary s cands

/-- Branch `\b\d+\([A-Za-z0-9]+\)(?:\([A-Za-z0-9]+\))*\b` of `clause_ref`. -/
def clauseB3 (prev : Option Char) (s : Str) : Option Nat :=
  if isWordOpt prev then none
  else
    let d := digitsRun s
    if d = 0 then none
    else
      match s.drop d with
      | '(' :: rest =>
        let r := (rest.takeWhile Char.isAlphanum).length
        if r ≥ 1 ∧ (rest.drop r).head? = some ')' then
          let cands :=
            (parenStar s.length (s.drop (d + r + 2))).map (fun n => d + r + 2 + n)
          pickBoundary s cands
        else none
      | _ => none

/-- Roman-numeral class `[IVXLCDM]`. -/
def isRoman (c : Char) : Bool :=
  c == 'I' || c == 'V' || c == 'X' || c == 'L' || c == 'C' || c == 'D' || c == 'M'

/-- Branch `\b[IVXLCDM]{1,8}\b` of `clause_ref`.  Roman letters are word
characters, so a shortened greedy repetition always faces a word character
and only the full run (when it is at most eight long) can satisfy the
trailing boundary. -/
def clauseB4 (prev : Option Char) (s : Str) : Option Nat :=
  if isWordOpt prev then none
  else
    let r := (s.takeWhile isRoman).length
    if 1 ≤ r ∧ r ≤ 8 ∧ !isWordOpt ((s.drop r).head?) then some r else none

/-- `clause_ref`: the four branches in the order of the source pattern. -/
def clauseRefM (prev : Option Char) (s : Str) : Option Nat :=
  match clauseB1 prev s with
  | some n => some n
  | none =>
    match clauseB2 prev s with
    | some n => some n
    | none =>
      match clauseB3 prev s with
      | some n => some n
      | none => clauseB4 prev s

/-- `enum_num`: `\(\d{1,3}\)`. -/
def enumNumM (s : Str) : Option Nat :=
  match s with
  | '(' :: rest =>
    let r := digitsRun rest
    if 1 ≤ r ∧ r ≤ 3 ∧ (rest.drop r).head? = some ')' then some (r + 2) else none
  | _ => none

/-- Class `[ivxlcdmIVXLCDM]` of `enum_roman`. -/
def isRomanCi (c : Char) : Bool := isRoman c || isRoman c.toUpper

/-- `enum_roman`: `\((?:[ivxlcdmIVXLCDM]{1,6})\)`. -/
def enumRomanM (s : Str) : Option Nat :=
  match s with
  | '(' :: rest =>
    let r := (rest.takeWhile isRomanCi).length
    if 1 ≤ r ∧ r ≤ 6 ∧ (rest.drop r).head? = some ')' then some (r + 2) else none
  | _ => none

/-- `enum_alpha`: `\([A-Za-z]\)`. -/
def enumAlphaM (s : Str) : Option Nat :=
  match s with
  | '(' :: c :: ')' :: _ => if c.isAlpha then some 3 else none
  | _ => none

/-- `dot_leader`: `[.…]{8,}`. -/
def dotLeaderM (s : Str) : Option Nat :=
  let r := (s.takeWhile (fun c => c == '.' || c == '…')).length
  if 8 ≤ r then some r else none

/-- `underscore_leader`: `_{5,}`. -/
def underscoreLeaderM (s : Str) : Option Nat :=
  let r := (s.takeWhile (· == '_')).length
  if 5 ≤ r then some r else none

/-- Class of `dash_leader`:
`[-‐‑‒–—―−]`. -/
def isDashLeadCh (c : Char) : Bool :=
  c == '-' || (0x2010 ≤ c.toNat ∧ c.toNat ≤ 0x2015) || c.toNat = 0x2212

/-- `dash_leader`: a run of at least five dash-like characters. -/
def dashLeaderM (s : Str) : Option Nat :=
  let r := (s.takeWhile isDashLeadCh).length
  if 5 ≤ r then some r else none

/-- `var_marker`: `\b[XYZ]\b`. -/
def varMarkerM (prev : Option Char) (s : Str) : Option Nat :=
  match s with
  | c :: rest =>
    if (c == 'X' || c == 'Y' || c == 'Z') ∧ !isWordOpt prev ∧ !isWordOpt rest.head? then
      some 1
    else none
  | [] => none

/-- `FREEZE_RE`: the full alternation, alternatives in source order. -/
def freezeM : Matcher := fun prev s =>
  match tmTokenM s with
  | some n => some n
  | none =>
  match otherScriptM s with
  | some n => some n
  | none =>
  match urlM s with
  | some n => some n
  | none =>
  match emailM s with
  | some n => some n
  | none =>
  match winPathM s with
  | some n => some n
  | none =>
  match placeholderM s with
  | some n => some n
  | none =>
  match percentSlotM s with
  | some n => some n
  | none =>
  match clauseRefM prev s with
  | some n => some n
  | none =>
  match enumNumM s with
  | some n => some n
  | none =>
  match enumRomanM s with
  | some n => some n
  | none =>
  match enumAlphaM s with
  | some n => some n
  | none =>
  match dotLeaderM s with
  | some n => some n
  | none =>
  match underscoreLeaderM s with
  | some n => some n
  | none => varMarkerM prev s

/-- `FreezeMaskSpan` from ir.rs (offsets in characters, not bytes). -/
structure FreezeMaskSpan where
  srcStart : Nat
  srcEnd : Nat
  token : Str
  original : Str
deriving DecidableEq, Repr

/-- `FreezeResult` from freezer.rs (`nt_map` as an association list in
insertion order; `HashMap` lookups become `List.lookup`). -/
structure FreezeResult where
  text : Str
  ntMap : List (Str × Str)
  mask : List FreezeMaskSpan
deriving Repr

/-- Interleaves the matches of one `freeze_plain` scan with fresh NT tokens,
recording map entries and mask spans; `pos` is the character position of the
current point inside the plain piece and `base` the position of the piece in
the whole input.  Returns the frozen text, map entries, mask spans and the
next free id. -/
def freezePlainGo (base : Nat) :
    Nat → Nat → List (Str × Str) → Str → Str × List (Str × Str) × List FreezeMaskSpan × Nat
  | _, id0, [], last => (last, [], [], id0)
  | pos, id0, (g, f) :: rest, last =>
    let tok := ntToken id0
    let start := pos + g.length
    let out := freezePlainGo base (start + f.length) (id0 + 1) rest last
    (g ++ tok ++ out.1, (tok, f) :: out.2.1,
      ⟨base + start, base + start + f.length, tok, f⟩ :: out.2.2.1, out.2.2.2)

/-- `freeze_plain` (the closure inside `freeze_text`): scan a sentinel-free
piece with `FREEZE_RE`, replacing each match by a fresh NT token. -/
def freezePlain (plain : Str) (base : Nat) (id0 : Nat) :
    Str × List (Str × Str) × List FreezeMaskSpan × Nat :=
  let sc := scanAll freezeM plain
  freezePlainGo base 0 id0 sc.1 sc.2

/-- Outer loop of `freeze_text` over the pieces split by
`ANY_SENTINEL_RE.find_iter`: sentinel pieces pass through unchanged, plain
pieces are frozen. -/
def freezeTextGo : Nat → Nat → List (Str × Str) → Str → Str × List (Str × Str) × List FreezeMaskSpan × Nat
  | pos, id0, [], lastPlain => freezePlain lastPlain pos id0
  | pos, id0, (g, sent) :: rest, lastPlain =>
    let o1 := freezePlain g pos id0
    let o2 := freezeTextGo (pos + g.length + sent.length) o1.2.2.2 rest lastPlain
    (o1.1 ++ sent ++ o2.1, o1.2.1 ++ o2.2.1, o1.2.2.1 ++ o2.2.2.1, o2.2.2.2)

/-- `freeze_text`. -/
def freezeText (text : Str) : FreezeResult :=
  let sc := scanAll anySentinelM text
  let out := freezeTextGo 0 1 sc.1 sc.2
  ⟨out.1, out.2.1, out.2.2.1⟩

/-- Replacement function of `unfreeze_text`: look the token up in the NT
map, keeping unknown tokens intact. -/
def ntLookup (map : List (Str × Str)) (tok : Str) : Str :=
  ((map.lookup tok).getD tok)

/-- `unfreeze_text`. -/
def unfreezeText (text : Str) (map : List (Str × Str)) : Str :=
  if map.isEmpty || text.isEmpty then text
  else replaceAll ntM (ntLookup map) text

/-! ## ir.rs -/

/-- The fields of `TranslationUnit` (ir.rs) used by the validator and the
segmented translator; `nt_map` is an association list in insertion order. -/
structure Tu where
  tuId : Nat
  frozenSurface : Str
  ntMap : List (Str × Str)
  draftTranslation : Option Str := none
  altTranslation : Option Str := none
  draftTranslationModel : Option Str := none
  altTranslationModel : Option Str := none
deriving Repr

/-! ## quality.rs -/

/-- Matcher for `DIGIT_RE` (`\d+`). -/
def digitM : Matcher := fun _ s =>
  let r := digitsRun s
  if r = 0 then none else some r

/-- The maximal digit runs of a text, in order. -/
def digitRuns (s : Str) : List Str := findMatches digitM s

/-- `digit_counter`: the `HashMap<String, usize>` of run counts is one and
the same thing as the multiset of maximal digit runs. -/
def digitCounter (s : Str) : Multiset Str := (digitRuns s : Multiset Str)

/-- `normalize_legal_id` character mapping (whitespace is skipped). -/
def normLegalCh (c : Char) : Option Char :=
  if c == '（' then some '('
  else if c == '）' then some ')'
  else if c == '，' || c == ',' then some '.'
  else if c == '．' || c == '。' then some '.'
  else if c == '－' || c == '–' || c == '—' || c == '−' then some '-'
  else if isWs c then none
  else some c

/-- `normalize_legal_id`. -/
def normalizeLegalId (id : Str) : Str := (id.filterMap normLegalCh).map Char.toUpper

/-- `is_compound_legal_id`. -/
def isCompoundLegalId (id : Str) : Bool :=
  (id.any (fun c => c == '.' || c == '-' || c == '(' || c == ')')) || id.any Char.isAlpha

/-- Length of the capture group of `LEGAL_ID_RE` and `EN_LEGAL_REF_RE`
(`\d+(?:[.,]\d+)*(?:-\d+(?:[.,]\d+)*)?(?:\([A-Za-z0-9]+\))*|[IVXLCDM]{1,8}`
followed by `\b`), matched at the start of `s`. -/
def legalGroupLen (s : Str) : Option Nat :=
  let numeric :=
    let d := digitsRun s
    if d = 0 then none
    else
      let cands :=
        (sepDigitStar s.length (s.drop d)).flatMap (fun n1 =>
          (optDashSeq (s.drop (d + n1))).flatMap (fun n2 =>
            (parenStar s.length (s.drop (d + n1 + n2))).map (fun n3 => d + n1 + n2 + n3)))
      pickBoundary s cands
  match numeric with
  | some n => some n
  | none =>
    let r := (s.takeWhile isRoman).length
    if 1 ≤ r ∧ r ≤ 8 ∧ !isWordOpt ((s.drop r).head?) then some r else none

/-- Hit of `LEGAL_ID_RE` (leading `\b`, then the group): the whole match is
the capture. -/
def legalIdHit (prev : Option Char) (s : Str) : Option Nat :=
  if isWordOpt prev then none else legalGroupLen s

/-- Matcher for `LEGAL_ID_RE`. -/
def legalIdM : Matcher := legalIdHit

/-- The keyword alternatives of `EN_LEGAL_REF_RE`, in source order. -/
def enLegalKeywords : List Str :=
  ["section".data, "article".data, "clause".data, "paragraph".data, "schedule".data,
    "sec".data, "art".data, "cl".data, "para".data, "sch".data]

/-- Case-insensitive (ASCII) prefix test for the `(?i)` keyword part. -/
def ciPrefixOf (pat : Str) (s : Str) : Bool :=
  (pat.map Char.toLower).isPrefixOf (s.map Char.toLower)

/-- Attempt of one `EN_LEGAL_REF_RE` keyword alternative at the start of
`s`: keyword, optional dot (greedy), mandatory whitespace run, then the
captured group with its trailing boundary.  Returns the prefix length
(keyword, dot and whitespace) and the group length. -/
def enLegalKwHit (kw : Str) (s : Str) : Option (Nat × Nat) :=
  if ciPrefixOf kw s then
    let afterKw := s.drop kw.length
    let dot := if afterKw.head? = some '.' then 1 else 0
    let wsRun := ((s.drop (kw.length + dot)).takeWhile isWs).length
    if wsRun = 0 then none
    else
      let pre := kw.length + dot + wsRun
      (legalGroupLen (s.drop pre)).map (fun g => (pre, g))
  else none

/-- Hit of `EN_LEGAL_REF_RE` at a position: the leading `\b`, then the first
keyword alternative whose full tail succeeds. -/
def enLegalHit (prev : Option Char) (s : Str) : Option (Nat × Nat) :=
  if isWordOpt prev then none
  else enLegalKeywords.firstM (fun kw => enLegalKwHit kw s)

/-- Matcher for `EN_LEGAL_REF_RE` (match length only). -/
def enLegalM : Matcher := fun prev s => (enLegalHit prev s).map (fun pr => pr.1 + pr.2)

/-- Extract and normalize capture-group texts from a finished scan.  Each
match is re-examined in its full right context (group splitting under the
trailing `\b` depends on the character after the match). -/
def capturesGo (hit : Option Char → Str → Option (Nat × Nat)) :
    Option Char → List (Str × Str) → Str → List Str
  | _, [], _ => []
  | prev, (g, t) :: ps, last =>
    let prevHere := if g.isEmpty then prev else g.getLast?
    let ctx := t ++ joinPairs ps ++ last
    let cap :=
      match hit prevHere ctx with
      | some (pre, grp) => [normalizeLegalId ((ctx.drop pre).take grp)]
      | none => []
    cap ++ capturesGo hit t.getLast? ps last

/-- `en_legal_ref_ids`: normalized capture groups of `EN_LEGAL_REF_RE`. -/
def enLegalRefIds (text : Str) : List Str :=
  let sc := scanAll enLegalM text
  capturesGo enLegalHit none sc.1 sc.2

/-- `legal_id_candidates`: normalized matches of `LEGAL_ID_RE`. -/
def legalIdCandidates (text : Str) : List Str :=
  let sc := scanAll legalIdM text
  capturesGo (fun prev s => (legalIdHit prev s).map (fun n => (0, n))) none sc.1 sc.2

/-- `string_counter` as a multiset (empty strings are skipped, as in the
source). -/
def strCounter (items : List Str) : Multiset Str :=
  ((items.filter (fun s => !s.isEmpty)) : Multiset Str)

/-- The zip loop of the control-token layout check. -/
def layoutLoop : List (Str × Str) → Except String Unit
  | [] => .ok ()
  | (s, t) :: rest =>
    if isControlToken s then
      if s ≠ t then .error "control_token_layout_mismatch" else layoutLoop rest
    else if trimEmpty s ≠ trimEmpty t then .error "control_token_layout_mismatch"
    else layoutLoop rest

/-- The per-token NT count loop of `validate_translation`. -/
def ntCountLoop (src tgt : Str) : List (Str × Str) → Except String Unit
  | [] => .ok ()
  | (tok, _) :: rest =>
    if countLit tok src ≠ countLit tok tgt then
      .error ("nt_token_count_mismatch:" ++ String.mk tok)
    else ntCountLoop src tgt rest

/-- The per-id comparison loop over the source legal-reference map
(`HashMap` iteration order does not affect whether an error is returned). -/
def legalRefLoop (srcC tgtC : List Str) : List Str → Except String Unit
  | [] => .ok ()
  | id :: rest =>
    if srcC.count id ≠ tgtC.count id then
      .error ("legal_ref_id_mismatch id=" ++ String.mk id)
    else legalRefLoop srcC tgtC rest

/-- The trailing compound-identifier check of `validate_translation`. -/
def compoundCheck (srcPlain tgtPlain : Str) : Except String Unit :=
  let srcCompound := strCounter ((legalIdCandidates srcPlain).filter isCompoundLegalId)
  if srcCompound ≠ 0 then
    let tgtCompound := strCounter ((legalIdCandidates tgtPlain).filter isCompoundLegalId)
    if srcCompound ≠ tgtCompound then .error "compound_legal_id_mismatch"
    else .ok ()
  else .ok ()

/-- The English legal-reference check of `validate_translation`, followed by
the compound-identifier check (the source's two final early-return blocks).
-/
def legalChecks (srcPlain tgtPlain : Str) : Except String Unit :=
  let srcLegalIds := enLegalRefIds srcPlain
  if !srcLegalIds.isEmpty then
    let srcC := (srcLegalIds.filter isCompoundLegalId).filter (fun s => !s.isEmpty)
    if !srcC.isEmpty then
      let tgtC := (legalIdCandidates tgtPlain |>.filter isCompoundLegalId).filter
        (fun s => !s.isEmpty)
      match legalRefLoop srcC tgtC srcC.dedup with
      | .error e => .error e
      | .ok () => compoundCheck srcPlain tgtPlain
    else compoundCheck srcPlain tgtPlain
  else compoundCheck srcPlain tgtPlain

/-- `validate_translation` (quality.rs); the source's early `return Err`
statements become nested matches. -/
def validateTranslation (tu : Tu) (translated : Str) : Except String Unit :=
  if trimEmpty translated then .error "empty_output"
  else
    match (findMatches mtTokenM translated).find?
        (fun tok => !(findMatches mtTokenM tu.frozenSurface).contains tok) with
    | some tok => .error ("unexpected_mt_token:" ++ String.mk tok)
    | none =>
      if findMatches anySentinelM tu.frozenSurface ≠ findMatches anySentinelM translated then
        .error "sentinel_sequence_mismatch"
      else if controlTokensFromText tu.frozenSurface ≠ controlTokensFromText translated then
        .error "control_token_sequence_mismatch"
      else if (splitByControlSequence tu.frozenSurface).length ≠
          (splitByControlSequence translated).length then
        .error "control_token_layout_mismatch"
      else
        match layoutLoop ((splitByControlSequence tu.frozenSurface).zip
            (splitByControlSequence translated)) with
        | .error e => .error e
        | .ok () =>
          match ntCountLoop tu.frozenSurface translated tu.ntMap with
          | .error e => .error e
          | .ok () =>
            if digitCounter (replaceAll mtTokenM (fun _ => [' '])
                  (unfreezeText tu.frozenSurface tu.ntMap)) ≠
                digitCounter (replaceAll mtTokenM (fun _ => [' '])
                  (unfreezeText translated tu.ntMap)) then
              .error "digits_mismatch"
            else
              legalChecks
                (replaceAll mtTokenM (fun _ => [' ']) (unfreezeText tu.frozenSurface tu.ntMap))
                (replaceAll mtTokenM (fun _ => [' ']) (unfreezeText translated tu.ntMap))

/-! ## docx/xml.rs

`parse_xml_part` delegates tokenisation to the external `quick_xml` reader;
the reader itself is modelled here after the behaviour the spec describes
(section 4.2): whitespace kept, attribute values captured raw
(entity-escaped) between their quotes, text nodes unescaped, processing
instructions kept as one content string.  Bytes are modelled as characters,
SHA-256 content hashes are not modelled (no claim depends on a hash value).
-/

/-- `XmlEvent` from docx/xml.rs. -/
inductive XmlEvent where
  | decl (version : Str) (encoding : Option Str) (standalone : Option Str)
  | start (name : Str) (attrs : List (Str × Str))
  | endE (name : Str)
  | empty (name : Str) (attrs : List (Str × Str))
  | text (t : Str)
  | cdata (t : Str)
  | comment (t : Str)
  | pi (content : Str)
  | doctype (t : Str)
deriving DecidableEq, Repr

/-- Decoded character of one entity body (the part between `&` and `;`):
the five predefined named entities and decimal or hexadecimal character
references. -/
def entityChar (body : Str) : Option Char :=
  if body = "amp".data then some '&'
  else if body = "lt".data then some '<'
  else if body = "gt".data then some '>'
  else if body = "quot".data then some '"'
  else if body = "apos".data then some '\''
  else
    match body with
    | '#' :: 'x' :: ds =>
      if ds ≠ [] ∧ ds.all (fun c => c.isDigit || ('a' ≤ c.toLower ∧ c.toLower ≤ 'f')) then
        let n := ds.foldl (fun acc c =>
          acc * 16 + (if c.isDigit then c.toNat - 48 else c.toLower.toNat - 87)) 0
        if h : n.isValidChar then some (Char.ofNatAux n h) else none
      else none
    | '#' :: ds =>
      if ds ≠ [] ∧ ds.all Char.isDigit then
        let n := readNat ds
        if h : n.isValidChar then some (Char.ofNatAux n h) else none
      else none
    | _ => none

/-- Entity unescaping of a text node (`BytesText::unescape`): any invalid or
unterminated entity reference is an error. -/
def unescape : Nat → Str → Except String Str
  | _, [] => .ok []
  | 0, _ => .error "unescape fuel"
  | fuel + 1, '&' :: rest =>
    match splitOnce ";".data rest with
    | none => .error "unterminated entity"
    | some (body, after) =>
      match entityChar body with
      | none => .error "invalid entity"
      | some c => (unescape fuel after).map (c :: ·)
  | fuel + 1, c :: rest => (unescape fuel rest).map (c :: ·)

/-- Text escaping on write (`escape_text_into`): `&`, `<`, `>` only. -/
def escapeText (t : Str) : Str :=
  t.flatMap (fun c =>
    if c = '&' then "&amp;".data
    else if c = '<' then "&lt;".data
    else if c = '>' then "&gt;".data
    else [c])

/-- Scan the inside of a tag up to the first `>` that is not inside a quoted
attribute value, returning the tag content and the rest of the input. -/
def scanTag : Option Char → Str → Option (Str × Str)
  | _, [] => none
  | some q, c :: rest =>
    if c = q then (scanTag none rest).map (fun pr => (c :: pr.1, pr.2))
    else (scanTag (some q) rest).map (fun pr => (c :: pr.1, pr.2))
  | none, c :: rest =>
    if c = '>' then some ([], rest)
    else if c = '"' || c = '\'' then (scanTag (some c) rest).map (fun pr => (c :: pr.1, pr.2))
    else (scanTag none rest).map (fun pr => (c :: pr.1, pr.2))

/-- Attribute-list parsing (the `Attributes` iterator): whitespace-separated
`key="raw value"` or `key='raw value'` pairs, values kept raw, a value
terminated only by its own quote character, and every value followed by
whitespace or the end of the tag. -/
def parseAttrsGo : Nat → Str → Except String (List (Str × Str))
  | 0, _ => .error "attrs fuel"
  | fuel + 1, s =>
    let s := s.dropWhile isWs
    match s with
    | [] => .ok []
    | _ =>
      let key := s.takeWhile (fun c => c ≠ '=' ∧ !isWs c)
      if key.isEmpty then .error "empty attr key"
      else if key.any (fun c => c = '"' ∨ c = '\'' ∨ c = '>') then .error "invalid attr key"
      else
        let s1 := (s.drop key.length).dropWhile isWs
        match s1 with
        | '=' :: s2 =>
          match s2.dropWhile isWs with
          | q :: s4 =>
            if q = '"' || q = '\'' then
              let v := s4.takeWhile (· ≠ q)
              match (s4.drop v.length) with
              | _ :: after =>
                match after with
                | [] => (parseAttrsGo fuel []).map ((key, v) :: ·)
                | c :: _ =>
                  if isWs c then (parseAttrsGo fuel after).map ((key, v) :: ·)
                  else .error "attr not followed by whitespace"
              | [] => .error "unterminated attr value"
            else .error "unquoted attr value"
          | [] => .error "missing attr value"
        | _ => .error "missing attr eq"

/-- Parse the content of an element tag (between `<` and `>`), producing a
`start` or `empty` event according to a trailing `/`.  Names carrying quote
characters or an inner `>` (possible in the quote-aware tag scan of
malformed input, never in well-formed XML) and names ending in `/` are
rejected. -/
def parseTagContent (content : Str) : Except String XmlEvent :=
  let isEmptyTag := content.getLast? = some '/'
  let body := if isEmptyTag then content.dropLast else content
  let name := body.takeWhile (fun c => !isWs c)
  if name.isEmpty then .error "empty tag name"
  else if name.any (fun c => c = '"' ∨ c = '\'' ∨ c = '>') ∨ name.getLast? = some '/' then
    .error "invalid tag name"
  else
    (parseAttrsGo body.length (body.drop name.length)).map (fun attrs =>
      if isEmptyTag then .empty name attrs else .start name attrs)

/-- Predicate sending `<?...?>` content to the declaration branch: the
target (first word) is exactly `xml`. -/
def isDeclInner (inner : Str) : Bool := inner.takeWhile (fun c => !isWs c) = "xml".data

/-- Parse the content of an XML declaration: the first attribute must be
`version` (`decl version` is mandatory in the source, via `d.version()?`);
`encoding` and `standalone` are optional lookups. -/
def parseDecl (inner : Str) : Except String XmlEvent := do
  let attrs ← parseAttrsGo inner.length (inner.drop 3)
  match attrs with
  | (k, v) :: others =>
    if k = "version".data then
      pure (.decl v (others.lookup "encoding".data) (others.lookup "standalone".data))
    else throw "decl version"
  | [] => throw "decl version"

/-- Parse one event from the head of the input; `none` at end of input. -/
def parseOne (s : Str) : Except String (Option (XmlEvent × Str)) :=
  match s with
  | [] => .ok none
  | '<' :: rest =>
    if "!--".data.isPrefixOf rest then
      match splitOnce "-->".data (rest.drop 3) with
      | some (content, after) => .ok (some (.comment content, after))
      | none => .error "unterminated comment"
    else if "![CDATA[".data.isPrefixOf rest then
      match splitOnce "]]>".data (rest.drop 8) with
      | some (content, after) => .ok (some (.cdata content, after))
      | none => .error "unterminated cdata"
    else if "!DOCTYPE".data.isPrefixOf rest then
      match splitOnce ">".data (rest.drop 8) with
      | some (content, after) => .ok (some (.doctype content, after))
      | none => .error "unterminated doctype"
    else if "!".data.isPrefixOf rest then .error "unsupported markup"
    else if "?".data.isPrefixOf rest then
      match splitOnce "?>".data (rest.drop 1) with
      | some (inner, after) =>
        if isDeclInner inner then (parseDecl inner).map (fun ev => some (ev, after))
        else .ok (some (.pi inner, after))
      | none => .error "unterminated pi"
    else if "/".data.isPrefixOf rest then
      match splitOnce ">".data (rest.drop 1) with
      | some (name, after) =>
        if name.isEmpty then .error "empty tag name" else .ok (some (.endE name, after))
      | none => .error "unterminated end tag"
    else
      match scanTag none rest with
      | some (content, after) => (parseTagContent content).map (fun ev => some (ev, after))
      | none => .error "unterminated tag"
  | _ =>
    let run := s.takeWhile (· ≠ '<')
    (unescape run.length run).map (fun t => some (.text t, s.drop run.length))

/-- The event loop of `parse_xml_part`. -/
def parseEvents : Nat → Str → Except String (List XmlEvent)
  | 0, _ => .error "parse fuel"
  | fuel + 1, s => do
    match ← parseOne s with
    | none => pure []
    | some (ev, rest) => (parseEvents fuel rest).map (ev :: ·)

/-- `parse_xml_part` (events only; the name and baseline hash of `XmlPart`
carry no information the claims use). -/
def parseXmlPart (s : Str) : Except String (List XmlEvent) :=
  parseEvents (s.length + 1) s

/-- One attribute as written by `write_start_like`. -/
def writeAttr (a : Str × Str) : Str :=
  ' ' :: a.1 ++ '=' :: '"' :: a.2 ++ ['"']

/-- `write_start_like`. -/
def writeStartLike (name : Str) (attrs : List (Str × Str)) (emptyTag : Bool) : Str :=
  '<' :: name ++ (attrs.flatMap writeAttr) ++ (if emptyTag then "/>".data else ">".data)

/-- One event as serialized by `write_xml_part` (the declaration in the
shape `quick_xml`'s writer emits for `BytesDecl::new`). -/
def writeEvent : XmlEvent → Str
  | .decl v e st =>
    "<?xml version=\"".data ++ v ++ "\"".data ++
      (match e with
        | some enc => " encoding=\"".data ++ enc ++ "\"".data
        | none => []) ++
      (match st with
        | some sa => " standalone=\"".data ++ sa ++ "\"".data
        | none => []) ++ "?>".data
  | .start name attrs => writeStartLike name attrs false
  | .endE name => "</".data ++ name ++ ">".data
  | .empty name attrs => writeStartLike name attrs true
  | .text t => escapeText t
  | .cdata t => "<![CDATA[".data ++ t ++ "]]>".data
  | .comment t => "<!--".data ++ t ++ "-->".data
  | .pi c => "<?".data ++ c ++ "?>".data
  | .doctype t => "<!DOCTYPE".data ++ t ++ ">".data

/-- `write_xml_part`. -/
def writeEvents (evs : List XmlEvent) : Str := evs.flatMap writeEvent

/-! ## docx/decompose.rs

The pure core of extraction and merging.  ZIP input and output, the blob
side-car file and its SHA-256 verification are file-system and cryptography
concerns outside the shallow embedding: entries carry their (decoded) bytes
directly, and per-entry ZIP metadata (compression code, timestamp, unix
mode), which the source copies through unchanged, is not represented.  The
field `placeholder_prefix` of the JSON structures is rendered as `phPfx`.
-/

/-- `SlotKind`. -/
inductive SlotKind where
  | text
  | cdata
  | attr
deriving DecidableEq, Repr

/-- `TextSlot`. -/
structure TextSlot where
  id : Nat
  partName : Str
  kind : SlotKind
  eventIndex : Nat
  attrName : Option Str
deriving DecidableEq, Repr

/-- The slot table of `offsets.json` (`OffsetsJson`): its
`placeholder_prefix` and `slots`. -/
structure OffsetsIn where
  phPfx : Str
  slots : List TextSlot
deriving Repr

/-- One package entry: name, directory flag and (decoded) bytes. -/
structure Entry where
  name : Str
  isDir : Bool
  data : Str
deriving Repr

/-- The mask input to the merger: its `placeholder_prefix` and entries. -/
structure MaskIn where
  phPfx : Str
  entries : List Entry
deriving Repr

/-- The text input to the merger (`PureTextJson`): its
`placeholder_prefix` and `slot_texts`. -/
structure TextIn where
  phPfx : Str
  slotTexts : List Str
deriving Repr

/-- `placeholder`: `__MT_MASK_{prefix}_{id:08}__`. -/
def placeholder (pfx : Str) (id : Nat) : Str :=
  "__MT_MASK_".data ++ pfx ++ "_".data ++ padZeros 8 (decDigits id) ++ "__".data

/-- `is_placeholder`. -/
def isPlaceholder (s : Str) (pfx : Str) : Bool :=
  let p := "__MT_MASK_".data ++ pfx ++ "_".data
  p.isPrefixOf s && "__".data.isSuffixOf s && decide (p.length + 8 + 2 ≤ s.length)

/-- `find_attr` over the attribute list (first match). -/
def findAttr (attrs : List (Str × Str)) (key : Str) : Option Str :=
  (attrs.find? (fun a => a.1 = key)).map (·.2)

/-- Write through the first attribute with the given key (the functional
rendering of `find_attr_mut`; only used where `findAttr` returns a value). -/
def setAttrFirst (key : Str) (v : Str) : List (Str × Str) → List (Str × Str)
  | [] => []
  | (k, old) :: rest => if k = key then (k, v) :: rest else (k, old) :: setAttrFirst key v rest

/-- The per-part masking loop of `extract_mask_json_and_offsets`: replace
every text node, CDATA node and `w:lvlText` `w:val` attribute with a fresh
placeholder, recording a slot for each.  Arguments: event index, next free
slot id, remaining events. -/
def maskStep (pfx partName : Str) (idx nextId : Nat) (ev : XmlEvent) :
    XmlEvent × List TextSlot × Nat :=
  match ev with
  | .text _ =>
    (.text (placeholder pfx nextId),
      [⟨nextId, partName, .text, idx, none⟩], nextId + 1)
  | .cdata _ =>
    (.cdata (placeholder pfx nextId),
      [⟨nextId, partName, .cdata, idx, none⟩], nextId + 1)
  | .start name attrs =>
    if name = "w:lvlText".data ∧ (findAttr attrs "w:val".data).isSome then
      (.start name (setAttrFirst "w:val".data (placeholder pfx nextId) attrs),
        [⟨nextId, partName, .attr, idx, some "w:val".data⟩], nextId + 1)
    else (ev, [], nextId)
  | .empty name attrs =>
    if name = "w:lvlText".data ∧ (findAttr attrs "w:val".data).isSome then
      (.empty name (setAttrFirst "w:val".data (placeholder pfx nextId) attrs),
        [⟨nextId, partName, .attr, idx, some "w:val".data⟩], nextId + 1)
    else (ev, [], nextId)
  | _ => (ev, [], nextId)

def maskEvents (pfx : Str) (partName : Str) :
    Nat → Nat → List XmlEvent → List XmlEvent × List TextSlot × Nat
  | _, nextId, [] => ([], [], nextId)
  | idx, nextId, ev :: rest =>
    ((maskStep pfx partName idx nextId ev).1 ::
        (maskEvents pfx partName (idx + 1) (maskStep pfx partName idx nextId ev).2.2 rest).1,
      (maskStep pfx partName idx nextId ev).2.1 ++
        (maskEvents pfx partName (idx + 1) (maskStep pfx partName idx nextId ev).2.2 rest).2.1,
      (maskEvents pfx partName (idx + 1) (maskStep pfx partName idx nextId ev).2.2 rest).2.2)

/-- The positions the extractor masks (and the slot-text collector reads):
text nodes, CDATA nodes and `w:lvlText` elements carrying a `w:val`
attribute. -/
def maskableEv : XmlEvent → Bool
  | .text _ => true
  | .cdata _ => true
  | .start name attrs => name = "w:lvlText".data && (findAttr attrs "w:val".data).isSome
  | .empty name attrs => name = "w:lvlText".data && (findAttr attrs "w:val".data).isSome
  | _ => false

/-- `verify_part_mask_pure`. -/
def verifyPartMaskPure (partName : Str) (pfx : Str) : List XmlEvent → Except String Unit
  | [] => .ok ()
  | ev :: rest =>
    match ev with
    | .text t =>
      if isPlaceholder t pfx then verifyPartMaskPure partName pfx rest
      else .error "mask not pure: found non-placeholder text"
    | .cdata t =>
      if isPlaceholder t pfx then verifyPartMaskPure partName pfx rest
      else .error "mask not pure: found non-placeholder text"
    | .start name attrs =>
      if name = "w:lvlText".data then
        match findAttr attrs "w:val".data with
        | some v =>
          if isPlaceholder v pfx then verifyPartMaskPure partName pfx rest
          else .error "mask not pure: found non-placeholder lvlText val"
        | none => verifyPartMaskPure partName pfx rest
      else verifyPartMaskPure partName pfx rest
    | .empty name attrs =>
      if name = "w:lvlText".data then
        match findAttr attrs "w:val".data with
        | some v =>
          if isPlaceholder v pfx then verifyPartMaskPure partName pfx rest
          else .error "mask not pure: found non-placeholder lvlText val"
        | none => verifyPartMaskPure partName pfx rest
      else verifyPartMaskPure partName pfx rest
    | _ => verifyPartMaskPure partName pfx rest

/-- Entry filter of the extraction and merge loops: XML parts are the
non-directory entries whose lowercased name ends in `.xml`. -/
def isXmlName (name : Str) : Bool :=
  ".xml".data.isSuffixOf (name.map Char.toLower)

/-- Skip test shared by the loops: directory entries (or names ending in
`/`). -/
def isDirEntry (ent : Entry) : Bool := ent.isDir || ent.name.getLast? = some '/'

/-- The entry loop of `extract_mask_json_and_offsets` (pure part): parse
each XML part, mask it, and run the purity check; non-XML entries pass
through outside the masking. -/
def extractPartsGo (pfx : Str) :
    Nat → List Entry → Except String (List (Str × List XmlEvent) × List TextSlot)
  | _, [] => .ok ([], [])
  | nextId, ent :: rest =>
    if isDirEntry ent then extractPartsGo pfx nextId rest
    else if isXmlName ent.name ∧ !ent.data.isEmpty then
      match parseXmlPart ent.data with
      | .error e => .error e
      | .ok evs =>
        match verifyPartMaskPure ent.name pfx (maskEvents pfx ent.name 0 nextId evs).1 with
        | .error e => .error e
        | .ok () =>
          match extractPartsGo pfx (maskEvents pfx ent.name 0 nextId evs).2.2 rest with
          | .error e => .error e
          | .ok out =>
            .ok ((ent.name, (maskEvents pfx ent.name 0 nextId evs).1) :: out.1,
              (maskEvents pfx ent.name 0 nextId evs).2.1 ++ out.2)
    else extractPartsGo pfx nextId rest

/-- The pure core of `extract_mask_json_and_offsets`: masked XML parts and
the offsets slot table (slot ids issued from 1). -/
def extractCore (pfx : Str) (entries : List Entry) :
    Except String (List (Str × List XmlEvent) × OffsetsIn) :=
  (extractPartsGo pfx 1 entries).map (fun out => (out.1, ⟨pfx, out.2⟩))

/-- The per-part collection loop of `extract_slot_texts`. -/
def slotTextsOfEvents : List XmlEvent → List Str
  | [] => []
  | ev :: rest =>
    let here : List Str :=
      match ev with
      | .text t => [t]
      | .cdata t => [t]
      | .start name attrs =>
        if name = "w:lvlText".data then
          match findAttr attrs "w:val".data with
          | some v => [v]
          | none => []
        else []
      | .empty name attrs =>
        if name = "w:lvlText".data then
          match findAttr attrs "w:val".data with
          | some v => [v]
          | none => []
        else []
      | _ => []
    here ++ slotTextsOfEvents rest

/-- The pure core of `extract_slot_texts`: the original texts of every slot
position, in package order. -/
def extractSlotTexts : List Entry → Except String (List Str)
  | [] => .ok []
  | ent :: rest =>
    if isDirEntry ent || ent.data.isEmpty || !isXmlName ent.name then extractSlotTexts rest
    else
      match parseXmlPart ent.data with
      | .error e => .error e
      | .ok evs =>
        match extractSlotTexts rest with
        | .error e => .error e
        | .ok out => .ok (slotTextsOfEvents evs ++ out)

/-- Replace the first association for a part name. -/
def updatePart (name : Str) (evs : List XmlEvent) :
    List (Str × List XmlEvent) → List (Str × List XmlEvent)
  | [] => []
  | (n, e) :: rest => if n = name then (n, evs) :: rest else (n, e) :: updatePart name evs rest

/-- The kind-directed placeholder check and event rewrite of one merge slot
(the inner `match slot.kind` of the source's slot loop). -/
def slotNewEvent (pfx : Str) (replacement : Str) (slot : TextSlot) (ev : XmlEvent) :
    Except String XmlEvent :=
  match slot.kind, ev with
  | .text, .text t =>
    if t = placeholder pfx slot.id then .ok (XmlEvent.text replacement)
    else .error "mask mismatch: expected placeholder"
  | .text, _ => .error "expected Text event"
  | .cdata, .cdata t =>
    if t = placeholder pfx slot.id then .ok (XmlEvent.cdata replacement)
    else .error "mask mismatch: expected placeholder"
  | .cdata, _ => .error "expected CData event"
  | .attr, .start name attrs =>
    match slot.attrName with
    | none => .error "attr slot missing attr_name"
    | some attrName =>
      match findAttr attrs attrName with
      | some v =>
        if v = placeholder pfx slot.id then
          .ok (XmlEvent.start name (setAttrFirst attrName replacement attrs))
        else .error "mask mismatch: expected placeholder for attr"
      | none => .error "missing attr"
  | .attr, .empty name attrs =>
    match slot.attrName with
    | none => .error "attr slot missing attr_name"
    | some attrName =>
      match findAttr attrs attrName with
      | some v =>
        if v = placeholder pfx slot.id then
          .ok (XmlEvent.empty name (setAttrFirst attrName replacement attrs))
        else .error "mask mismatch: expected placeholder for attr"
      | none => .error "missing attr"
  | .attr, _ => .error "expected Start/Empty event"

/-- One slot substitution of the merge loop: locate the event, check it
still holds exactly the expected placeholder, and substitute the slot text.
-/
def applyOneSlot (pfx : Str) (slotTexts : List Str)
    (parts : List (Str × List XmlEvent)) (slot : TextSlot) :
    Except String (List (Str × List XmlEvent)) :=
  match slotTexts.get? (slot.id - 1) with
  | none => .error "missing slot_texts entry"
  | some replacement =>
    match parts.lookup slot.partName with
    | none => .error "missing part"
    | some evs =>
      match evs.get? slot.eventIndex with
      | none => .error "event index out of range"
      | some ev =>
        match slotNewEvent pfx replacement slot ev with
        | .error e => .error e
        | .ok newEv => .ok (updatePart slot.partName (evs.set slot.eventIndex newEv) parts)

/-- The slot loop of `merge_mask_json_and_offsets`. -/
def applySlots (pfx : Str) (slotTexts : List Str) :
    List (Str × List XmlEvent) → List TextSlot → Except String (List (Str × List XmlEvent))
  | parts, [] => .ok parts
  | parts, slot :: rest =>
    match applyOneSlot pfx slotTexts parts slot with
    | .error e => .error e
    | .ok parts2 => applySlots pfx slotTexts parts2 rest

/-- Leftover-placeholder scan of one event. -/
def eventHasLeftover (pfx : Str) : XmlEvent → Bool
  | .text t => containsLit pfx t
  | .cdata t => containsLit pfx t
  | .start _ attrs => attrs.any (fun a => containsLit pfx a.2)
  | .empty _ attrs => attrs.any (fun a => containsLit pfx a.2)
  | _ => false

/-- The strict no-leftover check after all substitutions. -/
def checkLeftover (pfx : Str) : List (Str × List XmlEvent) → Except String Unit
  | [] => .ok ()
  | (_, evs) :: rest =>
    if evs.any (eventHasLeftover pfx) then .error "leftover placeholder"
    else checkLeftover pfx rest

/-- The XML-part collection loop of the merger. -/
def parseMaskParts : List Entry → Except String (List (Str × List XmlEvent))
  | [] => .ok []
  | ent :: rest =>
    if !isXmlName ent.name || ent.data.isEmpty then parseMaskParts rest
    else do
      let evs ← parseXmlPart ent.data
      let out ← parseMaskParts rest
      pure ((ent.name, evs) :: out)

/-- `offsets.slots.iter().map(|s| s.id).max().unwrap_or(0)`. -/
def maxIdOf (slots : List TextSlot) : Nat :=
  match slots.map (·.id) with
  | [] => 0
  | x :: xs => xs.foldl Nat.max x

/-- `offsets.slots.iter().map(|s| s.id).min().unwrap_or(0)`. -/
def minIdOf (slots : List TextSlot) : Nat :=
  match slots.map (·.id) with
  | [] => 0
  | x :: xs => xs.foldl Nat.min x

/-- The pure core of `merge_mask_json_and_offsets`: the guard checks, slot
substitution and leftover check, returning the reconstructed XML parts
(serialisation and ZIP output are I/O and untouched metadata). -/
def mergeCore (mask : MaskIn) (offsets : OffsetsIn) (textIn : TextIn) :
    Except String (List (Str × List XmlEvent)) :=
  if mask.phPfx ≠ offsets.phPfx then .error "placeholder_prefix mismatch: mask vs offsets"
  else if textIn.phPfx ≠ offsets.phPfx then .error "placeholder_prefix mismatch: text vs offsets"
  else if (!offsets.slots.isEmpty) = true ∧ minIdOf offsets.slots ≠ 1 then
    .error "offsets slot ids must start at 1"
  else if (!offsets.slots.isEmpty) = true ∧ maxIdOf offsets.slots ≠ offsets.slots.length then
    .error "offsets slot ids must be contiguous"
  else if textIn.slotTexts.length ≠ maxIdOf offsets.slots then
    .error "text slot_texts length mismatch"
  else
    match parseMaskParts mask.entries with
    | .error e => .error e
    | .ok parts =>
      match applySlots offsets.phPfx textIn.slotTexts parts offsets.slots with
      | .error e => .error e
      | .ok parts2 =>
        match checkLeftover offsets.phPfx parts2 with
        | .error e => .error e
        | .ok () => .ok parts2

/-! ## docx/pure_text.rs (the claim-relevant fragment) -/

/-- `control_append` from docx/pure_text.rs: the text contributed by one
control element inside a qualifying run. -/
def controlAppend (buf : Str) (name : Str) (attrs : List (Str × Str)) : Str :=
  if name = "w:tab".data ∨ name = "w:ptab".data then buf ++ ['\t']
  else if name = "w:cr".data then buf ++ ['\n']
  else if name = "w:br".data then
    if (findAttr attrs "w:type".data).getD "textWrapping".data = "textWrapping".data then
      buf ++ ['\n']
    else buf
  else if name = "w:noBreakHyphen".data then buf ++ ['-']
  else if name = "w:softHyphen".data then buf
  else buf

/-- The control-element character mapping as the specification states it:
tab and ptab give a tab, cr gives a newline, br gives a newline exactly when
its `w:type` is absent or `textWrapping`, noBreakHyphen gives a hyphen, and
softHyphen (like every other element) gives nothing. -/
def specControlChars (name : Str) (attrs : List (Str × Str)) : Str :=
  if name = "w:tab".data ∨ name = "w:ptab".data then ['\t']
  else if name = "w:cr".data then
    ['\n']
  else if name = "w:br".data then
    match findAttr attrs "w:type".data with
    | none => ['\n']
    | some t => if t = "textWrapping".data then ['\n'] else []
  else if name = "w:noBreakHyphen".data then ['-']
  else []

/-! ## docx/apply.rs -/

/-- `TextNodeKind` from ir.rs. -/
inductive TextNodeKind where
  | wt
  | at
  | attr
deriving DecidableEq, Repr

/-- `TextNodeRef` from ir.rs. -/
structure TextNodeRef where
  partName : Str
  kind : TextNodeKind
  elemEventIndex : Nat
  textEventIndex : Option Nat
  attrName : Option Str
  originalText : Str
deriving Repr

/-- Attribute write of `set_attr_value`: overwrite the first attribute with
the given key, or append the pair when absent. -/
def upsertAttr (key v : Str) : List (Str × Str) → List (Str × Str)
  | [] => [(key, v)]
  | (k, old) :: rest =>
    if k = key then (k, v) :: rest else (k, old) :: upsertAttr key v rest

/-- `set_attr_value`: only `Start` and `Empty` events carry attributes;
every other event is returned unchanged. -/
def setAttrValue (ev : XmlEvent) (key v : Str) : XmlEvent :=
  match ev with
  | .start n attrs => .start n (upsertAttr key v attrs)
  | .empty n attrs => .empty n (upsertAttr key v attrs)
  | other => other

/-- `apply_node_text`, over the event list of one part. -/
def applyNodeText (events : List XmlEvent) (nodeRef : TextNodeRef) (nodeText : Str) :
    Except String (List XmlEvent) :=
  match nodeRef.kind with
  | .attr =>
    match nodeRef.attrName with
    | none => .error "attr node missing attr_name"
    | some attrName =>
      match events.get? nodeRef.elemEventIndex with
      | none => .error "attr elem index out of range"
      | some ev =>
        .ok (events.set nodeRef.elemEventIndex (setAttrValue ev attrName nodeText))
  | .wt | .at =>
    match nodeRef.textEventIndex with
    | none => .error "text node missing text index"
    | some textIdx =>
      match events.get? textIdx with
      | some (.text _) =>
        let evs1 := events.set textIdx (.text nodeText)
        if nodeText.head? = some ' ' ∨ nodeText.getLast? = some ' ' then
          match evs1.get? nodeRef.elemEventIndex with
          | none => .error "elem index out of range"
          | some ev =>
            .ok (evs1.set nodeRef.elemEventIndex
              (setAttrValue ev "xml:space".data "preserve".data))
        else .ok evs1
      | _ => .error "expected Text event"

/-! ## pipeline/translator/segmented.rs

The chunked translator.  The LLM backend (`NativeChatModel`) is an external
collaborator: it is modelled as a scripted list of responses, consumed one
per `chat` call, with an error once the script is exhausted (a backend
failure).  Some helpers called from segmented.rs are declared nowhere under
src/ (`must_keep_tokens`, `render_nt_map_for_prompt`, `lang_label`, the
nine-argument `repair_translation`, `apply_slot_translation`,
`write_progress_docx`); they are modelled from the spec as stated on each.
The floating-point quality heuristics (`wants_force_retranslate`) and the
slot projection are oracles the theorems quantify over. -/

/-- The model backend as a response script. -/
abbrev ChatModel := List Str

/-- `model.chat(...)`: the next scripted response (sampling parameters and
the prompt do not influence the abstraction); an exhausted script stands for
a backend error. -/
def chat (model : ChatModel) (_prompt : Str) : Except String (Str × ChatModel) :=
  match model with
  | [] => .error "model backend failed"
  | r :: rest => .ok (r, rest)

/-- `render_template` (pipeline/prompts.rs): replace every `{{k}}` by `v`,
one variable after the other. -/
def renderTemplate (tmpl : Str) (vars : List (Str × Str)) : Str :=
  vars.foldl
    (fun out kv => replaceLit ("\x7b\x7b".data ++ kv.1 ++ "\x7d\x7d".data) kv.2 out) tmpl

/-- `cleanup_model_text` (pipeline/translator.rs): trim, strip a leading
code fence together with everything after the last closing fence, trim,
strip surrounding double quotes, trim. -/
def cleanupModelText (text : Str) : Str :=
  let s := trim text
  let s :=
    if "```".data.isPrefixOf s then
      let s1 :=
        match splitOnce ['\n'] s with
        | some pr => pr.2
        | none => s
      match splitLast "```".data s1 with
      | some pr => pr.1
      | none => s1
    else s
  let s2 := trim s
  trim ((s2.dropWhile (· == '"')).reverse.dropWhile (· == '"')).reverse

/-- Modelled from the spec: `lang_label` is absent from src/ (only its
caller in segmented.rs is present); per §4.9 it renders a language code as
the human-readable label substituted into the prompt template, which the
verified properties never inspect. -/
def langLabel (lang : Str) : Str := lang

/-- Modelled from the spec: `must_keep_tokens` is absent from src/; per
§4.8/§4.9 it lists the sentinel tokens of the frozen source that the repair
prompt tells the model to keep.  Only prompt content — never inspected. -/
def mustKeepTokens (source : Str) : Str :=
  (findMatches anySentinelM source).foldr (fun t acc => t ++ '\n' :: acc) []

/-- Modelled from the spec: `render_nt_map_for_prompt` is absent from src/;
per §4.9 it renders the NT map as prompt text.  Never inspected. -/
def renderNtMapForPrompt (m : List (Str × Str)) : Str :=
  m.foldr (fun kv acc => kv.1 ++ ' ' :: kv.2 ++ '\n' :: acc) []

/-- `TranslationSlot`. -/
inductive TrSlot where
  | A
  | B
deriving DecidableEq, Repr

/-- `set_translation_slot`. -/
def setTranslationSlot (tu : Tu) (slot : TrSlot) (text : Str) (model : Str) : Tu :=
  match slot with
  | .A => { tu with draftTranslation := some text, draftTranslationModel := some model }
  | .B => { tu with altTranslation := some text, altTranslationModel := some model }

/-- The translation slot a stage writes (draft for A, alt for B). -/
def trSlotGet (tu : Tu) (slot : TrSlot) : Option Str :=
  match slot with
  | .A => tu.draftTranslation
  | .B => tu.altTranslation

/-- Default `TranslationUnit` standing for the panic of an out-of-bounds
Rust index (the theorems assume indices in range). -/
def dummyTu : Tu := { tuId := 0, frozenSurface := [], ntMap := [] }

/-- Static configuration and oracles of one translation stage.  `σ` is the
state of the pure-text JSON variant updated by the slot projection;
`wantsForce` abstracts the floating-point `quality_heuristics(...).
wants_force_retranslate()`, and `applySlot` abstracts the
`apply_slot_translation` absent from src/ (`none` is its error case,
leaving the state unchanged). -/
structure SegCfg (σ : Type) where
  backendName : Str
  sourceLang : Str
  targetLang : Str
  promptTmpl : Str
  repairTmpl : Str
  autosaveEvery : Nat
  slotsByTu : Nat → List Nat
  wantsForce : Tu → Str → Bool
  applySlot : σ → List Nat → Tu → Str → Option σ

/-- Modelled from the spec: the nine-argument `repair_translation` called by
segmented.rs is absent from src/; per §4.9 it renders the repair template
with the stage variables, sends it to the backend and cleans the response.
-/
def repairTranslation {σ : Type} (cfg : SegCfg σ) (model : ChatModel)
    (source bad verr ntm : Str) : Except String (Str × ChatModel) :=
  let prompt := renderTemplate cfg.repairTmpl
    [("source_lang".data, langLabel cfg.sourceLang),
      ("target_lang".data, langLabel cfg.targetLang),
      ("source".data, source), ("bad".data, bad),
      ("must_keep_tokens".data, mustKeepTokens source),
      ("validation_error".data, verr), ("nt_map".data, ntm)]
  (chat model prompt).map (fun pr => (cleanupModelText pr.1, pr.2))

/-- Evolving state of one stage: backend script, units, pure-text variant,
processed counter, and (as proof instrumentation) the log of
`set_translation_slot` calls performed. -/
structure SegState (σ : Type) where
  model : ChatModel
  tus : List Tu
  tv : σ
  processed : Nat
  log : List (Nat × Str)

/-- `apply_translated_tu`: validation, one repair attempt, identity
fallback, slot projection with its own repair and identity fallback, then
the slot assignment.  `write_progress_docx` (absent from src/, autosave
output whose result the source discards) is a no-op here. -/
def valErrTextOf (tu : Tu) (out0 : Str) : Str :=
  match validateTranslation tu out0 with
  | .error e => e.data
  | .ok _ => []

/-- Validation gate and first repair attempt of `apply_translated_tu`. -/
def stage1 {σ : Type} (cfg : SegCfg σ) (model : ChatModel) (tu : Tu) (out0 : Str) :
    Except String (Str × ChatModel) :=
  if (validateTranslation tu out0).isOk ∧ !cfg.wantsForce tu out0 then .ok (out0, model)
  else
    repairTranslation cfg model tu.frozenSurface out0
      (if (valErrTextOf tu out0).isEmpty then "quality_force_retranslate".data
       else valErrTextOf tu out0)
      (renderNtMapForPrompt tu.ntMap)

/-- Slot projection with its own repair and identity fallback (the second
half of `apply_translated_tu`). -/
def stage3 {σ : Type} (cfg : SegCfg σ) (tv : σ) (model1 : ChatModel) (tu : Tu) (out2 : Str) :
    Except String (Str × σ × ChatModel) :=
  if (cfg.slotsByTu tu.tuId).isEmpty then .ok (out2, tv, model1)
  else
    match cfg.applySlot tv (cfg.slotsByTu tu.tuId) tu out2 with
    | some tvA => .ok (out2, tvA, model1)
    | none =>
      match repairTranslation cfg model1 tu.frozenSurface out2
          "slot_projection_failed".data (renderNtMapForPrompt tu.ntMap) with
      | .error e => .error e
      | .ok (rep, m2) =>
        if (validateTranslation tu rep).isOk then
          match cfg.applySlot tv (cfg.slotsByTu tu.tuId) tu rep with
          | some tvA => .ok (rep, tvA, m2)
          | none =>
            .ok (tu.frozenSurface,
              (cfg.applySlot tv (cfg.slotsByTu tu.tuId) tu tu.frozenSurface).getD tv, m2)
        else
          .ok (tu.frozenSurface,
            (cfg.applySlot tv (cfg.slotsByTu tu.tuId) tu tu.frozenSurface).getD tv, m2)

/-- `apply_translated_tu`: validation, one repair attempt, identity
fallback, slot projection with its own repair and identity fallback, then
the slot assignment.  `write_progress_docx` (absent from src/, autosave
output whose result the source discards) is a no-op here. -/
def applyTranslatedTu {σ : Type} (cfg : SegCfg σ) (slot : TrSlot) (st : SegState σ)
    (idx : Nat) (out0 : Str) : Except String (SegState σ) :=
  match stage1 cfg st.model (st.tus.getD idx dummyTu) out0 with
  | .error e => .error e
  | .ok (out1, model1) =>
    match stage3 cfg st.tv model1 (st.tus.getD idx dummyTu)
        (if (validateTranslation (st.tus.getD idx dummyTu) out1).isOk then out1
         else (st.tus.getD idx dummyTu).frozenSurface) with
    | .error e => .error e
    | .ok (out3, tv1, model2) =>
      .ok (SegState.mk model2
        (st.tus.set idx
          (setTranslationSlot (st.tus.getD idx dummyTu) slot out3 cfg.backendName))
        tv1 (st.processed + 1) (st.log ++ [(idx, out3)]))

/-- The per-index loop over a successfully parsed segmented response. -/
def applySegsLoop {σ : Type} (cfg : SegCfg σ) (slot : TrSlot) (segs : List (Nat × Str)) :
    SegState σ → List Nat → Except String (SegState σ)
  | st, [] => .ok st
  | st, idx :: rest =>
    match applyTranslatedTu cfg slot st idx
        (cleanupModelText ((segs.lookup (st.tus.getD idx dummyTu).tuId).getD [])) with
    | .error e => .error e
    | .ok st1 => applySegsLoop cfg slot segs st1 rest

/-- The `SEG`/`END` block of one unit in the chunk prompt. -/
def tuBlockOf (tus : List Tu) (indices : List Nat) : Str :=
  indices.flatMap (fun i =>
    let tu := tus.getD i dummyTu
    segStart tu.tuId ++ '\n' :: tu.frozenSurface ++ '\n' :: segEnd tu.tuId ++ "\n\n".data)

/-- The best-effort body extraction of the single-unit parse-failure
fallback: everything after the unit's `SEG` marker and before its `END`
marker, when present. -/
def bestEffortBody (tuId : Nat) (out : Str) : Str :=
  match splitOnce (segEnd tuId)
      (match splitOnce (segStart tuId) out with
       | some pr => pr.2
       | none => out) with
  | some pr => pr.1
  | none =>
    match splitOnce (segStart tuId) out with
    | some pr => pr.2
    | none => out

/-- `translate_chunk_recursive`: prompt the backend with the whole chunk,
parse the segmented response, and on a parse failure bisect chunks of more
than one unit, or best-effort-extract the single unit's body.  `fuel`
dominates the bisection depth (`indices.length` suffices). -/
def translateChunkRec {σ : Type} (cfg : SegCfg σ) (slot : TrSlot) :
    Nat → SegState σ → List Nat → Except String (SegState σ)
  | _, st, [] => .ok st
  | fuel, st, indices@(idx0 :: restIdx) =>
    match chat st.model (renderTemplate cfg.promptTmpl
      [("source_lang".data, langLabel cfg.sourceLang),
        ("target_lang".data, langLabel cfg.targetLang),
        ("tu_block".data, tuBlockOf st.tus indices)]) with
    | .error e => .error e
    | .ok (raw, model1) =>
      match parseSegmentedOutput (cleanupModelText raw)
          (indices.map (fun i => (st.tus.getD i dummyTu).tuId)) with
      | .ok segs =>
        applySegsLoop cfg slot segs { st with model := model1 } indices
      | .error _ =>
        if restIdx.isEmpty then
          match applyTranslatedTu cfg slot { st with model := model1 } idx0
              (cleanupModelText
                (bestEffortBody (st.tus.getD idx0 dummyTu).tuId (cleanupModelText raw))) with
          | .error e => .error ("fallback segmented parse failed: " ++ e)
          | .ok st2 => .ok st2
        else
          match fuel with
          | 0 => .error "bisection fuel"
          | fuel + 1 =>
            match translateChunkRec cfg slot fuel { st with model := model1 }
                (indices.take (indices.length / 2)) with
            | .error e => .error e
            | .ok stL => translateChunkRec cfg slot fuel stL (indices.drop (indices.length / 2))

/-! ## Predicates appearing in theorem statements -/

/-- No occurrence of the NT-token shape `<<MT_NT:\d{4}>>` anywhere in `s`. -/
def ntFree (s : Str) : Bool :=
  (List.range (s.length + 1)).all (fun p => (ntM none (s.drop p)).isNone)

/-- Well-formedness of an element or end-tag name as the parser produces
it (a parsed name can never begin with `!`, `?` or `/`: those inputs go to
the markup, processing-instruction and end-tag branches). -/
def wfName (n : Str) : Bool :=
  !n.isEmpty && n.all (fun c => !isWs c && c ≠ '"' && c ≠ '\'' && c ≠ '>') &&
    n.getLast? ≠ some '/' &&
    (match n.head? with
      | some c => c ≠ '!' && c ≠ '?' && c ≠ '/'
      | none => false)

/-- Well-formedness of an attribute key as the parser produces it. -/
def wfAttrKey (k : Str) : Bool :=
  !k.isEmpty && k.all (fun c => !isWs c && c ≠ '=' && c ≠ '"' && c ≠ '\'' && c ≠ '>')

/-- Per-event invariants established by the parser (conditions under which
the writer's output re-parses to the same event). -/
def wfEvent : XmlEvent → Bool
  | .decl v e st =>
    !containsLit "?>".data v &&
      (match e with | some x => !containsLit "?>".data x | none => true) &&
      (match st with | some x => !containsLit "?>".data x | none => true)
  | .start n attrs => wfName n && attrs.all (fun a => wfAttrKey a.1)
  | .endE n => !n.isEmpty && !containsLit ">".data n
  | .empty n attrs => wfName n && attrs.all (fun a => wfAttrKey a.1)
  | .text t => !t.isEmpty
  | .cdata t => !containsLit "]]>".data t
  | .comment t => !containsLit "-->".data t
  | .pi c => !containsLit "?>".data c && !isDeclInner c
  | .doctype t => !containsLit ">".data t

/-- Text-event discriminator (two in a row cannot come out of one parse). -/
def isTextEvent : XmlEvent → Bool
  | .text _ => true
  | _ => false

/-- Sequence invariant established by the parser: every event well formed
and no two adjacent text events. -/
def wfSeq : List XmlEvent → Bool
  | [] => true
  | [e] => wfEvent e
  | e1 :: e2 :: rest =>
    wfEvent e1 && !(isTextEvent e1 && isTextEvent e2) && wfSeq (e2 :: rest)

/-- Absence of double quotes in the raw attribute values and declaration
values of an event (the hypothesis the re-parse counterexample forces). -/
def eventNoDQ : XmlEvent → Bool
  | .decl v e st =>
    v.all (· ≠ '"') && (match e with | some x => x.all (· ≠ '"') | none => true) &&
      (match st with | some x => x.all (· ≠ '"') | none => true)
  | .start _ attrs => attrs.all (fun a => a.2.all (· ≠ '"'))
  | .empty _ attrs => attrs.all (fun a => a.2.all (· ≠ '"'))
  | _ => true

/-- A well-shaped slot-parser input: each id's marker followed by its body.
-/
def renderSlots : List (Nat × Str) → Str
  | [] => []
  | p :: rest => slotToken p.1 ++ p.2 ++ renderSlots rest

/-- The kind-directed content test of one slot against one event: the event
holds exactly the slot's placeholder literal in the checked position. -/
def slotEvOk (pfx : Str) (slot : TextSlot) (ev : XmlEvent) : Bool :=
  match slot.kind, ev with
  | .text, .text t => t = placeholder pfx slot.id
  | .cdata, .cdata t => t = placeholder pfx slot.id
  | .attr, .start _ attrs =>
    match slot.attrName with
    | some a => findAttr attrs a = some (placeholder pfx slot.id)
    | none => false
  | .attr, .empty _ attrs =>
    match slot.attrName with
    | some a => findAttr attrs a = some (placeholder pfx slot.id)
    | none => false
  | _, _ => false

/-- The event stored at a (part name, event index) position. -/
def eventAt (parts : List (Str × List XmlEvent)) (name : Str) (i : Nat) : Option XmlEvent :=
  match parts.lookup name with
  | none => none
  | some evs => evs.get? i

/-- The event located by a slot holds exactly the slot's placeholder
literal. -/
def slotHasPlaceholder (pfx : Str) (parts : List (Str × List XmlEvent)) (slot : TextSlot) :
    Bool :=
  match eventAt parts slot.partName slot.eventIndex with
  | none => false
  | some ev => slotEvOk pfx slot ev

/-- Distinctness of the positions (part name, event index) of two slots. -/
def slotPosNe (a b : TextSlot) : Prop :=
  a.partName ≠ b.partName ∨ a.eventIndex ≠ b.eventIndex

/-- No prefix of any suffix of `t`, continued by `pat` itself, equals `pat`:
the strong form of "`pat` does not occur in `t`" that also rules out
occurrences spanning the junction when `pat` is appended after `t`. -/
def noHit (pat : Str) : Str → Bool
  | [] => true
  | c :: rest => !pat.isPrefixOf ((c :: rest) ++ pat) && noHit pat rest

/-- Freeze decomposition vocabulary: a freeze trace is a list of
(region, token, source) triples. `regTok` projects the frozen view
(region, token), `regSrc` the source view (region, source text) and
`tokSrc` the NT-map view (token, source text). -/
def regTok (L : List (Str × Str × Str)) : List (Str × Str) :=
  L.map (fun x => (x.1, x.2.1))

/-- Source view of a freeze trace. -/
def regSrc (L : List (Str × Str × Str)) : List (Str × Str) :=
  L.map (fun x => (x.1, x.2.2))

/-- NT-map view of a freeze trace. -/
def tokSrc (L : List (Str × Str × Str)) : List (Str × Str) :=
  L.map (fun x => (x.2.1, x.2.2))

/-- The tokens of a freeze trace are the consecutive NT tokens starting
at `id0`. -/
def tokensSeq : Nat → List (Str × Str × Str) → Prop
  | _, [] => True
  | id0, x :: xs => x.2.1 = ntToken id0 ∧ tokensSeq (id0 + 1) xs

/-! # Theorems -/

/-- Claim C9: for every control element encountered inside a qualifying run
during pure-text extraction, the appended text is a tab for `w:tab` and
`w:ptab`, a newline for `w:cr`, a newline for `w:br` when its `w:type`
attribute is absent or equal to `textWrapping` and nothing for other
`w:br` types, a hyphen for `w:noBreakHyphen`, and nothing for
`w:softHyphen`. -/
theorem controlAppend_spec :
    ∀ (buf name : Str) (attrs : List (Str × Str)),
      controlAppend buf name attrs = buf ++ specControlChars name attrs := by
  intro buf name attrs
  unfold controlAppend specControlChars
  by_cases h1 : name = "w:tab".data ∨ name = "w:ptab".data
  · simp [h1]
  · rw [if_neg h1, if_neg h1]
    by_cases h2 : name = "w:cr".data
    · simp [h2]
    · rw [if_neg h2, if_neg h2]
      by_cases h3 : name = "w:br".data
      · rw [if_pos h3, if_pos h3]
        cases hf : findAttr attrs "w:type".data with
        | none => simp [hf]
        | some t =>
          by_cases ht : t = "textWrapping".data <;> simp [hf, ht]
      · rw [if_neg h3, if_neg h3]
        by_cases h4 : name = "w:noBreakHyphen".data
        · simp [h4]
        · rw [if_neg h4, if_neg h4]
          by_cases h5 : name = "w:softHyphen".data <;> simp [h5]

/-- Claim C10: when `apply_node_text` writes text into a `w:t`/`a:t` text
node, it modifies only that text event, except that if the written text
starts or ends with an ASCII space it additionally sets the enclosing
element's `xml:space` attribute to `preserve` (overwriting an existing
`xml:space` value or appending the attribute if absent); all other events
and attributes are left unchanged. -/
theorem applyNodeText_frame :
    (∀ (events out : List XmlEvent) (nodeRef : TextNodeRef) (nodeText : Str),
      (nodeRef.kind = .wt ∨ nodeRef.kind = .at) →
      applyNodeText events nodeRef nodeText = .ok out →
      ∃ ti, nodeRef.textEventIndex = some ti ∧
        (∃ t0, events.get? ti = some (.text t0)) ∧
        out.get? ti = some (.text nodeText) ∧
        (¬(nodeText.head? = some ' ' ∨ nodeText.getLast? = some ' ') →
          out = events.set ti (.text nodeText)) ∧
        ((nodeText.head? = some ' ' ∨ nodeText.getLast? = some ' ') →
          ∃ ev0, (events.set ti (.text nodeText)).get? nodeRef.elemEventIndex = some ev0 ∧
            out = (events.set ti (.text nodeText)).set nodeRef.elemEventIndex
              (setAttrValue ev0 "xml:space".data "preserve".data))) ∧
    (∀ (key v : Str) (attrs : List (Str × Str)),
      (∀ p ∈ attrs, p.1 ≠ key) → upsertAttr key v attrs = attrs ++ [(key, v)]) ∧
    (∀ (key v old : Str) (pre post : List (Str × Str)),
      (∀ p ∈ pre, p.1 ≠ key) →
      upsertAttr key v (pre ++ (key, old) :: post) = pre ++ (key, v) :: post) := by
  refine ⟨?_, ?_, ?_⟩
  · intro events out nodeRef nodeText hk h
    unfold applyNodeText at h
    rcases hk with hk | hk <;> rw [hk] at h <;>
    · rcases hti : nodeRef.textEventIndex with _ | ti <;> rw [hti] at h <;>
        dsimp only at h
      · exact absurd h (by simp)
      · rcases hev : events.get? ti with _ | ev <;> rw [hev] at h
        · exact absurd h (by simp)
        · cases ev with
          | decl v e st => exact absurd h (by simp)
          | start n a => exact absurd h (by simp)
          | endE n => exact absurd h (by simp)
          | empty n a => exact absurd h (by simp)
          | cdata t => exact absurd h (by simp)
          | comment t => exact absurd h (by simp)
          | pi c => exact absurd h (by simp)
          | doctype t => exact absurd h (by simp)
          | text t0 =>
          dsimp only at h
          have hlt : ti < events.length := (List.get?_eq_some.mp hev).1
          refine ⟨ti, rfl, ⟨t0, hev⟩, ?_⟩
          by_cases hsp : nodeText.head? = some ' ' ∨ nodeText.getLast? = some ' '
          · rw [if_pos hsp] at h
            rcases he0 : (events.set ti (XmlEvent.text nodeText)).get?
                nodeRef.elemEventIndex with _ | ev0 <;> rw [he0] at h
            · exact absurd h (by simp)
            · simp only [Except.ok.injEq] at h
              subst h
              refine ⟨?_, fun hns => absurd hsp hns, fun _ => ⟨ev0, rfl, rfl⟩⟩
              rcases eq_or_ne nodeRef.elemEventIndex ti with hee | hee
              · rw [hee] at he0 ⊢
                rw [List.get?_set_eq_of_lt _ hlt] at he0
                have hev0 : ev0 = XmlEvent.text nodeText := Option.some.inj he0.symm
                subst hev0
                rw [List.get?_set_eq_of_lt]
                · rfl
                · simpa using hlt
              · rw [List.get?_set_ne _ _ hee, List.get?_set_eq_of_lt _ hlt]
          · rw [if_neg hsp] at h
            simp only [Except.ok.injEq] at h
            subst h
            refine ⟨?_, fun _ => rfl, fun hs => absurd hs hsp⟩
            rw [List.get?_set_eq_of_lt _ hlt]
  · intro key v attrs h
    induction attrs with
    | nil => rfl
    | cons p rest ih =>
      have hp := h p (by simp)
      unfold upsertAttr
      rw [if_neg hp]
      simp only [List.cons_append, List.cons.injEq, true_and]
      exact ih (fun q hq => h q (by simp [hq]))
  · intro key v old pre post h
    induction pre with
    | nil => simp [upsertAttr]
    | cons p rest ih =>
      have hp := h p (by simp)
      simp only [List.cons_append]
      unfold upsertAttr
      rw [if_neg hp]
      simp only [List.cons.injEq, true_and]
      exact ih (fun q hq => h q (by simp [hq]))

/-- Witness for the frame property of `apply_node_text` at a concrete text
node whose new text starts with a space. -/
theorem applyNodeText_frame_witness :
    ∃ ti,
      (TextNodeRef.mk "p".data TextNodeKind.wt 0 (some 1) none "hi".data).textEventIndex =
          some ti ∧
      (∃ t0, [XmlEvent.start "w:r".data [], XmlEvent.text "hi".data].get? ti =
          some (.text t0)) ∧
      [XmlEvent.start "w:r".data [("xml:space".data, "preserve".data)],
          XmlEvent.text " x".data].get? ti = some (.text " x".data) ∧
      (¬(" x".data.head? = some ' ' ∨ " x".data.getLast? = some ' ') →
        [XmlEvent.start "w:r".data [("xml:space".data, "preserve".data)],
            XmlEvent.text " x".data] =
          [XmlEvent.start "w:r".data [], XmlEvent.text "hi".data].set ti (.text " x".data)) ∧
      ((" x".data.head? = some ' ' ∨ " x".data.getLast? = some ' ') →
        ∃ ev0,
          ([XmlEvent.start "w:r".data [], XmlEvent.text "hi".data].set ti
              (.text " x".data)).get?
              (TextNodeRef.mk "p".data TextNodeKind.wt 0 (some 1) none
                "hi".data).elemEventIndex = some ev0 ∧
          [XmlEvent.start "w:r".data [("xml:space".data, "preserve".data)],
              XmlEvent.text " x".data] =
            ([XmlEvent.start "w:r".data [], XmlEvent.text "hi".data].set ti
              (.text " x".data)).set
              (TextNodeRef.mk "p".data TextNodeKind.wt 0 (some 1) none
                "hi".data).elemEventIndex
              (setAttrValue ev0 "xml:space".data "preserve".data)) :=
  applyNodeText_frame.1 _ _ _ _ (Or.inl rfl) rfl

/-! ### Substring-split helper lemmas -/

theorem splitOnce_cons_eq (pat : Str) (c : Char) (rest : Str) :
    splitOnce pat (c :: rest) =
      if pat.isPrefixOf (c :: rest) then some ([], (c :: rest).drop pat.length)
      else (splitOnce pat rest).map (fun pr => (c :: pr.1, pr.2)) := rfl

theorem splitOnce_self (pat r : Str) (h : pat ≠ []) : splitOnce pat (pat ++ r) = some ([], r) := by
  match pat, h with
  | p :: pr, _ =>
    show splitOnce (p :: pr) (p :: (pr ++ r)) = some ([], r)
    rw [splitOnce_cons_eq]
    have hpref : (p :: pr).isPrefixOf (p :: (pr ++ r)) = true := by
      rw [List.isPrefixOf_iff_prefix]
      exact ⟨r, by simp⟩
    rw [if_pos hpref]
    have : List.drop (p :: pr).length (p :: (pr ++ r)) = r := by
      simpa using List.drop_left (p :: pr) r
    rw [this]

theorem splitOnce_append_left (pat b s : Str) (hb : ∀ c ∈ b, c ≠ '<')
    (hp : pat.head? = some '<') :
    splitOnce pat (b ++ s) = (splitOnce pat s).map (fun pr => (b ++ pr.1, pr.2)) := by
  induction b with
  | nil =>
    simp only [List.nil_append]
    cases splitOnce pat s <;> simp
  | cons c b' ih =>
    have hc : c ≠ '<' := hb c (by simp)
    obtain ⟨p0, pt, rfl⟩ : ∃ p0 pt, pat = p0 :: pt := by
      cases pat with
      | nil => simp at hp
      | cons p0 pt => exact ⟨p0, pt, rfl⟩
    have hp0 : p0 = '<' := by simpa using hp
    subst hp0
    rw [List.cons_append, splitOnce_cons_eq]
    have hnp : ('<' :: pt).isPrefixOf (c :: (b' ++ s)) ≠ true := by
      intro hcon
      rcases List.isPrefixOf_iff_prefix.mp hcon with ⟨t, ht⟩
      exact hc (List.head_eq_of_cons_eq ht).symm
    rw [if_neg hnp]
    rw [ih (fun x hx => hb x (by simp [hx]))]
    cases splitOnce ('<' :: pt) s <;> simp

theorem upsert_append (k : Nat) (v : Str) (acc : List (Nat × Str))
    (h : k ∉ acc.map Prod.fst) : upsert k v acc = acc ++ [(k, v)] := by
  induction acc with
  | nil => rfl
  | cons p rest ih =>
    unfold upsert
    rw [if_neg (by simp at h; exact fun hx => h.1 hx.symm)]
    simp only [List.cons_append, List.cons.injEq, true_and]
    exact ih (by simp at h ⊢; exact h.2)

theorem slotToken_head (id : Nat) : (slotToken id).head? = some '<' := rfl

theorem slotToken_ne_nil (id : Nat) : slotToken id ≠ [] := by
  intro h
  have := slotToken_head id
  rw [h] at this
  exact absurd this (by simp)

/-- On a well-shaped input, the slot loop pairs every id with its body and
leaves an empty remainder. -/
theorem parseSlotGo_render (pairs : List (Nat × Str)) :
    ∀ acc, (∀ p ∈ pairs, p.1 ∉ acc.map Prod.fst) → (pairs.map Prod.fst).Nodup →
      (∀ p ∈ pairs, ∀ c ∈ p.2, c ≠ '<') →
      parseSlotGo (renderSlots pairs) (pairs.map Prod.fst) acc = .ok (acc ++ pairs, []) := by
  induction pairs with
  | nil => intro acc _ _ _; simp [renderSlots, parseSlotGo]
  | cons p rest ih =>
    intro acc hacc hnd hbody
    obtain ⟨id, b⟩ := p
    have hrender : renderSlots ((id, b) :: rest) = slotToken id ++ (b ++ renderSlots rest) := by
      simp [renderSlots, List.append_assoc]
    rw [hrender, List.map_cons]
    unfold parseSlotGo
    rw [splitOnce_self _ _ (slotToken_ne_nil id)]
    cases rest with
    | nil =>
      simp only [List.map_nil, renderSlots, List.append_nil]
      rw [upsert_append id b acc (hacc (id, b) (by simp))]
    | cons q rest2 =>
      obtain ⟨id2, b2⟩ := q
      simp only [List.map_cons]
      have hrender2 : renderSlots ((id2, b2) :: rest2) =
          slotToken id2 ++ (b2 ++ renderSlots rest2) := by
        simp [renderSlots, List.append_assoc]
      rw [hrender2, splitOnce_append_left _ _ _
        (fun c hc => hbody (id, b) (by simp) c hc) (slotToken_head id2),
        splitOnce_self _ _ (slotToken_ne_nil id2)]
      simp only [Option.map_some', List.append_nil]
      rw [List.drop_left]
      rw [upsert_append id b acc (hacc (id, b) (by simp))]
      have := ih (acc ++ [(id, b)])
        (fun p hp => by
          intro hmem
          rw [List.map_append, List.mem_append] at hmem
          rcases hmem with hx | hx
          · exact hacc p (List.mem_cons_of_mem _ hp) hx
          · simp only [List.map_cons, List.map_nil, List.mem_singleton] at hx
            have hne := (List.nodup_cons.mp hnd).1
            exact hne (hx ▸ List.mem_map.mpr ⟨p, hp, rfl⟩))
        ((List.nodup_cons.mp hnd).2)
        (fun p hp c hc => hbody p (by simp [hp]) c hc)
      rw [hrender2, List.map_cons] at this
      rw [this]
      simp

/-- All failures of the slot loop carry the marker-missing message. -/
theorem parseSlotGo_error_name :
    ∀ (ids : List Nat) (cur : Str) (acc : List (Nat × Str)) (e : String),
      parseSlotGo cur ids acc = .error e → e = "missing SLOT" := by
  intro ids
  induction ids with
  | nil => intro cur acc e h; exact absurd h (by simp [parseSlotGo])
  | cons id rest ih =>
    intro cur acc e h
    unfold parseSlotGo at h
    cases hsp : splitOnce (slotToken id) cur with
    | none => simp only [hsp, Except.error.injEq] at h; exact h.symm
    | some pr =>
      obtain ⟨g, am⟩ := pr
      simp only [hsp] at h
      cases rest with
      | nil => simp at h
      | cons next rest2 =>
        cases hsp2 : splitOnce (slotToken next) am with
        | none => simp only [hsp2, Except.error.injEq] at h; exact h.symm
        | some pr2 =>
          obtain ⟨body, g2⟩ := pr2
          simp only [hsp2] at h
          exact ih _ _ _ h

/-- The remainder after a successful slot loop on a nonempty id list is
always empty: the source's trailing-content check can never fire. -/
theorem parseSlotGo_ok_rem :
    ∀ (ids : List Nat) (cur : Str) (acc out1 : List (Nat × Str)) (rem : Str),
      ids ≠ [] → parseSlotGo cur ids acc = .ok (out1, rem) → rem = [] := by
  intro ids
  induction ids with
  | nil => intro _ _ _ _ h; exact absurd rfl h
  | cons id rest ih =>
    intro cur acc out1 rem _ h
    unfold parseSlotGo at h
    cases hsp : splitOnce (slotToken id) cur with
    | none => simp [hsp] at h
    | some pr =>
      obtain ⟨g, am⟩ := pr
      simp only [hsp] at h
      cases rest with
      | nil => simp only [Except.ok.injEq, Prod.mk.injEq] at h; exact h.2.symm
      | cons next rest2 =>
        cases hsp2 : splitOnce (slotToken next) am with
        | none => simp [hsp2] at h
        | some pr2 =>
          obtain ⟨body, g2⟩ := pr2
          simp only [hsp2] at h
          exact ih _ _ _ _ (by simp) h

/-- Claim C8 counterexample: a whitespace-only (hence non-empty) prefix
before the first slot marker does not make `parse_slot_output` fail — the
source only requires the prefix to trim to empty, so the claim's
"not empty ⇒ error" is false at this input. -/
theorem parseSlotOutput_counterexample :
    parseSlotOutput (' ' :: (slotToken 1 ++ "x".data)) [1] = .ok [(1, "x".data)] := rfl

/-- Claim C8 (amended): with a nonempty expected id list, the function fails
with `unexpected_prefix_before_first_slot` only when the text before the
first marker does not trim to empty; the text after the last expected
marker, trailing content included, is returned as the last slot's body and
the suffix error (named `slot_terminator_has_content` by the spec but
`unexpected_suffix_after_last_slot` in the code) is unreachable; on a
well-shaped input it returns the map assigning each expected id the text
between its marker and the next expected marker. -/
theorem parseSlotOutput_amended :
    (∀ (text : Str) (first : Nat) (rest : List Nat) (pre after : Str),
      splitOnce (slotToken first) text = some (pre, after) → trimEmpty pre = false →
      parseSlotOutput text (first :: rest) = .error "unexpected_prefix_before_first_slot") ∧
    (∀ (text : Str) (ids : List Nat),
      parseSlotOutput text ids ≠ .error "unexpected_suffix_after_last_slot") ∧
    (∀ pairs : List (Nat × Str), pairs ≠ [] → (pairs.map Prod.fst).Nodup →
      (∀ p ∈ pairs, ∀ c ∈ p.2, c ≠ '<') →
      parseSlotOutput (renderSlots pairs) (pairs.map Prod.fst) = .ok pairs) := by
  refine ⟨?_, ?_, ?_⟩
  · intro text first rest pre after hsp hpre
    unfold parseSlotOutput
    simp only [hsp, hpre]
    rfl
  · intro text ids h
    cases ids with
    | nil => exact absurd h (by simp [parseSlotOutput])
    | cons first rest =>
      unfold parseSlotOutput at h
      cases hsp : splitOnce (slotToken first) text with
      | none =>
        simp only [hsp, Except.error.injEq] at h
        exact absurd h.symm (by decide)
      | some pr =>
        obtain ⟨pre, after⟩ := pr
        simp only [hsp] at h
        by_cases hpre : trimEmpty pre
        · simp only [hpre, Bool.not_true, if_neg] at h
          cases hgo : parseSlotGo text (first :: rest) [] with
          | error e =>
            simp only [hgo] at h
            have := parseSlotGo_error_name _ _ _ _ hgo
            subst this
            exact absurd (Except.error.inj h).symm (by decide)
          | ok pr2 =>
            obtain ⟨acc, rem⟩ := pr2
            have hrem : rem = [] := parseSlotGo_ok_rem _ _ _ _ _ (by simp) hgo
            subst hrem
            simp [hgo] at h
        · simp only [hpre, Bool.not_false] at h
          exact absurd (Except.error.inj h).symm (by decide)
  · intro pairs hne hnd hbody
    cases pairs with
    | nil => exact absurd rfl hne
    | cons p rest =>
      obtain ⟨id, b⟩ := p
      have hrender : renderSlots ((id, b) :: rest) = slotToken id ++ (b ++ renderSlots rest) := by
        simp [renderSlots, List.append_assoc]
      unfold parseSlotOutput
      rw [List.map_cons]
      dsimp only
      rw [hrender, splitOnce_self _ _ (slotToken_ne_nil id)]
      have hgo := parseSlotGo_render ((id, b) :: rest) [] (by simp) hnd hbody
      rw [hrender] at hgo
      rw [List.map_cons] at hgo
      simp only [hgo]
      simp [trimEmpty]

/-- Witness for the amended C8 statement: a non-trim-empty prefix errors, a
plain input does not raise the suffix error, and a two-slot input parses to
its bodies. -/
theorem parseSlotOutput_amended_witness :
    parseSlotOutput (" x".data ++ slotToken 1) [1] =
        .error "unexpected_prefix_before_first_slot" ∧
    parseSlotOutput "abc".data [1] ≠ .error "unexpected_suffix_after_last_slot" ∧
    parseSlotOutput (renderSlots [(1, "a".data), (2, "b".data)]) [1, 2] =
        .ok [(1, "a".data), (2, "b".data)] :=
  ⟨parseSlotOutput_amended.1 (" x".data ++ slotToken 1) 1 [] " x".data []
      (by decide) (by decide),
    parseSlotOutput_amended.2.1 "abc".data [1],
    parseSlotOutput_amended.2.2 [(1, "a".data), (2, "b".data)] (by decide)
      (by decide) (by decide)⟩

/-! ### C3: validator acceptance postcondition -/

theorem layoutLoop_ok (l : List (Str × Str)) (h : layoutLoop l = .ok ()) :
    ∀ pr ∈ l, (isControlToken pr.1 = true → pr.1 = pr.2) ∧
      (isControlToken pr.1 = false → trimEmpty pr.1 = trimEmpty pr.2) := by
  induction l with
  | nil => intro pr hpr; exact absurd hpr (by simp)
  | cons p rest ih =>
    obtain ⟨s, t⟩ := p
    unfold layoutLoop at h
    by_cases hcs : isControlToken s = true
    · rw [if_pos hcs] at h
      by_cases hst : s = t
      · rw [if_neg (not_not_intro hst)] at h
        intro pr hpr
        rcases List.mem_cons.mp hpr with hpr | hpr
        · subst hpr
          exact ⟨fun _ => hst, fun hf => absurd hcs (by simp [hf])⟩
        · exact ih h pr hpr
      · rw [if_pos hst] at h
        exact absurd h (by simp)
    · rw [if_neg hcs] at h
      by_cases hte : trimEmpty s = trimEmpty t
      · rw [if_neg (not_not_intro hte)] at h
        intro pr hpr
        rcases List.mem_cons.mp hpr with hpr | hpr
        · subst hpr
          exact ⟨fun hc => absurd hc hcs, fun _ => hte⟩
        · exact ih h pr hpr
      · rw [if_pos hte] at h
        exact absurd h (by simp)

theorem ntCountLoop_ok (src tgt : Str) (l : List (Str × Str))
    (h : ntCountLoop src tgt l = .ok ()) :
    ∀ pr ∈ l, countLit pr.1 src = countLit pr.1 tgt := by
  induction l with
  | nil => intro pr hpr; exact absurd hpr (by simp)
  | cons p rest ih =>
    obtain ⟨tok, v⟩ := p
    unfold ntCountLoop at h
    by_cases hc : countLit tok src = countLit tok tgt
    · rw [if_neg (not_not_intro hc)] at h
      intro pr hpr
      rcases List.mem_cons.mp hpr with hpr | hpr
      · subst hpr; exact hc
      · exact ih h pr hpr
    · rw [if_pos hc] at h
      exact absurd h (by simp)

/-- **C3**: whenever `validate_translation` returns Ok, the ordered
`ANY_SENTINEL_RE` match sequences of source and translation agree, the
control split has equal length with identical tokens at control positions
and agreeing trim-emptiness at plaintext positions, every NT-map token
occurs equally often in both texts, and the multiset of maximal digit runs
of the unfrozen, MT-token-stripped texts is identical. -/
theorem validateTranslation_ok (tu : Tu) (translated : Str)
    (h : validateTranslation tu translated = .ok ()) :
    findMatches anySentinelM tu.frozenSurface = findMatches anySentinelM translated ∧
    ((splitByControlSequence tu.frozenSurface).length =
        (splitByControlSequence translated).length ∧
      ∀ pr ∈ (splitByControlSequence tu.frozenSurface).zip (splitByControlSequence translated),
        (isControlToken pr.1 = true → pr.1 = pr.2) ∧
        (isControlToken pr.1 = false → trimEmpty pr.1 = trimEmpty pr.2)) ∧
    (∀ pr ∈ tu.ntMap, countLit pr.1 tu.frozenSurface = countLit pr.1 translated) ∧
    digitCounter (replaceAll mtTokenM (fun _ => [' '])
        (unfreezeText tu.frozenSurface tu.ntMap)) =
      digitCounter (replaceAll mtTokenM (fun _ => [' '])
        (unfreezeText translated tu.ntMap)) := by
  unfold validateTranslation at h
  by_cases h1 : trimEmpty translated = true
  · rw [if_pos h1] at h; exact absurd h (by simp)
  rw [if_neg h1] at h
  cases hf : (findMatches mtTokenM translated).find?
      (fun tok => !(findMatches mtTokenM tu.frozenSurface).contains tok) with
  | some tok => simp only [hf] at h; exact absurd h (by simp)
  | none =>
    simp only [hf] at h
    by_cases hsent : findMatches anySentinelM tu.frozenSurface =
        findMatches anySentinelM translated
    · rw [if_neg (not_not_intro hsent)] at h
      by_cases hctrl : controlTokensFromText tu.frozenSurface =
          controlTokensFromText translated
      · rw [if_neg (not_not_intro hctrl)] at h
        by_cases hlen : (splitByControlSequence tu.frozenSurface).length =
            (splitByControlSequence translated).length
        · rw [if_neg (not_not_intro hlen)] at h
          cases hlay : layoutLoop ((splitByControlSequence tu.frozenSurface).zip
              (splitByControlSequence translated)) with
          | error e => simp only [hlay] at h; exact absurd h (by simp)
          | ok u =>
            cases u
            simp only [hlay] at h
            cases hnt : ntCountLoop tu.frozenSurface translated tu.ntMap with
            | error e => simp only [hnt] at h; exact absurd h (by simp)
            | ok u2 =>
              cases u2
              simp only [hnt] at h
              by_cases hdig : digitCounter (replaceAll mtTokenM (fun _ => [' '])
                    (unfreezeText tu.frozenSurface tu.ntMap)) =
                  digitCounter (replaceAll mtTokenM (fun _ => [' '])
                    (unfreezeText translated tu.ntMap))
              · exact ⟨hsent, ⟨hlen, layoutLoop_ok _ hlay⟩,
                  ntCountLoop_ok _ _ _ hnt, hdig⟩
              · rw [if_pos hdig] at h; exact absurd h (by simp)
        · rw [if_pos hlen] at h; exact absurd h (by simp)
      · rw [if_pos hctrl] at h; exact absurd h (by simp)
    · rw [if_pos hsent] at h; exact absurd h (by simp)

/-- C3 witness: a sentinel-free source and translation pair that the
validator accepts, with the four postconditions at that input. -/
theorem validateTranslation_ok_witness :
    findMatches anySentinelM "Hi".data = findMatches anySentinelM "Yo".data ∧
    ((splitByControlSequence "Hi".data).length = (splitByControlSequence "Yo".data).length ∧
      ∀ pr ∈ (splitByControlSequence "Hi".data).zip (splitByControlSequence "Yo".data),
        (isControlToken pr.1 = true → pr.1 = pr.2) ∧
        (isControlToken pr.1 = false → trimEmpty pr.1 = trimEmpty pr.2)) ∧
    (∀ pr ∈ ([] : List (Str × Str)), countLit pr.1 "Hi".data = countLit pr.1 "Yo".data) ∧
    digitCounter (replaceAll mtTokenM (fun _ => [' ']) (unfreezeText "Hi".data [])) =
      digitCounter (replaceAll mtTokenM (fun _ => [' ']) (unfreezeText "Yo".data [])) :=
  validateTranslation_ok (Tu.mk 1 "Hi".data [] none none none none) "Yo".data rfl

/-! ### C6: no leftover placeholders after a successful merge -/

theorem checkLeftover_ok (pfx : Str) (parts : List (Str × List XmlEvent))
    (h : checkLeftover pfx parts = .ok ()) :
    ∀ pr ∈ parts, ∀ ev ∈ pr.2, eventHasLeftover pfx ev = false := by
  induction parts with
  | nil => intro pr hpr; exact absurd hpr (by simp)
  | cons p rest ih =>
    obtain ⟨n, evs⟩ := p
    unfold checkLeftover at h
    by_cases hany : evs.any (eventHasLeftover pfx) = true
    · rw [if_pos hany] at h; exact absurd h (by simp)
    · rw [if_neg hany] at h
      intro pr hpr
      rcases List.mem_cons.mp hpr with hpr | hpr
      · subst hpr
        intro ev hev
        have hne : ¬eventHasLeftover pfx ev = true :=
          fun hc => hany (List.any_eq_true.mpr ⟨ev, hev, hc⟩)
        simpa using hne
      · exact ih h pr hpr

/-- **C6**: when `merge_mask_json_and_offsets` succeeds, no text node, CDATA
node or attribute value of any reconstructed part contains the placeholder
prefix (`eventHasLeftover` is exactly that per-event scan). -/
theorem mergeCore_no_leftover (mask : MaskIn) (offsets : OffsetsIn) (textIn : TextIn)
    (parts : List (Str × List XmlEvent)) (h : mergeCore mask offsets textIn = .ok parts) :
    ∀ pr ∈ parts, ∀ ev ∈ pr.2, eventHasLeftover offsets.phPfx ev = false := by
  unfold mergeCore at h
  by_cases h1 : mask.phPfx = offsets.phPfx
  · rw [if_neg (not_not_intro h1)] at h
    by_cases h2 : textIn.phPfx = offsets.phPfx
    · rw [if_neg (not_not_intro h2)] at h
      by_cases h3 : (!offsets.slots.isEmpty) = true ∧ minIdOf offsets.slots ≠ 1
      · rw [if_pos h3] at h; exact absurd h (by simp)
      · rw [if_neg h3] at h
        by_cases h4 : (!offsets.slots.isEmpty) = true ∧
            maxIdOf offsets.slots ≠ offsets.slots.length
        · rw [if_pos h4] at h; exact absurd h (by simp)
        · rw [if_neg h4] at h
          by_cases h5 : textIn.slotTexts.length = maxIdOf offsets.slots
          · rw [if_neg (not_not_intro h5)] at h
            cases hp : parseMaskParts mask.entries with
            | error e => simp only [hp] at h; exact absurd h (by simp)
            | ok parts0 =>
              simp only [hp] at h
              cases ha : applySlots offsets.phPfx textIn.slotTexts parts0 offsets.slots with
              | error e => simp only [ha] at h; exact absurd h (by simp)
              | ok parts2 =>
                simp only [ha] at h
                cases hc : checkLeftover offsets.phPfx parts2 with
                | error e => simp only [hc] at h; exact absurd h (by simp)
                | ok u =>
                  cases u
                  simp only [hc] at h
                  have hpe : parts2 = parts := Except.ok.inj h
                  subst hpe
                  exact checkLeftover_ok _ _ hc
          · rw [if_pos h5] at h; exact absurd h (by simp)
    · rw [if_pos h2] at h; exact absurd h (by simp)
  · rw [if_pos h1] at h; exact absurd h (by simp)

/-- C6 witness: a one-part, one-slot merge succeeds and the text event of its
output carries no leftover placeholder prefix. -/
theorem mergeCore_no_leftover_witness :
    eventHasLeftover (OffsetsIn.mk "p".data
        [TextSlot.mk 1 "word/document.xml".data SlotKind.text 1 none]).phPfx
      (XmlEvent.text "hi".data) = false :=
  mergeCore_no_leftover
    (MaskIn.mk "p".data
      [Entry.mk "word/document.xml".data false "<w:t>__MT_MASK_p_00000001__</w:t>".data])
    (OffsetsIn.mk "p".data [TextSlot.mk 1 "word/document.xml".data SlotKind.text 1 none])
    (TextIn.mk "p".data ["hi".data])
    [("word/document.xml".data,
      [XmlEvent.start "w:t".data [], XmlEvent.text "hi".data, XmlEvent.endE "w:t".data])]
    rfl
    ("word/document.xml".data,
      [XmlEvent.start "w:t".data [], XmlEvent.text "hi".data, XmlEvent.endE "w:t".data])
    (by simp)
    (XmlEvent.text "hi".data)
    (by simp)

/-! ### C5: merger structural preconditions -/

theorem lookup_updatePart_ne (name n : Str) (evs : List XmlEvent)
    (l : List (Str × List XmlEvent)) (h : n ≠ name) :
    (updatePart name evs l).lookup n = l.lookup n := by
  induction l with
  | nil => rfl
  | cons p rest ih =>
    obtain ⟨k, v⟩ := p
    unfold updatePart
    by_cases hk : k = name
    · rw [if_pos hk]
      subst hk
      have hbeq : (n == k) = false := by
        simp [h]
      simp [List.lookup, hbeq]
    · rw [if_neg hk]
      by_cases hnk : n = k
      · subst hnk
        simp [List.lookup]
      · have hbeq : (n == k) = false := by simp [hnk]
        simp [List.lookup, hbeq, ih]

theorem lookup_updatePart_eq (name : Str) (evs old : List XmlEvent)
    (l : List (Str × List XmlEvent)) (h : l.lookup name = some old) :
    (updatePart name evs l).lookup name = some evs := by
  induction l with
  | nil => simp [List.lookup] at h
  | cons p rest ih =>
    obtain ⟨k, v⟩ := p
    unfold updatePart
    by_cases hk : k = name
    · rw [if_pos hk]
      subst hk
      simp [List.lookup]
    · rw [if_neg hk]
      have hnk : name ≠ k := fun hx => hk hx.symm
      have hbeq : (name == k) = false := by simp [hnk]
      rw [List.lookup] at h
      rw [hbeq] at h
      rw [List.lookup, hbeq]
      exact ih h

theorem slotNewEvent_evOk (pfx rep : Str) (s : TextSlot) (ev newEv : XmlEvent)
    (h : slotNewEvent pfx rep s ev = .ok newEv) : slotEvOk pfx s ev = true := by
  obtain ⟨sid, spn, sk, sei, san⟩ := s
  unfold slotNewEvent at h
  unfold slotEvOk
  cases sk <;> cases ev <;> cases san <;> (try simp_all) <;>
    (try (split at h <;> simp_all)) <;>
    (try (split at h <;> simp_all))

theorem applyOneSlot_ok (pfx : Str) (texts : List Str)
    (parts parts2 : List (Str × List XmlEvent)) (s : TextSlot)
    (h : applyOneSlot pfx texts parts s = .ok parts2) :
    slotHasPlaceholder pfx parts s = true ∧
    ∀ name i, (name ≠ s.partName ∨ i ≠ s.eventIndex) →
      eventAt parts2 name i = eventAt parts name i := by
  unfold applyOneSlot at h
  cases hrep : texts.get? (s.id - 1) with
  | none => simp only [hrep] at h; exact absurd h (by simp)
  | some replacement =>
    simp only [hrep] at h
    cases hlk : parts.lookup s.partName with
    | none => simp only [hlk] at h; exact absurd h (by simp)
    | some evs =>
      simp only [hlk] at h
      cases hev : evs.get? s.eventIndex with
      | none => simp only [hev] at h; exact absurd h (by simp)
      | some ev =>
        simp only [hev] at h
        cases hnew : slotNewEvent pfx replacement s ev with
        | error e => simp only [hnew] at h; exact absurd h (by simp)
        | ok newEv =>
          simp only [hnew] at h
          have hparts2 : parts2 = updatePart s.partName (evs.set s.eventIndex newEv) parts :=
            (Except.ok.inj h).symm
          constructor
          · unfold slotHasPlaceholder eventAt
            simp only [hlk, hev]
            exact slotNewEvent_evOk _ _ _ _ _ hnew
          · intro name i hne
            subst hparts2
            unfold eventAt
            rcases hne with hne | hne
            · rw [lookup_updatePart_ne _ _ _ _ hne]
            · by_cases hn : name = s.partName
              · subst hn
                rw [lookup_updatePart_eq _ _ evs _ hlk, hlk]
                exact List.get?_set_ne _ _ (fun hx => hne hx.symm)
              · rw [lookup_updatePart_ne _ _ _ _ hn]

theorem applySlots_ok_holds (pfx : Str) (texts : List Str) :
    ∀ (slots : List TextSlot) (parts out : List (Str × List XmlEvent)),
      List.Pairwise slotPosNe slots →
      applySlots pfx texts parts slots = .ok out →
      ∀ s ∈ slots, slotHasPlaceholder pfx parts s = true := by
  intro slots
  induction slots with
  | nil => intro parts out _ _ s hs; exact absurd hs (by simp)
  | cons s0 rest ih =>
    intro parts out hpw h s hs
    unfold applySlots at h
    cases ha : applyOneSlot pfx texts parts s0 with
    | error e => simp only [ha] at h; exact absurd h (by simp)
    | ok parts1 =>
      simp only [ha] at h
      obtain ⟨hhold, hframe⟩ := applyOneSlot_ok _ _ _ _ _ ha
      rcases List.mem_cons.mp hs with rfl | hs2
      · exact hhold
      · have hrest := ih parts1 out (List.pairwise_cons.mp hpw).2 h s hs2
        have hne : slotPosNe s0 s := (List.pairwise_cons.mp hpw).1 s hs2
        have heq : eventAt parts1 s.partName s.eventIndex =
            eventAt parts s.partName s.eventIndex := by
          apply hframe
          rcases hne with hne | hne
          · exact Or.inl (fun hx => hne hx.symm)
          · exact Or.inr (fun hx => hne hx.symm)
        unfold slotHasPlaceholder at hrest ⊢
        rw [heq] at hrest
        exact hrest

theorem mergeCore_ok_inv (mask : MaskIn) (offsets : OffsetsIn) (textIn : TextIn)
    (out : List (Str × List XmlEvent)) (h : mergeCore mask offsets textIn = .ok out) :
    mask.phPfx = offsets.phPfx ∧ textIn.phPfx = offsets.phPfx ∧
    (offsets.slots ≠ [] →
      minIdOf offsets.slots = 1 ∧ maxIdOf offsets.slots = offsets.slots.length) ∧
    textIn.slotTexts.length = maxIdOf offsets.slots ∧
    ∃ parts0, parseMaskParts mask.entries = .ok parts0 ∧
      applySlots offsets.phPfx textIn.slotTexts parts0 offsets.slots = .ok out := by
  unfold mergeCore at h
  by_cases h1 : mask.phPfx = offsets.phPfx
  · rw [if_neg (not_not_intro h1)] at h
    by_cases h2 : textIn.phPfx = offsets.phPfx
    · rw [if_neg (not_not_intro h2)] at h
      by_cases h3 : (!offsets.slots.isEmpty) = true ∧ minIdOf offsets.slots ≠ 1
      · rw [if_pos h3] at h; exact absurd h (by simp)
      · rw [if_neg h3] at h
        by_cases h4 : (!offsets.slots.isEmpty) = true ∧
            maxIdOf offsets.slots ≠ offsets.slots.length
        · rw [if_pos h4] at h; exact absurd h (by simp)
        · rw [if_neg h4] at h
          by_cases h5 : textIn.slotTexts.length = maxIdOf offsets.slots
          · rw [if_neg (not_not_intro h5)] at h
            cases hp : parseMaskParts mask.entries with
            | error e => simp only [hp] at h; exact absurd h (by simp)
            | ok parts0 =>
              simp only [hp] at h
              cases ha : applySlots offsets.phPfx textIn.slotTexts parts0 offsets.slots with
              | error e => simp only [ha] at h; exact absurd h (by simp)
              | ok parts2 =>
                simp only [ha] at h
                cases hc : checkLeftover offsets.phPfx parts2 with
                | error e => simp only [hc] at h; exact absurd h (by simp)
                | ok u =>
                  cases u
                  simp only [hc] at h
                  have hpe : parts2 = out := Except.ok.inj h
                  subst hpe
                  refine ⟨h1, h2, ?_, h5, parts0, rfl, ha⟩
                  intro hne
                  have hb : (!offsets.slots.isEmpty) = true := by
                    simp [List.isEmpty_iff, hne]
                  constructor
                  · by_contra hmin
                    exact h3 ⟨hb, hmin⟩
                  · by_contra hmax
                    exact h4 ⟨hb, hmax⟩
          · rw [if_pos h5] at h; exact absurd h (by simp)
    · rw [if_pos h2] at h; exact absurd h (by simp)
  · rw [if_pos h1] at h; exact absurd h (by simp)

/-- Claim C5 (amended): the merger errors whenever the placeholder prefixes
of mask, offsets and text disagree; whenever the slot list is non-empty and
its minimum id is not 1 or its maximum id is not the slot count (the code's
actual contiguity guard — weaker than "the ids form the range 1..N", see the
counterexample); whenever the slot_texts length differs from the maximum
slot id; and whenever — with pairwise distinct slot positions, without which
an earlier substitution can rewrite a later slot's event — some slot's
recorded event in the parsed mask parts does not hold exactly its expected
placeholder literal. -/
theorem mergeCore_structural (mask : MaskIn) (offsets : OffsetsIn) (textIn : TextIn) :
    ((mask.phPfx ≠ offsets.phPfx ∨ textIn.phPfx ≠ offsets.phPfx) →
      ∀ out, mergeCore mask offsets textIn ≠ .ok out) ∧
    (offsets.slots ≠ [] →
      (minIdOf offsets.slots ≠ 1 ∨ maxIdOf offsets.slots ≠ offsets.slots.length) →
      ∀ out, mergeCore mask offsets textIn ≠ .ok out) ∧
    (textIn.slotTexts.length ≠ maxIdOf offsets.slots →
      ∀ out, mergeCore mask offsets textIn ≠ .ok out) ∧
    (∀ parts0 s, parseMaskParts mask.entries = .ok parts0 →
      List.Pairwise slotPosNe offsets.slots → s ∈ offsets.slots →
      slotHasPlaceholder offsets.phPfx parts0 s = false →
      ∀ out, mergeCore mask offsets textIn ≠ .ok out) := by
  refine ⟨?_, ?_, ?_, ?_⟩
  · intro hyp out hok
    have inv := mergeCore_ok_inv _ _ _ _ hok
    rcases hyp with hyp | hyp
    · exact hyp inv.1
    · exact hyp inv.2.1
  · intro hne hyp out hok
    have inv := mergeCore_ok_inv _ _ _ _ hok
    rcases hyp with hyp | hyp
    · exact hyp (inv.2.2.1 hne).1
    · exact hyp (inv.2.2.1 hne).2
  · intro hyp out hok
    exact hyp (mergeCore_ok_inv _ _ _ _ hok).2.2.2.1
  · intro parts0 s hparse hpw hs hbad out hok
    obtain ⟨parts0x, hp, ha⟩ := (mergeCore_ok_inv _ _ _ _ hok).2.2.2.2
    have hpe : parts0x = parts0 := by
      rw [hparse] at hp
      exact (Except.ok.inj hp).symm
    subst hpe
    have := applySlots_ok_holds _ _ _ _ _ hpw ha s hs
    rw [hbad] at this
    exact absurd this (by simp)

/-- Claim C5 counterexample: the slot ids `[1, 3, 3]` are non-empty and do
not form the contiguous range `1..3` (the id `2` is absent), yet the merge
succeeds — the code only checks the minimum and the maximum against the slot
count, not contiguity of the ids themselves. -/
theorem mergeCore_structural_counterexample :
    ((OffsetsIn.mk "p".data
        [TextSlot.mk 1 "a.xml".data SlotKind.text 2 none,
         TextSlot.mk 3 "a.xml".data SlotKind.text 5 none,
         TextSlot.mk 3 "a.xml".data SlotKind.text 8 none]).slots.map TextSlot.id
      = [1, 3, 3]) ∧
    (2 ∉ [1, 3, 3]) ∧
    mergeCore
      (MaskIn.mk "p".data
        [Entry.mk "a.xml".data false
          "<a><w:t>__MT_MASK_p_00000001__</w:t><w:t>__MT_MASK_p_00000003__</w:t><w:t>__MT_MASK_p_00000003__</w:t></a>".data])
      (OffsetsIn.mk "p".data
        [TextSlot.mk 1 "a.xml".data SlotKind.text 2 none,
         TextSlot.mk 3 "a.xml".data SlotKind.text 5 none,
         TextSlot.mk 3 "a.xml".data SlotKind.text 8 none])
      (TextIn.mk "p".data ["x".data, "y".data, "z".data])
      = .ok [("a.xml".data,
          [XmlEvent.start "a".data [],
           XmlEvent.start "w:t".data [], XmlEvent.text "x".data, XmlEvent.endE "w:t".data,
           XmlEvent.start "w:t".data [], XmlEvent.text "z".data, XmlEvent.endE "w:t".data,
           XmlEvent.start "w:t".data [], XmlEvent.text "z".data, XmlEvent.endE "w:t".data,
           XmlEvent.endE "a".data])] :=
  ⟨rfl, by decide, rfl⟩

/-- C5 witness: each amended precondition fires on a concrete input — a
prefix mismatch, a minimum slot id of 2, a slot_texts length above the
maximum id, and a slot whose recorded event holds plain text instead of its
placeholder. -/
theorem mergeCore_structural_witness :
    (∀ out, mergeCore (MaskIn.mk "a".data []) (OffsetsIn.mk "b".data [])
        (TextIn.mk "b".data []) ≠ .ok out) ∧
    (∀ out, mergeCore (MaskIn.mk "p".data [])
        (OffsetsIn.mk "p".data [TextSlot.mk 2 "a.xml".data SlotKind.text 0 none])
        (TextIn.mk "p".data ["x".data]) ≠ .ok out) ∧
    (∀ out, mergeCore (MaskIn.mk "p".data []) (OffsetsIn.mk "p".data [])
        (TextIn.mk "p".data ["x".data]) ≠ .ok out) ∧
    (∀ out, mergeCore
        (MaskIn.mk "p".data [Entry.mk "a.xml".data false "<w:t>bad</w:t>".data])
        (OffsetsIn.mk "p".data [TextSlot.mk 1 "a.xml".data SlotKind.text 1 none])
        (TextIn.mk "p".data ["x".data]) ≠ .ok out) :=
  ⟨(mergeCore_structural _ _ _).1 (Or.inl (by decide)),
   (mergeCore_structural _ _ _).2.1 (by decide) (Or.inl (by decide)),
   (mergeCore_structural _ _ _).2.2.1 (by decide),
   (mergeCore_structural _ _ _).2.2.2
     [("a.xml".data, [XmlEvent.start "w:t".data [], XmlEvent.text "bad".data,
        XmlEvent.endE "w:t".data])]
     (TextSlot.mk 1 "a.xml".data SlotKind.text 1 none)
     rfl (by simp) (by simp) (by decide)⟩

/-! ### C4: extraction purity and slot contiguity -/


theorem findAttr_setAttrFirst (key v : Str) (attrs : List (Str × Str))
    (h : (findAttr attrs key).isSome) :
    findAttr (setAttrFirst key v attrs) key = some v := by
  induction attrs with
  | nil => simp [findAttr] at h
  | cons a rest ih =>
    obtain ⟨k, old⟩ := a
    unfold setAttrFirst
    by_cases hk : k = key
    · rw [if_pos hk]
      subst hk
      simp [findAttr, List.find?]
    · rw [if_neg hk]
      have hd : (decide (k = key)) = false := by simp [hk]
      simp only [findAttr, List.find?, hd] at h ⊢
      exact ih h

theorem maskStep_maskable (pfx pn : Str) (idx nextId : Nat) (ev : XmlEvent)
    (h : maskableEv ev = true) :
    ∃ ev2 kind attr,
      maskStep pfx pn idx nextId ev = (ev2, [⟨nextId, pn, kind, idx, attr⟩], nextId + 1) ∧
      slotEvOk pfx ⟨nextId, pn, kind, idx, attr⟩ ev2 = true ∧
      maskableEv ev2 = true := by
  cases ev with
  | text t =>
    exact ⟨_, SlotKind.text, none, rfl, by simp [slotEvOk], rfl⟩
  | cdata t =>
    exact ⟨_, SlotKind.cdata, none, rfl, by simp [slotEvOk], rfl⟩
  | start name attrs =>
    simp only [maskableEv, Bool.and_eq_true, decide_eq_true_eq] at h
    refine ⟨XmlEvent.start name (setAttrFirst "w:val".data (placeholder pfx nextId) attrs),
      SlotKind.attr, some "w:val".data, ?_, ?_, ?_⟩
    · simp only [maskStep]
      rw [if_pos ⟨h.1, h.2⟩]
    · simp only [slotEvOk]
      rw [findAttr_setAttrFirst _ _ _ h.2]
      simp
    · simp only [maskableEv, Bool.and_eq_true, decide_eq_true_eq]
      refine ⟨h.1, ?_⟩
      rw [findAttr_setAttrFirst _ _ _ h.2]
      rfl
  | empty name attrs =>
    simp only [maskableEv, Bool.and_eq_true, decide_eq_true_eq] at h
    refine ⟨XmlEvent.empty name (setAttrFirst "w:val".data (placeholder pfx nextId) attrs),
      SlotKind.attr, some "w:val".data, ?_, ?_, ?_⟩
    · simp only [maskStep]
      rw [if_pos ⟨h.1, h.2⟩]
    · simp only [slotEvOk]
      rw [findAttr_setAttrFirst _ _ _ h.2]
      simp
    · simp only [maskableEv, Bool.and_eq_true, decide_eq_true_eq]
      refine ⟨h.1, ?_⟩
      rw [findAttr_setAttrFirst _ _ _ h.2]
      rfl
  | decl v e st => simp [maskableEv] at h
  | endE n => simp [maskableEv] at h
  | comment t => simp [maskableEv] at h
  | pi c => simp [maskableEv] at h
  | doctype t => simp [maskableEv] at h

theorem maskStep_not (pfx pn : Str) (idx nextId : Nat) (ev : XmlEvent)
    (h : maskableEv ev = false) :
    maskStep pfx pn idx nextId ev = (ev, [], nextId) := by
  cases ev with
  | text t => simp [maskableEv] at h
  | cdata t => simp [maskableEv] at h
  | start name attrs =>
    simp only [maskableEv, Bool.and_eq_false_iff] at h
    simp only [maskStep]
    rw [if_neg]
    rintro ⟨h1, h2⟩
    rcases h with h | h
    · simp [h1] at h
    · simp [h2] at h
  | empty name attrs =>
    simp only [maskableEv, Bool.and_eq_false_iff] at h
    simp only [maskStep]
    rw [if_neg]
    rintro ⟨h1, h2⟩
    rcases h with h | h
    · simp [h1] at h
    · simp [h2] at h
  | decl v e st => rfl
  | endE n => rfl
  | comment t => rfl
  | pi c => rfl
  | doctype t => rfl

theorem slotTexts_head (ev : XmlEvent) (rest : List XmlEvent) :
    (slotTextsOfEvents (ev :: rest)).length =
      (if maskableEv ev = true then 1 else 0) + (slotTextsOfEvents rest).length := by
  cases ev with
  | text t => simp [slotTextsOfEvents, maskableEv]; omega
  | cdata t => simp [slotTextsOfEvents, maskableEv]; omega
  | start name attrs =>
    by_cases hn : name = "w:lvlText".data
    · cases hfa : findAttr attrs "w:val".data <;>
        simp [slotTextsOfEvents, maskableEv, hn, hfa] <;> (try omega)
    · simp [slotTextsOfEvents, maskableEv, hn]
  | empty name attrs =>
    by_cases hn : name = "w:lvlText".data
    · cases hfa : findAttr attrs "w:val".data <;>
        simp [slotTextsOfEvents, maskableEv, hn, hfa] <;> (try omega)
    · simp [slotTextsOfEvents, maskableEv, hn]
  | decl v e st => simp [slotTextsOfEvents, maskableEv]
  | endE n => simp [slotTextsOfEvents, maskableEv]
  | comment t => simp [slotTextsOfEvents, maskableEv]
  | pi c => simp [slotTextsOfEvents, maskableEv]
  | doctype t => simp [slotTextsOfEvents, maskableEv]

theorem maskEvents_spec (pfx pn : Str) :
    ∀ (evs : List XmlEvent) (idx nextId : Nat),
      (maskEvents pfx pn idx nextId evs).2.2 =
          nextId + (maskEvents pfx pn idx nextId evs).2.1.length ∧
      (maskEvents pfx pn idx nextId evs).2.1.map TextSlot.id =
          List.range' nextId (maskEvents pfx pn idx nextId evs).2.1.length ∧
      (∀ i ev, (maskEvents pfx pn idx nextId evs).1.get? i = some ev →
        maskableEv ev = true →
        ∃ s ∈ (maskEvents pfx pn idx nextId evs).2.1,
          s.partName = pn ∧ s.eventIndex = idx + i ∧ slotEvOk pfx s ev = true) ∧
      (∀ s ∈ (maskEvents pfx pn idx nextId evs).2.1,
        s.partName = pn ∧ idx ≤ s.eventIndex ∧
        ∃ ev, (maskEvents pfx pn idx nextId evs).1.get? (s.eventIndex - idx) = some ev ∧
          slotEvOk pfx s ev = true) ∧
      (slotTextsOfEvents evs).length = (maskEvents pfx pn idx nextId evs).2.1.length := by
  intro evs
  induction evs with
  | nil => intro idx nextId; simp [maskEvents, slotTextsOfEvents]
  | cons ev rest ih =>
    intro idx nextId
    by_cases hm : maskableEv ev = true
    · obtain ⟨ev2, kind, attr, hstep, hok, hm2⟩ := maskStep_maskable pfx pn idx nextId ev hm
      unfold maskEvents
      simp only [hstep]
      obtain ⟨iha, ihb, ihc, ihd, ihe⟩ := ih (idx + 1) (nextId + 1)
      refine ⟨?_, ?_, ?_, ?_, ?_⟩
      · simp only [List.singleton_append, List.length_cons]
        omega
      · simp only [List.singleton_append, List.map_cons, List.length_cons, ihb]
        rfl
      · intro i evx hget hmx
        cases i with
        | zero =>
          simp only [List.get?] at hget
          obtain rfl : ev2 = evx := Option.some.inj hget
          exact ⟨_, by simp, rfl, by simp, hok⟩
        | succ j =>
          simp only [List.get?] at hget
          obtain ⟨s, hs, hspn, hsei, hsok⟩ := ihc j evx hget hmx
          exact ⟨s, by simp [hs], hspn, by omega, hsok⟩
      · intro s hs
        simp only [List.singleton_append, List.mem_cons] at hs
        rcases hs with rfl | hs
        · exact ⟨rfl, le_refl _, ev2, by simp, hok⟩
        · obtain ⟨hspn, hle, evx, hget, hsok⟩ := ihd s hs
          refine ⟨hspn, by omega, evx, ?_, hsok⟩
          have hrw : s.eventIndex - idx = (s.eventIndex - (idx + 1)) + 1 := by omega
          rw [hrw]
          simpa using hget
      · rw [slotTexts_head, if_pos hm]
        simp only [List.singleton_append, List.length_cons]
        omega
    · have hstep := maskStep_not pfx pn idx nextId ev (by
        cases hmm : maskableEv ev
        · rfl
        · exact absurd hmm hm)
      unfold maskEvents
      simp only [hstep]
      obtain ⟨iha, ihb, ihc, ihd, ihe⟩ := ih (idx + 1) nextId
      refine ⟨?_, ?_, ?_, ?_, ?_⟩
      · simpa using iha
      · simpa using ihb
      · intro i evx hget hmx
        cases i with
        | zero =>
          simp only [List.get?] at hget
          obtain rfl : ev = evx := Option.some.inj hget
          exact absurd hmx hm
        | succ j =>
          simp only [List.get?] at hget
          obtain ⟨s, hs, hspn, hsei, hsok⟩ := ihc j evx hget hmx
          exact ⟨s, by simp [hs], hspn, by omega, hsok⟩
      · intro s hs
        simp only [List.nil_append] at hs
        obtain ⟨hspn, hle, evx, hget, hsok⟩ := ihd s hs
        refine ⟨hspn, by omega, evx, ?_, hsok⟩
        have hrw : s.eventIndex - idx = (s.eventIndex - (idx + 1)) + 1 := by omega
        rw [hrw]
        simpa using hget
      · rw [slotTexts_head, if_neg hm]
        simpa using ihe

theorem extractPartsGo_spec (pfx : Str) :
    ∀ (entries : List Entry) (nextId : Nat) (parts : List (Str × List XmlEvent))
      (slots : List TextSlot),
      extractPartsGo pfx nextId entries = .ok (parts, slots) →
      slots.map TextSlot.id = List.range' nextId slots.length ∧
      (∀ pr ∈ parts, ∀ i ev, pr.2.get? i = some ev → maskableEv ev = true →
        ∃ s ∈ slots, s.partName = pr.1 ∧ s.eventIndex = i ∧ slotEvOk pfx s ev = true) ∧
      (∀ s ∈ slots, ∃ evs, (s.partName, evs) ∈ parts ∧
        ∃ ev, evs.get? s.eventIndex = some ev ∧ slotEvOk pfx s ev = true) ∧
      (∀ texts, extractSlotTexts entries = .ok texts → texts.length = slots.length) := by
  intro entries
  induction entries with
  | nil =>
    intro nextId parts slots h
    simp only [extractPartsGo] at h
    obtain ⟨rfl, rfl⟩ : parts = [] ∧ slots = [] := by
      have := Except.ok.inj h
      exact ⟨congrArg Prod.fst this.symm, congrArg Prod.snd this.symm⟩
    refine ⟨rfl, by simp, by simp, ?_⟩
    intro texts ht
    simp only [extractSlotTexts] at ht
    have := Except.ok.inj ht
    simp [← this]
  | cons ent rest ih =>
    intro nextId parts slots h
    unfold extractPartsGo at h
    by_cases hdir : isDirEntry ent = true
    · rw [if_pos hdir] at h
      obtain ⟨ha, hb, hc, hd⟩ := ih nextId parts slots h
      refine ⟨ha, hb, hc, ?_⟩
      intro texts ht
      unfold extractSlotTexts at ht
      rw [if_pos (by simp [hdir])] at ht
      exact hd texts ht
    · rw [if_neg hdir] at h
      by_cases hproc : isXmlName ent.name ∧ !ent.data.isEmpty
      · rw [if_pos hproc] at h
        cases hp : parseXmlPart ent.data with
        | error e => simp only [hp] at h; exact absurd h (by simp)
        | ok evs =>
          simp only [hp] at h
          cases hv : verifyPartMaskPure ent.name pfx (maskEvents pfx ent.name 0 nextId evs).1 with
          | error e => simp only [hv] at h; exact absurd h (by simp)
          | ok u =>
            cases u
            simp only [hv] at h
            cases hrec : extractPartsGo pfx (maskEvents pfx ent.name 0 nextId evs).2.2 rest with
            | error e => simp only [hrec] at h; exact absurd h (by simp)
            | ok out2 =>
              obtain ⟨parts2, slots2⟩ := out2
              simp only [hrec] at h
              obtain ⟨rfl, rfl⟩ : parts = (ent.name, (maskEvents pfx ent.name 0 nextId evs).1) :: parts2 ∧
                  slots = (maskEvents pfx ent.name 0 nextId evs).2.1 ++ slots2 := by
                have := Except.ok.inj h
                exact ⟨congrArg Prod.fst this.symm, congrArg Prod.snd this.symm⟩
              obtain ⟨msa, msb, msc, msd, mse⟩ := maskEvents_spec pfx ent.name evs 0 nextId
              obtain ⟨iha, ihb, ihc, ihd⟩ := ih _ parts2 slots2 hrec
              refine ⟨?_, ?_, ?_, ?_⟩
              · rw [List.map_append, msb, iha, msa, List.length_append,
                  List.range'_append_1,
                  Nat.add_comm slots2.length (maskEvents pfx ent.name 0 nextId evs).2.1.length]
              · intro pr hpr i ev hget hmx
                rcases List.mem_cons.mp hpr with rfl | hpr
                · obtain ⟨s, hsmem, hspn, hsei, hsok⟩ := msc i ev hget hmx
                  exact ⟨s, List.mem_append_left _ hsmem, hspn, by omega, hsok⟩
                · obtain ⟨s, hsmem, hspn, hsei, hsok⟩ := ihb pr hpr i ev hget hmx
                  exact ⟨s, List.mem_append_right _ hsmem, hspn, hsei, hsok⟩
              · intro s hs
                rcases List.mem_append.mp hs with hs | hs
                · obtain ⟨hspn, _, ev, hget, hsok⟩ := msd s hs
                  refine ⟨(maskEvents pfx ent.name 0 nextId evs).1, ?_, ev, ?_, hsok⟩
                  · rw [hspn]; exact List.mem_cons_self _ _
                  · simpa using hget
                · obtain ⟨evs2, hmem, ev, hget, hsok⟩ := ihc s hs
                  exact ⟨evs2, List.mem_cons_of_mem _ hmem, ev, hget, hsok⟩
              · intro texts ht
                unfold extractSlotTexts at ht
                have hskip : (isDirEntry ent || ent.data.isEmpty || !isXmlName ent.name) = false := by
                  have h1 : isDirEntry ent = false := by
                    cases hx : isDirEntry ent
                    · rfl
                    · exact absurd hx hdir
                  have h2 : ent.data.isEmpty = false := by
                    have := hproc.2
                    cases hx : ent.data.isEmpty
                    · rfl
                    · rw [hx] at this; exact absurd this (by simp)
                  simp [h1, h2, hproc.1]
                rw [hskip] at ht
                simp only [if_false, Bool.false_eq_true] at ht
                rw [hp] at ht
                cases hrest : extractSlotTexts rest with
                | error e => simp only [hrest] at ht; exact absurd ht (by simp)
                | ok out3 =>
                  simp only [hrest] at ht
                  have := Except.ok.inj ht
                  subst this
                  rw [List.length_append, List.length_append, mse, ihd out3 hrest]
      · rw [if_neg hproc] at h
        obtain ⟨ha, hb, hc, hd⟩ := ih nextId parts slots h
        refine ⟨ha, hb, hc, ?_⟩
        intro texts ht
        unfold extractSlotTexts at ht
        have hskip : (isDirEntry ent || ent.data.isEmpty || !isXmlName ent.name) = true := by
          by_cases hx : isXmlName ent.name = true
          · by_cases he : ent.data.isEmpty = true
            · simp [he]
            · refine absurd ⟨hx, ?_⟩ hproc
              cases hb2 : ent.data.isEmpty
              · simp
              · exact absurd hb2 he
          · have : isXmlName ent.name = false := by
              cases hb2 : isXmlName ent.name
              · rfl
              · exact absurd hb2 hx
            simp [this]
        rw [hskip] at ht
        simp only [if_true] at ht
        exact hd texts ht

/-- **C4**: when extraction succeeds, the offsets carry the given prefix,
the recorded slot ids are exactly `1, 2, ..., len(slots)`, every maskable
position (text node, CDATA node, `w:lvlText` `w:val` attribute) of every
masked part holds exactly the placeholder literal of a slot recorded at
that (part, event index) position, every recorded slot's event holds
exactly its placeholder, and the extracted slot_texts list has exactly one
entry per slot. -/
theorem extractCore_spec (pfx : Str) (entries : List Entry)
    (parts : List (Str × List XmlEvent)) (offsets : OffsetsIn)
    (h : extractCore pfx entries = .ok (parts, offsets)) :
    offsets.phPfx = pfx ∧
    offsets.slots.map TextSlot.id = List.range' 1 offsets.slots.length ∧
    (∀ pr ∈ parts, ∀ i ev, pr.2.get? i = some ev → maskableEv ev = true →
      ∃ s ∈ offsets.slots, s.partName = pr.1 ∧ s.eventIndex = i ∧
        slotEvOk pfx s ev = true) ∧
    (∀ s ∈ offsets.slots, ∃ evs, (s.partName, evs) ∈ parts ∧
      ∃ ev, evs.get? s.eventIndex = some ev ∧ slotEvOk pfx s ev = true) ∧
    (∀ texts, extractSlotTexts entries = .ok texts →
      texts.length = offsets.slots.length) := by
  unfold extractCore at h
  cases hg : extractPartsGo pfx 1 entries with
  | error e => rw [hg] at h; exact absurd h (by simp [Except.map])
  | ok out =>
    rw [hg] at h
    simp only [Except.map] at h
    obtain ⟨rfl, rfl⟩ : parts = out.1 ∧ offsets = ⟨pfx, out.2⟩ := by
      have := Except.ok.inj h
      exact ⟨congrArg Prod.fst this.symm, congrArg Prod.snd this.symm⟩
    obtain ⟨ha, hb, hc, hd⟩ := extractPartsGo_spec pfx entries 1 out.1 out.2 hg
    exact ⟨rfl, ha, hb, hc, hd⟩

/-- C4 witness: extraction of one part holding one text node yields slot id
1 at event index 1, the recorded placeholder at that position, and one
slot text. -/
theorem extractCore_spec_witness :
    ("p".data : Str) = "p".data ∧
    ([TextSlot.mk 1 "word/document.xml".data SlotKind.text 1 none].map TextSlot.id =
      List.range' 1 [TextSlot.mk 1 "word/document.xml".data SlotKind.text 1 none].length) ∧
    (∀ pr ∈ [("word/document.xml".data,
        [XmlEvent.start "w:t".data [], XmlEvent.text (placeholder "p".data 1),
         XmlEvent.endE "w:t".data])],
      ∀ i ev, pr.2.get? i = some ev → maskableEv ev = true →
      ∃ s ∈ [TextSlot.mk 1 "word/document.xml".data SlotKind.text 1 none],
        s.partName = pr.1 ∧ s.eventIndex = i ∧ slotEvOk "p".data s ev = true) ∧
    (∀ s ∈ [TextSlot.mk 1 "word/document.xml".data SlotKind.text 1 none],
      ∃ evs, (s.partName, evs) ∈ [("word/document.xml".data,
        [XmlEvent.start "w:t".data [], XmlEvent.text (placeholder "p".data 1),
         XmlEvent.endE "w:t".data])] ∧
      ∃ ev, evs.get? s.eventIndex = some ev ∧ slotEvOk "p".data s ev = true) ∧
    (∀ texts, extractSlotTexts [Entry.mk "word/document.xml".data false "<w:t>Hello</w:t>".data]
        = .ok texts →
      texts.length = [TextSlot.mk 1 "word/document.xml".data SlotKind.text 1 none].length) :=
  extractCore_spec "p".data
    [Entry.mk "word/document.xml".data false "<w:t>Hello</w:t>".data]
    [("word/document.xml".data,
      [XmlEvent.start "w:t".data [], XmlEvent.text (placeholder "p".data 1),
       XmlEvent.endE "w:t".data])]
    (OffsetsIn.mk "p".data [TextSlot.mk 1 "word/document.xml".data SlotKind.text 1 none])
    rfl


/-! ### C7: translator fallback guarantee -/

theorem except_isOk_unit (e : Except String Unit) (h : e.isOk = true) : e = .ok () := by
  cases e with
  | error x => simp [Except.isOk, Except.toBool] at h
  | ok u => cases u; rfl

theorem validateTranslation_congr (tu tu2 : Tu) (t : Str)
    (hfs : tu.frozenSurface = tu2.frozenSurface) (hnt : tu.ntMap = tu2.ntMap) :
    validateTranslation tu t = validateTranslation tu2 t := by
  unfold validateTranslation
  rw [hfs, hnt]

theorem setTranslationSlot_fields (tu : Tu) (slot : TrSlot) (text model : Str) :
    (setTranslationSlot tu slot text model).tuId = tu.tuId ∧
    (setTranslationSlot tu slot text model).frozenSurface = tu.frozenSurface ∧
    (setTranslationSlot tu slot text model).ntMap = tu.ntMap := by
  cases slot <;> exact ⟨rfl, rfl, rfl⟩

theorem tus_set_preserves (l : List Tu) (idx : Nat) (tu2 : Tu)
    (hid : tu2.tuId = (l.getD idx dummyTu).tuId)
    (hfs : tu2.frozenSurface = (l.getD idx dummyTu).frozenSurface)
    (hnt : tu2.ntMap = (l.getD idx dummyTu).ntMap) :
    ∀ j, ((l.set idx tu2).getD j dummyTu).tuId = (l.getD j dummyTu).tuId ∧
      ((l.set idx tu2).getD j dummyTu).frozenSurface = (l.getD j dummyTu).frozenSurface ∧
      ((l.set idx tu2).getD j dummyTu).ntMap = (l.getD j dummyTu).ntMap := by
  intro j
  by_cases hlt : idx < l.length
  · by_cases hj : j = idx
    · subst hj
      have : (l.set j tu2).getD j dummyTu = tu2 := by
        simp [List.getD, List.getElem?_set_self hlt]
      rw [this]
      exact ⟨hid, hfs, hnt⟩
    · have : (l.set idx tu2).getD j dummyTu = l.getD j dummyTu := by
        unfold List.getD
        rw [List.get?_set_ne _ _ (fun hx => hj hx.symm)]
      rw [this]
      exact ⟨rfl, rfl, rfl⟩
  · have : l.set idx tu2 = l := List.set_eq_of_length_le (by omega)
    rw [this]
    exact ⟨rfl, rfl, rfl⟩

theorem applyTranslatedTu_spec {σ : Type} (cfg : SegCfg σ) (slot : TrSlot)
    (st : SegState σ) (idx : Nat) (out0 : Str) (st2 : SegState σ)
    (h : applyTranslatedTu cfg slot st idx out0 = .ok st2) :
    ∃ out3,
      st2.log = st.log ++ [(idx, out3)] ∧
      (validateTranslation (st.tus.getD idx dummyTu) out3 = .ok () ∨
        out3 = (st.tus.getD idx dummyTu).frozenSurface) ∧
      st2.tus = st.tus.set idx
        (setTranslationSlot (st.tus.getD idx dummyTu) slot out3 cfg.backendName) := by
  unfold applyTranslatedTu at h
  cases h1 : stage1 cfg st.model (st.tus.getD idx dummyTu) out0 with
  | error e => simp only [h1] at h; exact absurd h (by simp)
  | ok pr1 =>
    obtain ⟨out1, model1⟩ := pr1
    simp only [h1] at h
    cases h3 : stage3 cfg st.tv model1 (st.tus.getD idx dummyTu)
        (if (validateTranslation (st.tus.getD idx dummyTu) out1).isOk then out1
         else (st.tus.getD idx dummyTu).frozenSurface) with
    | error e => simp only [h3] at h; exact absurd h (by simp)
    | ok pr3 =>
      obtain ⟨out3, tv1, model2⟩ := pr3
      simp only [h3] at h
      have hst2 := (Except.ok.inj h).symm
      subst hst2
      refine ⟨out3, rfl, ?_, rfl⟩
      -- the stage-3 input validates or is the source
      have harg : validateTranslation (st.tus.getD idx dummyTu)
            (if (validateTranslation (st.tus.getD idx dummyTu) out1).isOk then out1
             else (st.tus.getD idx dummyTu).frozenSurface) = .ok () ∨
          (if (validateTranslation (st.tus.getD idx dummyTu) out1).isOk then out1
           else (st.tus.getD idx dummyTu).frozenSurface) =
            (st.tus.getD idx dummyTu).frozenSurface := by
        by_cases hv : (validateTranslation (st.tus.getD idx dummyTu) out1).isOk = true
        · rw [if_pos hv]
          exact Or.inl (except_isOk_unit _ hv)
        · rw [if_neg hv]
          exact Or.inr rfl
      -- stage-3 either keeps its input, or returns a freshly validated repair,
      -- or the source
      revert h3
      generalize harg2 : (if (validateTranslation (st.tus.getD idx dummyTu) out1).isOk then out1
        else (st.tus.getD idx dummyTu).frozenSurface) = out2 at harg
      intro h3
      unfold stage3 at h3
      by_cases hse : (cfg.slotsByTu (st.tus.getD idx dummyTu).tuId).isEmpty = true
      · rw [if_pos hse] at h3
        obtain ⟨rfl, -, -⟩ : out2 = out3 ∧ st.tv = tv1 ∧ model1 = model2 := by
          have := Except.ok.inj h3
          exact ⟨congrArg Prod.fst this, congrArg (fun x => x.2.1) this,
            congrArg (fun x => x.2.2) this⟩
        exact harg
      · rw [if_neg hse] at h3
        cases ha : cfg.applySlot st.tv (cfg.slotsByTu (st.tus.getD idx dummyTu).tuId)
            (st.tus.getD idx dummyTu) out2 with
        | some tvA =>
          simp only [ha] at h3
          obtain ⟨rfl, -, -⟩ : out2 = out3 ∧ tvA = tv1 ∧ model1 = model2 := by
            have := Except.ok.inj h3
            exact ⟨congrArg Prod.fst this, congrArg (fun x => x.2.1) this,
              congrArg (fun x => x.2.2) this⟩
          exact harg
        | none =>
          simp only [ha] at h3
          cases hr : repairTranslation cfg model1 (st.tus.getD idx dummyTu).frozenSurface out2
              "slot_projection_failed".data
              (renderNtMapForPrompt (st.tus.getD idx dummyTu).ntMap) with
          | error e => simp only [hr] at h3; exact absurd h3 (by simp)
          | ok pr =>
            obtain ⟨rep, m2⟩ := pr
            simp only [hr] at h3
            by_cases hvr : (validateTranslation (st.tus.getD idx dummyTu) rep).isOk = true
            · rw [if_pos hvr] at h3
              cases ha2 : cfg.applySlot st.tv (cfg.slotsByTu (st.tus.getD idx dummyTu).tuId)
                  (st.tus.getD idx dummyTu) rep with
              | some tvA =>
                simp only [ha2] at h3
                obtain ⟨rfl, -, -⟩ : rep = out3 ∧ tvA = tv1 ∧ m2 = model2 := by
                  have := Except.ok.inj h3
                  exact ⟨congrArg Prod.fst this, congrArg (fun x => x.2.1) this,
                    congrArg (fun x => x.2.2) this⟩
                exact Or.inl (except_isOk_unit _ hvr)
              | none =>
                simp only [ha2] at h3
                have : (st.tus.getD idx dummyTu).frozenSurface = out3 :=
                  congrArg Prod.fst (Except.ok.inj h3)
                exact Or.inr this.symm
            · rw [if_neg hvr] at h3
              have : (st.tus.getD idx dummyTu).frozenSurface = out3 :=
                congrArg Prod.fst (Except.ok.inj h3)
              exact Or.inr this.symm

theorem applySegsLoop_spec {σ : Type} (cfg : SegCfg σ) (slot : TrSlot)
    (segs : List (Nat × Str)) :
    ∀ (indices : List Nat) (st st2 : SegState σ),
      applySegsLoop cfg slot segs st indices = .ok st2 →
      (∀ j, (st2.tus.getD j dummyTu).tuId = (st.tus.getD j dummyTu).tuId ∧
        (st2.tus.getD j dummyTu).frozenSurface = (st.tus.getD j dummyTu).frozenSurface ∧
        (st2.tus.getD j dummyTu).ntMap = (st.tus.getD j dummyTu).ntMap) ∧
      ∃ newLog, st2.log = st.log ++ newLog ∧ newLog.map Prod.fst = indices ∧
        ∀ p ∈ newLog,
          validateTranslation (st.tus.getD p.1 dummyTu) p.2 = .ok () ∨
          p.2 = (st.tus.getD p.1 dummyTu).frozenSurface := by
  intro indices
  induction indices with
  | nil =>
    intro st st2 h
    simp only [applySegsLoop] at h
    obtain rfl : st = st2 := Except.ok.inj h
    exact ⟨fun j => ⟨rfl, rfl, rfl⟩, [], by simp, rfl, by simp⟩
  | cons idx rest ih =>
    intro st st2 h
    simp only [applySegsLoop] at h
    cases h1 : applyTranslatedTu cfg slot st idx
        (cleanupModelText ((segs.lookup (st.tus.getD idx dummyTu).tuId).getD [])) with
    | error e => simp only [h1] at h; exact absurd h (by simp)
    | ok st1 =>
      simp only [h1] at h
      obtain ⟨out3, hlog1, hval1, htus1⟩ := applyTranslatedTu_spec _ _ _ _ _ _ h1
      have hpres1 : ∀ j, (st1.tus.getD j dummyTu).tuId = (st.tus.getD j dummyTu).tuId ∧
          (st1.tus.getD j dummyTu).frozenSurface = (st.tus.getD j dummyTu).frozenSurface ∧
          (st1.tus.getD j dummyTu).ntMap = (st.tus.getD j dummyTu).ntMap := by
        intro j
        rw [htus1]
        exact tus_set_preserves _ _ _
          (setTranslationSlot_fields _ _ _ _).1
          (setTranslationSlot_fields _ _ _ _).2.1
          (setTranslationSlot_fields _ _ _ _).2.2 j
      obtain ⟨hpres2, newLog2, hlog2, hmap2, hval2⟩ := ih st1 st2 h
      refine ⟨?_, (idx, out3) :: newLog2, ?_, ?_, ?_⟩
      · intro j
        exact ⟨((hpres2 j).1).trans (hpres1 j).1,
          ((hpres2 j).2.1).trans (hpres1 j).2.1,
          ((hpres2 j).2.2).trans (hpres1 j).2.2⟩
      · rw [hlog2, hlog1, List.append_assoc]
        rfl
      · simp [hmap2]
      · intro p hp
        rcases List.mem_cons.mp hp with rfl | hp
        · exact hval1
        · rcases hval2 p hp with hv | hv
          · left
            rw [← hv]
            exact (validateTranslation_congr _ _ _ (hpres1 p.1).2.1 (hpres1 p.1).2.2).symm
          · right
            rw [hv]
            exact (hpres1 p.1).2.1

/-- Claim C7: whatever strings the scripted backend returns, when
`translate_chunk_recursive` returns Ok, each index of the chunk receives
exactly one `set_translation_slot` assignment (the instrumentation log, in
chunk order), every assigned text either passes `validate_translation`
against its unit or equals the unit's frozen source (identity fallback),
and the units' identifying fields (id, frozen surface, NT map) are
untouched — so no unit is left without an output and no validator failure
escapes as an error. -/
theorem translateChunkRec_spec {σ : Type} (cfg : SegCfg σ) (slot : TrSlot) :
    ∀ (fuel : Nat) (indices : List Nat) (st st2 : SegState σ),
      translateChunkRec cfg slot fuel st indices = .ok st2 →
      (∀ j, (st2.tus.getD j dummyTu).tuId = (st.tus.getD j dummyTu).tuId ∧
        (st2.tus.getD j dummyTu).frozenSurface = (st.tus.getD j dummyTu).frozenSurface ∧
        (st2.tus.getD j dummyTu).ntMap = (st.tus.getD j dummyTu).ntMap) ∧
      ∃ newLog, st2.log = st.log ++ newLog ∧ newLog.map Prod.fst = indices ∧
        ∀ p ∈ newLog,
          validateTranslation (st.tus.getD p.1 dummyTu) p.2 = .ok () ∨
          p.2 = (st.tus.getD p.1 dummyTu).frozenSurface := by
  intro fuel
  induction fuel with
  | zero =>
    intro indices st st2 h
    cases indices with
    | nil =>
      simp only [translateChunkRec] at h
      obtain rfl : st = st2 := Except.ok.inj h
      exact ⟨fun j => ⟨rfl, rfl, rfl⟩, [], by simp, rfl, by simp⟩
    | cons idx0 restIdx =>
      unfold translateChunkRec at h
      cases hc : chat st.model (renderTemplate cfg.promptTmpl
          [("source_lang".data, langLabel cfg.sourceLang),
            ("target_lang".data, langLabel cfg.targetLang),
            ("tu_block".data, tuBlockOf st.tus (idx0 :: restIdx))]) with
      | error e => simp only [hc] at h; exact absurd h (by simp)
      | ok pr =>
        obtain ⟨raw, model1⟩ := pr
        simp only [hc] at h
        cases hp : parseSegmentedOutput (cleanupModelText raw)
            ((idx0 :: restIdx).map (fun i => (st.tus.getD i dummyTu).tuId)) with
        | ok segs =>
          simp only [hp] at h
          exact applySegsLoop_spec cfg slot segs (idx0 :: restIdx)
            { st with model := model1 } st2 h
        | error e =>
          simp only [hp] at h
          by_cases hre : restIdx.isEmpty = true
          · rw [if_pos hre] at h
            obtain rfl : restIdx = [] := by
              cases restIdx
              · rfl
              · simp at hre
            cases h2 : applyTranslatedTu cfg slot { st with model := model1 } idx0
                (cleanupModelText
                  (bestEffortBody (st.tus.getD idx0 dummyTu).tuId (cleanupModelText raw))) with
            | error e2 => simp only [h2] at h; exact absurd h (by simp)
            | ok st3 =>
              simp only [h2] at h
              obtain rfl : st3 = st2 := Except.ok.inj h
              obtain ⟨out3, hlog1, hval1, htus1⟩ := applyTranslatedTu_spec _ _ _ _ _ _ h2
              refine ⟨?_, [(idx0, out3)], hlog1, rfl, ?_⟩
              · intro j
                rw [htus1]
                exact tus_set_preserves _ _ _
                  (setTranslationSlot_fields _ _ _ _).1
                  (setTranslationSlot_fields _ _ _ _).2.1
                  (setTranslationSlot_fields _ _ _ _).2.2 j
              · intro p hp2
                rcases List.mem_cons.mp hp2 with rfl | hp2
                · exact hval1
                · simp at hp2
          · rw [if_neg hre] at h
            simp at h
  | succ fuel ih =>
    intro indices st st2 h
    cases indices with
    | nil =>
      simp only [translateChunkRec] at h
      obtain rfl : st = st2 := Except.ok.inj h
      exact ⟨fun j => ⟨rfl, rfl, rfl⟩, [], by simp, rfl, by simp⟩
    | cons idx0 restIdx =>
      unfold translateChunkRec at h
      cases hc : chat st.model (renderTemplate cfg.promptTmpl
          [("source_lang".data, langLabel cfg.sourceLang),
            ("target_lang".data, langLabel cfg.targetLang),
            ("tu_block".data, tuBlockOf st.tus (idx0 :: restIdx))]) with
      | error e => simp only [hc] at h; exact absurd h (by simp)
      | ok pr =>
        obtain ⟨raw, model1⟩ := pr
        simp only [hc] at h
        cases hp : parseSegmentedOutput (cleanupModelText raw)
            ((idx0 :: restIdx).map (fun i => (st.tus.getD i dummyTu).tuId)) with
        | ok segs =>
          simp only [hp] at h
          exact applySegsLoop_spec cfg slot segs (idx0 :: restIdx)
            { st with model := model1 } st2 h
        | error e =>
          simp only [hp] at h
          by_cases hre : restIdx.isEmpty = true
          · rw [if_pos hre] at h
            obtain rfl : restIdx = [] := by
              cases restIdx
              · rfl
              · simp at hre
            cases h2 : applyTranslatedTu cfg slot { st with model := model1 } idx0
                (cleanupModelText
                  (bestEffortBody (st.tus.getD idx0 dummyTu).tuId (cleanupModelText raw))) with
            | error e2 => simp only [h2] at h; exact absurd h (by simp)
            | ok st3 =>
              simp only [h2] at h
              obtain rfl : st3 = st2 := Except.ok.inj h
              obtain ⟨out3, hlog1, hval1, htus1⟩ := applyTranslatedTu_spec _ _ _ _ _ _ h2
              refine ⟨?_, [(idx0, out3)], hlog1, rfl, ?_⟩
              · intro j
                rw [htus1]
                exact tus_set_preserves _ _ _
                  (setTranslationSlot_fields _ _ _ _).1
                  (setTranslationSlot_fields _ _ _ _).2.1
                  (setTranslationSlot_fields _ _ _ _).2.2 j
              · intro p hp2
                rcases List.mem_cons.mp hp2 with rfl | hp2
                · exact hval1
                · simp at hp2
          · rw [if_neg hre] at h
            cases hL : translateChunkRec cfg slot fuel { st with model := model1 }
                ((idx0 :: restIdx).take ((idx0 :: restIdx).length / 2)) with
            | error e2 => simp only [hL] at h; exact absurd h (by simp)
            | ok stL =>
              simp only [hL] at h
              obtain ⟨hpresL, newLogL, hlogL, hmapL, hvalL⟩ := ih _ _ _ hL
              obtain ⟨hpresR, newLogR, hlogR, hmapR, hvalR⟩ := ih _ _ _ h
              refine ⟨?_, newLogL ++ newLogR, ?_, ?_, ?_⟩
              · intro j
                exact ⟨((hpresR j).1).trans (hpresL j).1,
                  ((hpresR j).2.1).trans (hpresL j).2.1,
                  ((hpresR j).2.2).trans (hpresL j).2.2⟩
              · rw [hlogR, hlogL, List.append_assoc]
              · rw [List.map_append, hmapL, hmapR]
                exact List.take_append_drop _ _
              · intro p hp2
                rcases List.mem_append.mp hp2 with hp2 | hp2
                · exact hvalL p hp2
                · rcases hvalR p hp2 with hv | hv
                  · left
                    rw [← hv]
                    exact (validateTranslation_congr _ _ _
                      (hpresL p.1).2.1 (hpresL p.1).2.2).symm
                  · right
                    rw [hv]
                    exact (hpresL p.1).2.1

set_option maxHeartbeats 2000000 in
/-- C7 witness: a one-unit chunk with a well-formed scripted response
assigns index 0 exactly once, with a text the validator accepts. -/
theorem translateChunkRec_spec_witness :
    (∀ j, (([Tu.mk 1 "Hi".data [] (some "Yo".data) none (some "m".data) none].getD j
          dummyTu).tuId =
        ([Tu.mk 1 "Hi".data [] none none none none].getD j dummyTu).tuId ∧
      ([Tu.mk 1 "Hi".data [] (some "Yo".data) none (some "m".data) none].getD j
          dummyTu).frozenSurface =
        ([Tu.mk 1 "Hi".data [] none none none none].getD j dummyTu).frozenSurface ∧
      ([Tu.mk 1 "Hi".data [] (some "Yo".data) none (some "m".data) none].getD j
          dummyTu).ntMap =
        ([Tu.mk 1 "Hi".data [] none none none none].getD j dummyTu).ntMap)) ∧
    ∃ newLog, ([(0, "Yo".data)] : List (Nat × Str)) = [] ++ newLog ∧
      newLog.map Prod.fst = [0] ∧
      ∀ p ∈ newLog,
        validateTranslation ([Tu.mk 1 "Hi".data [] none none none none].getD p.1 dummyTu)
            p.2 = .ok () ∨
        p.2 = ([Tu.mk 1 "Hi".data [] none none none none].getD p.1 dummyTu).frozenSurface :=
  translateChunkRec_spec
    (SegCfg.mk "m".data "en".data "fr".data [] [] 0 (fun _ => []) (fun _ _ => false)
      (fun tv _ _ _ => some tv))
    TrSlot.A 1 [0]
    (SegState.mk ["<<MT_SEG:000001>>Yo<<MT_END:000001>>".data]
      [Tu.mk 1 "Hi".data [] none none none none] () 0 [])
    (SegState.mk [] [Tu.mk 1 "Hi".data [] (some "Yo".data) none (some "m".data) none] () 1
      [(0, "Yo".data)])
    rfl


/-! ## C2: XML event-stream round-trip (docx/xml.rs parse_xml_part / write_xml_part) -/

/-! ### substring infrastructure -/

theorem splitOnce_cons_eq2 (pat : Str) (c : Char) (rest : Str) :
    splitOnce pat (c :: rest) =
      if pat.isPrefixOf (c :: rest) then some ([], (c :: rest).drop pat.length)
      else (splitOnce pat rest).map (fun pr => (c :: pr.1, pr.2)) := rfl

theorem splitOnce_self2 (pat r : Str) (h : pat ≠ []) :
    splitOnce pat (pat ++ r) = some ([], r) := by
  match pat, h with
  | p :: pr, _ =>
    show splitOnce (p :: pr) (p :: (pr ++ r)) = some ([], r)
    rw [splitOnce_cons_eq2]
    have hpref : (p :: pr).isPrefixOf (p :: (pr ++ r)) = true := by
      rw [List.isPrefixOf_iff_prefix]
      exact ⟨r, by simp⟩
    rw [if_pos hpref]
    have : List.drop (p :: pr).length (p :: (pr ++ r)) = r := by
      simpa using List.drop_left (p :: pr) r
    rw [this]

theorem isPrefixOf_append_long (p a b : Str) (h : p.length ≤ a.length) :
    p.isPrefixOf (a ++ b) = p.isPrefixOf a := by
  by_cases hp : p.isPrefixOf a = true
  · rw [hp]
    rw [List.isPrefixOf_iff_prefix] at hp ⊢
    exact hp.trans (List.prefix_append a b)
  · have hp2 : p.isPrefixOf a = false := by
      cases hx : p.isPrefixOf a
      · rfl
      · exact absurd hx hp
    rw [hp2]
    cases hx : p.isPrefixOf (a ++ b)
    · rfl
    · exfalso
      rw [List.isPrefixOf_iff_prefix] at hx
      have heq := List.prefix_iff_eq_take.mp hx
      rw [List.take_append_of_le_length h] at heq
      have hpre : p <+: a := heq ▸ List.take_prefix _ _
      rw [← List.isPrefixOf_iff_prefix] at hpre
      rw [hpre] at hp2
      exact absurd hp2 (by simp)
  
theorem splitOnce_noHit (pat : Str) (hpat : pat ≠ []) :
    ∀ (t r : Str), noHit pat t = true → splitOnce pat (t ++ pat ++ r) = some (t, r) := by
  intro t
  induction t with
  | nil =>
    intro r _
    simp only [List.nil_append]
    exact splitOnce_self2 pat r hpat
  | cons c t2 ih =>
    intro r hnh
    simp only [noHit, Bool.and_eq_true, Bool.not_eq_true'] at hnh
    have hlong : pat.isPrefixOf ((c :: t2) ++ pat ++ r) = pat.isPrefixOf ((c :: t2) ++ pat) := by
      rw [List.append_assoc]
      rw [show (c :: t2) ++ (pat ++ r) = ((c :: t2) ++ pat) ++ r by simp]
      exact isPrefixOf_append_long _ _ _ (by simp only [List.length_append, List.length_cons]; omega)
    rw [show (c :: t2) ++ pat ++ r = c :: (t2 ++ pat ++ r) by simp]
    rw [splitOnce_cons_eq2]
    rw [if_neg (by
      rw [show c :: (t2 ++ pat ++ r) = (c :: t2) ++ pat ++ r by simp, hlong, hnh.1]
      simp)]
    rw [ih r hnh.2]
    rfl

theorem splitOnce_inv (pat : Str) (hpat : pat ≠ []) :
    ∀ (s b a : Str), splitOnce pat s = some (b, a) →
      s = b ++ pat ++ a ∧ noHit pat b = true := by
  intro s
  induction s with
  | nil =>
    intro b a h
    unfold splitOnce at h
    rw [if_neg (by
      cases pat with
      | nil => exact absurd rfl hpat
      | cons p pt => simp [List.isPrefixOf])] at h
    exact absurd h (by simp)
  | cons c rest ih =>
    intro b a h
    rw [splitOnce_cons_eq2] at h
    by_cases hp : pat.isPrefixOf (c :: rest) = true
    · rw [if_pos hp] at h
      obtain ⟨rfl, rfl⟩ : ([] : Str) = b ∧ (c :: rest).drop pat.length = a := by
        have := Option.some.inj h
        exact ⟨congrArg Prod.fst this, congrArg Prod.snd this⟩
      rw [List.isPrefixOf_iff_prefix] at hp
      obtain ⟨t, ht⟩ := hp
      refine ⟨?_, rfl⟩
      rw [← ht]
      simp [List.drop_left]
    · rw [if_neg hp] at h
      cases hs : splitOnce pat rest with
      | none => rw [hs] at h; exact absurd h (by simp)
      | some pr =>
        obtain ⟨b2, a2⟩ := pr
        rw [hs] at h
        have hinj := Option.some.inj h
        have hb : c :: b2 = b := congrArg Prod.fst hinj
        have ha : a2 = a := congrArg Prod.snd hinj
        subst hb; subst ha
        obtain ⟨hrest, hnh⟩ := ih b2 a2 hs
        subst hrest
        refine ⟨by simp, ?_⟩
        simp only [noHit, Bool.and_eq_true, Bool.not_eq_true']
        refine ⟨?_, hnh⟩
        cases hx : pat.isPrefixOf ((c :: b2) ++ pat)
        · rfl
        · exfalso
          rw [show c :: (b2 ++ pat ++ a2) = ((c :: b2) ++ pat) ++ a2 by simp] at hp
          rw [isPrefixOf_append_long _ _ _ (by simp only [List.length_append, List.length_cons]; omega)] at hp
          exact hp hx

theorem noHit_not_contains (pat : Str) (hpat : pat ≠ []) :
    ∀ t, noHit pat t = true → containsLit pat t = false := by
  intro t
  induction t with
  | nil =>
    intro _
    unfold containsLit
    cases pat with
    | nil => exact absurd rfl hpat
    | cons p pt => simp [List.isPrefixOf]
  | cons c rest ih =>
    intro h
    simp only [noHit, Bool.and_eq_true, Bool.not_eq_true'] at h
    unfold containsLit
    rw [ih h.2]
    have : pat.isPrefixOf (c :: rest) = false := by
      cases hx : pat.isPrefixOf (c :: rest)
      · rfl
      · exfalso
        have : pat.isPrefixOf ((c :: rest) ++ pat) = true := by
          rw [List.isPrefixOf_iff_prefix] at hx ⊢
          exact hx.trans (List.prefix_append _ _)
        rw [h.1] at this
        simp at this
    rw [this]
    rfl


theorem noHit_of_not_contains (pat : Str)
    (hb : ∀ k, k < pat.length → 0 < k → pat.take k ≠ pat.drop (pat.length - k)) :
    ∀ t, containsLit pat t = false → noHit pat t = true := by
  intro t
  induction t with
  | nil => intro _; rfl
  | cons c rest ih =>
    intro hc
    unfold containsLit at hc
    rw [Bool.or_eq_false_iff] at hc
    obtain ⟨h1, h2⟩ := hc
    simp only [noHit, Bool.and_eq_true, Bool.not_eq_true']
    refine ⟨?_, ih h2⟩
    by_cases hlen : pat.length ≤ (c :: rest).length
    · rw [isPrefixOf_append_long _ _ _ hlen]; exact h1
    · cases hx : pat.isPrefixOf ((c :: rest) ++ pat)
      · rfl
      · exfalso
        push_neg at hlen
        rw [List.isPrefixOf_iff_prefix] at hx
        have heq := List.prefix_iff_eq_take.mp hx
        rw [List.take_append_eq_append_take,
            List.take_of_length_le (le_of_lt hlen)] at heq
        have hL : (c :: rest).length = rest.length + 1 := by simp
        have hdrop : pat.drop ((c :: rest).length) =
            pat.take (pat.length - (c :: rest).length) := by
          conv_lhs => rw [heq]
          exact List.drop_left _ _
        have hlk : pat.length - (pat.length - (c :: rest).length) =
            (c :: rest).length := Nat.sub_sub_self (le_of_lt hlen)
        exact hb (pat.length - (c :: rest).length) (by omega) (by omega)
          (by rw [hlk]; exact hdrop.symm)

theorem isPrefixOf_cons_ne (p : Char) (ps : Str) (c : Char) (s : Str) (h : c ≠ p) :
    (p :: ps).isPrefixOf (c :: s) = false := by
  have hb : (p == c) = false := beq_eq_false_iff_ne.mpr (Ne.symm h)
  simp [List.isPrefixOf, hb]

theorem not_contains2_append (p0 p1 : Char) (a b : Str)
    (ha : containsLit [p0, p1] a = false)
    (hbc : containsLit [p0, p1] b = false)
    (hj : a.getLast? = some p0 → b.head? = some p1 → False) :
    containsLit [p0, p1] (a ++ b) = false := by
  induction a with
  | nil => simpa using hbc
  | cons c a2 ih =>
    simp only [containsLit, List.cons_append] at ha ⊢
    rw [Bool.or_eq_false_iff] at ha
    obtain ⟨ha1, ha2⟩ := ha
    rw [Bool.or_eq_false_iff]
    have hj2 : a2.getLast? = some p0 → b.head? = some p1 → False := by
      intro hg hh
      cases a2 with
      | nil => simp at hg
      | cons d a3 =>
        refine hj ?_ hh
        rw [List.getLast?_cons_cons]
        exact hg
    refine ⟨?_, ih ha2 hj2⟩
    cases a2 with
    | nil =>
      simp only [List.nil_append, List.cons_append]
      cases b with
      | nil => simp [List.isPrefixOf]
      | cons d b2 =>
        by_cases hc0 : c = p0
        · subst hc0
          have hd : d ≠ p1 := by
            intro hdp
            exact hj (by simp) (by simp [hdp])
          simp [List.isPrefixOf, hd, Ne.symm hd]
        · exact isPrefixOf_cons_ne p0 [p1] c (d :: b2) hc0
    | cons d a3 =>
      simp only [List.isPrefixOf, Bool.and_eq_false_iff] at ha1 ⊢
      rcases ha1 with h | h
      · exact Or.inl h
      · rcases h with h | h
        · exact Or.inr (Or.inl h)
        · simp [List.isPrefixOf] at h

/-! ### scanTag -/

theorem scanTag_shape :
    ∀ (s : Str) (m : Option Char) (content after : Str),
      scanTag m s = some (content, after) → s = content ++ '>' :: after := by
  intro s
  induction s with
  | nil => intro m content after h; simp [scanTag] at h
  | cons c rest ih =>
    intro m content after h
    cases m with
    | some q =>
      simp only [scanTag] at h
      by_cases hc : c = q
      · rw [if_pos hc] at h
        cases hs : scanTag none rest with
        | none => rw [hs] at h; exact absurd h (by simp)
        | some pr =>
          obtain ⟨c1, a1⟩ := pr
          rw [hs] at h
          have hinj := Option.some.inj h
          have h1 : c :: c1 = content := congrArg Prod.fst hinj
          have h2 : a1 = after := congrArg Prod.snd hinj
          subst h1; subst h2
          rw [ih none c1 a1 hs]
          simp
      · rw [if_neg hc] at h
        cases hs : scanTag (some q) rest with
        | none => rw [hs] at h; exact absurd h (by simp)
        | some pr =>
          obtain ⟨c1, a1⟩ := pr
          rw [hs] at h
          have hinj := Option.some.inj h
          have h1 : c :: c1 = content := congrArg Prod.fst hinj
          have h2 : a1 = after := congrArg Prod.snd hinj
          subst h1; subst h2
          rw [ih (some q) c1 a1 hs]
          simp
    | none =>
      simp only [scanTag] at h
      by_cases hc : c = '>'
      · rw [if_pos hc] at h
        have hinj := Option.some.inj h
        have h1 : ([] : Str) = content := congrArg Prod.fst hinj
        have h2 : rest = after := congrArg Prod.snd hinj
        subst h1; subst h2
        simp [hc]
      · rw [if_neg hc] at h
        by_cases hq : (c = '"' || c = '\'') = true
        · rw [if_pos hq] at h
          cases hs : scanTag (some c) rest with
          | none => rw [hs] at h; exact absurd h (by simp)
          | some pr =>
            obtain ⟨c1, a1⟩ := pr
            rw [hs] at h
            have hinj := Option.some.inj h
            have h1 : c :: c1 = content := congrArg Prod.fst hinj
            have h2 : a1 = after := congrArg Prod.snd hinj
            subst h1; subst h2
            rw [ih (some c) c1 a1 hs]
            simp
        · rw [if_neg hq] at h
          cases hs : scanTag none rest with
          | none => rw [hs] at h; exact absurd h (by simp)
          | some pr =>
            obtain ⟨c1, a1⟩ := pr
            rw [hs] at h
            have hinj := Option.some.inj h
            have h1 : c :: c1 = content := congrArg Prod.fst hinj
            have h2 : a1 = after := congrArg Prod.snd hinj
            subst h1; subst h2
            rw [ih none c1 a1 hs]
            simp

theorem scanTag_gt (rest : Str) : scanTag none ('>' :: rest) = some ([], rest) := by
  simp [scanTag]

theorem scanTag_pass (seg : Str) (hseg : ∀ c ∈ seg, c ≠ '>' ∧ c ≠ '"' ∧ c ≠ '\'') :
    ∀ rest, scanTag none (seg ++ rest) =
      (scanTag none rest).map (fun pr => (seg ++ pr.1, pr.2)) := by
  induction seg with
  | nil =>
    intro rest
    simp only [List.nil_append]
    cases scanTag none rest <;> simp
  | cons c seg2 ih =>
    intro rest
    obtain ⟨h1, h2, h3⟩ := hseg c (by simp)
    simp only [List.cons_append, scanTag]
    rw [if_neg h1, if_neg (by simp [h2, h3])]
    rw [List.append_eq, ih (fun x hx => hseg x (by simp [hx])) rest]
    cases scanTag none rest <;> simp

theorem scanTag_quote (q : Char) (v : Str) (hv : ∀ c ∈ v, c ≠ q) :
    ∀ rest, scanTag (some q) (v ++ q :: rest) =
      (scanTag none rest).map (fun pr => (v ++ q :: pr.1, pr.2)) := by
  induction v with
  | nil =>
    intro rest
    simp only [List.nil_append, scanTag, if_pos (rfl : q = q)]
    cases scanTag none rest <;> simp
  | cons c v2 ih =>
    intro rest
    have hc := hv c (by simp)
    simp only [List.cons_append, scanTag]
    rw [if_neg hc, List.append_eq, ih (fun x hx => hv x (by simp [hx])) rest]
    cases scanTag none rest <;> simp

theorem scanTag_value (v : Str) (hv : ∀ c ∈ v, c ≠ '"') :
    ∀ rest, scanTag none ('"' :: (v ++ '"' :: rest)) =
      (scanTag none rest).map (fun pr => ('"' :: (v ++ '"' :: pr.1), pr.2)) := by
  intro rest
  simp only [scanTag]
  rw [if_neg (by decide), if_pos (by decide)]
  rw [scanTag_quote '"' v hv rest]
  cases scanTag none rest <;> simp

theorem scanTag_attr (k v : Str) (hk : wfAttrKey k = true) (hv : ∀ c ∈ v, c ≠ '"') :
    ∀ rest, scanTag none (writeAttr (k, v) ++ rest) =
      (scanTag none rest).map (fun pr => (writeAttr (k, v) ++ pr.1, pr.2)) := by
  intro rest
  have hkc : ∀ c ∈ k, c ≠ '>' ∧ c ≠ '"' ∧ c ≠ '\'' := by
    intro c hc
    simp only [wfAttrKey, Bool.and_eq_true, List.all_eq_true] at hk
    have h5 := hk.2 c hc
    simp only [Bool.and_eq_true, decide_eq_true_eq, Bool.not_eq_true'] at h5
    exact ⟨h5.2, h5.1.1.2, h5.1.2⟩
  have hshape : writeAttr (k, v) ++ rest =
      (' ' :: k ++ ['=']) ++ ('"' :: (v ++ '"' :: rest)) := by
    simp [writeAttr]
  rw [hshape]
  rw [scanTag_pass (' ' :: k ++ ['='])
    (by
      intro c hc
      simp only [List.cons_append, List.mem_cons, List.mem_append,
        List.mem_singleton] at hc
      rcases hc with rfl | hc | rfl | hc
      · exact ⟨by decide, by decide, by decide⟩
      · exact hkc c hc
      · exact ⟨by decide, by decide, by decide⟩
      · exact absurd hc (List.not_mem_nil c))]
  rw [scanTag_value v hv rest]
  cases scanTag none rest <;> simp [writeAttr]

theorem scanTag_attrs (attrs : List (Str × Str))
    (hk : ∀ a ∈ attrs, wfAttrKey a.1 = true)
    (hv : ∀ a ∈ attrs, ∀ c ∈ a.2, c ≠ '"') :
    ∀ rest, scanTag none (attrs.flatMap writeAttr ++ rest) =
      (scanTag none rest).map (fun pr => (attrs.flatMap writeAttr ++ pr.1, pr.2)) := by
  induction attrs with
  | nil =>
    intro rest
    simp only [show (([] : List (Str × Str)).flatMap writeAttr) = [] from rfl,
      List.nil_append]
    cases scanTag none rest <;> simp
  | cons a attrs2 ih =>
    intro rest
    obtain ⟨k, v⟩ := a
    rw [show (((k, v) :: attrs2).flatMap writeAttr ++ rest) =
        writeAttr (k, v) ++ (attrs2.flatMap writeAttr ++ rest) by simp]
    rw [scanTag_attr k v (hk (k, v) (by simp)) (hv (k, v) (by simp))]
    rw [ih (fun a ha => hk a (by simp [ha])) (fun a ha => hv a (by simp [ha]))]
    cases scanTag none rest <;> simp

/-! ### text runs and entity escaping -/

theorem takeWhile_all (p : Char → Bool) :
    ∀ (a : Str), (∀ c ∈ a, p c = true) → a.takeWhile p = a := by
  intro a
  induction a with
  | nil => intro _; rfl
  | cons c a2 ih =>
    intro h
    rw [List.takeWhile_cons_of_pos (h c (by simp))]
    rw [ih (fun x hx => h x (by simp [hx]))]

theorem takeWhile_middle (p : Char → Bool) (x : Char) (hx : p x = false) :
    ∀ (a b : Str), (∀ c ∈ a, p c = true) → (a ++ x :: b).takeWhile p = a := by
  intro a
  induction a with
  | nil =>
    intro b _
    simp only [List.nil_append]
    exact List.takeWhile_cons_of_neg (by simp [hx])
  | cons c a2 ih =>
    intro b h
    simp only [List.cons_append]
    rw [List.takeWhile_cons_of_pos (h c (by simp))]
    rw [ih b (fun y hy => h y (by simp [hy]))]

theorem escapeText_no_lt (t : Str) : ∀ c ∈ escapeText t, c ≠ '<' := by
  intro c hc
  simp only [escapeText, List.mem_flatMap] at hc
  obtain ⟨x, hx, hcx⟩ := hc
  by_cases h1 : x = '&'
  · rw [if_pos h1] at hcx
    simp at hcx
    rcases hcx with rfl | rfl | rfl | rfl | rfl <;> decide
  · rw [if_neg h1] at hcx
    by_cases h2 : x = '<'
    · rw [if_pos h2] at hcx
      simp at hcx
      rcases hcx with rfl | rfl | rfl | rfl <;> decide
    · rw [if_neg h2] at hcx
      by_cases h3 : x = '>'
      · rw [if_pos h3] at hcx
        simp at hcx
        rcases hcx with rfl | rfl | rfl | rfl <;> decide
      · rw [if_neg h3] at hcx
        simp only [List.mem_singleton] at hcx
        subst hcx
        exact h2

theorem escapeText_ne_nil (t : Str) (h : t ≠ []) : escapeText t ≠ [] := by
  cases t with
  | nil => exact absurd rfl h
  | cons c t2 =>
    have hstep : escapeText (c :: t2) =
        (if c = '&' then "&amp;".data
         else if c = '<' then "&lt;".data
         else if c = '>' then "&gt;".data
         else [c]) ++ escapeText t2 := rfl
    rw [hstep]
    intro hcontra
    rw [List.append_eq_nil] at hcontra
    have h1 := hcontra.1
    by_cases hA : c = '&'
    · rw [if_pos hA] at h1; exact absurd h1 (by decide)
    · rw [if_neg hA] at h1
      by_cases hB : c = '<'
      · rw [if_pos hB] at h1; exact absurd h1 (by decide)
      · rw [if_neg hB] at h1
        by_cases hC : c = '>'
        · rw [if_pos hC] at h1; exact absurd h1 (by decide)
        · rw [if_neg hC] at h1; exact absurd h1 (by simp)

theorem unescape_cons_ne (f : Nat) (c : Char) (rest : Str) (hc : c ≠ '&') :
    unescape (f + 1) (c :: rest) = (unescape f rest).map (c :: ·) := by
  simp only [unescape, hc]

theorem unescape_escape : ∀ (t : Str) (fuel : Nat), (escapeText t).length ≤ fuel →
    unescape fuel (escapeText t) = .ok t := by
  intro t
  induction t with
  | nil => intro fuel _; cases fuel <;> rfl
  | cons c t2 ih =>
    intro fuel hlen
    by_cases h1 : c = '&'
    · subst h1
      have hstep : escapeText ('&' :: t2) = '&' :: 'a' :: 'm' :: 'p' :: ';' :: escapeText t2 := rfl
      rw [hstep] at hlen ⊢
      cases fuel with
      | zero => simp at hlen
      | succ f =>
        have hsplit : splitOnce ";".data ('a' :: 'm' :: 'p' :: ';' :: escapeText t2) =
            some ("amp".data, escapeText t2) := by
          have h0 := splitOnce_noHit ";".data (by decide) "amp".data (escapeText t2) (by decide)
          rw [show ("amp".data ++ ";".data ++ escapeText t2) =
            'a' :: 'm' :: 'p' :: ';' :: escapeText t2 from rfl] at h0
          exact h0
        simp only [unescape, hsplit,
          show entityChar "amp".data = some '&' from by decide]
        rw [ih f (by simp at hlen; omega)]
        rfl
    · by_cases h2 : c = '<'
      · subst h2
        have hstep : escapeText ('<' :: t2) = '&' :: 'l' :: 't' :: ';' :: escapeText t2 := rfl
        rw [hstep] at hlen ⊢
        cases fuel with
        | zero => simp at hlen
        | succ f =>
          have hsplit : splitOnce ";".data ('l' :: 't' :: ';' :: escapeText t2) =
              some ("lt".data, escapeText t2) := by
            have h0 := splitOnce_noHit ";".data (by decide) "lt".data (escapeText t2) (by decide)
            rw [show ("lt".data ++ ";".data ++ escapeText t2) =
              'l' :: 't' :: ';' :: escapeText t2 from rfl] at h0
            exact h0
          simp only [unescape, hsplit,
            show entityChar "lt".data = some '<' from by decide]
          rw [ih f (by simp at hlen; omega)]
          rfl
      · by_cases h3 : c = '>'
        · subst h3
          have hstep : escapeText ('>' :: t2) = '&' :: 'g' :: 't' :: ';' :: escapeText t2 := rfl
          rw [hstep] at hlen ⊢
          cases fuel with
          | zero => simp at hlen
          | succ f =>
            have hsplit : splitOnce ";".data ('g' :: 't' :: ';' :: escapeText t2) =
                some ("gt".data, escapeText t2) := by
              have h0 := splitOnce_noHit ";".data (by decide) "gt".data (escapeText t2) (by decide)
              rw [show ("gt".data ++ ";".data ++ escapeText t2) =
                'g' :: 't' :: ';' :: escapeText t2 from rfl] at h0
              exact h0
            simp only [unescape, hsplit,
              show entityChar "gt".data = some '>' from by decide]
            rw [ih f (by simp at hlen; omega)]
            rfl
        · have hstep : escapeText (c :: t2) = c :: escapeText t2 := by
            show (if c = '&' then "&amp;".data
              else if c = '<' then "&lt;".data
              else if c = '>' then "&gt;".data
              else [c]) ++ escapeText t2 = c :: escapeText t2
            rw [if_neg h1, if_neg h2, if_neg h3]
            rfl
          rw [hstep] at hlen ⊢
          classical
          cases fuel with
          | zero => simp at hlen
          | succ f =>
            rw [unescape_cons_ne f c (escapeText t2) h1]
            rw [ih f (by simp at hlen; omega)]
            rfl


/-! ### attribute parsing -/

theorem wfAttrKey_chars (k : Str) (hk : wfAttrKey k = true) :
    k ≠ [] ∧ ∀ c ∈ k, isWs c = false ∧ c ≠ '=' ∧ c ≠ '"' ∧ c ≠ '\'' ∧ c ≠ '>' := by
  simp only [wfAttrKey, Bool.and_eq_true, List.all_eq_true] at hk
  constructor
  · intro hnil
    rw [hnil] at hk
    simp at hk
  · intro c hc
    have h5 := hk.2 c hc
    simp only [Bool.and_eq_true, decide_eq_true_eq, Bool.not_eq_true'] at h5
    exact ⟨h5.1.1.1.1, h5.1.1.1.2, h5.1.1.2, h5.1.2, h5.2⟩

theorem parseAttrsGo_step (f : Nat) (k v : Str) (rest : Str)
    (hk : wfAttrKey k = true) (hv : ∀ c ∈ v, c ≠ '"')
    (hrest : rest = [] ∨ ∃ r', rest = ' ' :: r') :
    parseAttrsGo (f + 1) (writeAttr (k, v) ++ rest) =
      (parseAttrsGo f rest).map ((k, v) :: ·) := by
  obtain ⟨hknil, hkc⟩ := wfAttrKey_chars k hk
  obtain ⟨kc, k2, rfl⟩ : ∃ kc k2, k = kc :: k2 := by
    cases k with
    | nil => exact absurd rfl hknil
    | cons a b => exact ⟨a, b, rfl⟩
  have hshape : writeAttr (kc :: k2, v) ++ rest =
      ' ' :: (kc :: (k2 ++ '=' :: '"' :: (v ++ '"' :: rest))) := by
    simp [writeAttr]
  rw [hshape]
  simp only [parseAttrsGo]
  rw [List.dropWhile_cons_of_pos (by simp [isWs])]
  rw [List.dropWhile_cons_of_neg (by simp [(hkc kc (by simp)).1])]
  have htake : List.takeWhile (fun c => decide (c ≠ '=' ∧ (!isWs c) = true))
      (kc :: (k2 ++ '=' :: '"' :: (v ++ '"' :: rest))) = kc :: k2 := by
    rw [show kc :: (k2 ++ '=' :: '"' :: (v ++ '"' :: rest)) =
      (kc :: k2) ++ '=' :: ('"' :: (v ++ '"' :: rest)) by simp]
    refine takeWhile_middle _ '=' (by simp) (kc :: k2) _ ?_
    intro c hc
    have h6 := hkc c hc
    simp [h6.1, h6.2.1]
  have hany : ((kc :: k2).any fun c => decide (c = '"' ∨ c = '\'' ∨ c = '>')) = false := by
    rw [List.any_eq_false]
    intro c hc
    have h6 := hkc c hc
    simp [h6.2.2.1, h6.2.2.2.1, h6.2.2.2.2]
  have hdrop1 : List.drop (kc :: k2).length (kc :: (k2 ++ '=' :: '"' :: (v ++ '"' :: rest))) =
      '=' :: '"' :: (v ++ '"' :: rest) := by
    rw [show kc :: (k2 ++ '=' :: '"' :: (v ++ '"' :: rest)) =
      (kc :: k2) ++ '=' :: '"' :: (v ++ '"' :: rest) by simp]
    exact List.drop_left _ _
  have hdropeq : List.dropWhile isWs ('=' :: '"' :: (v ++ '"' :: rest)) =
      '=' :: '"' :: (v ++ '"' :: rest) :=
    List.dropWhile_cons_of_neg (by simp [isWs])
  have hdropq : List.dropWhile isWs ('"' :: (v ++ '"' :: rest)) = '"' :: (v ++ '"' :: rest) :=
    List.dropWhile_cons_of_neg (by simp [isWs])
  have htakev : List.takeWhile (fun x => decide (x ≠ '"')) (v ++ '"' :: rest) = v :=
    takeWhile_middle _ '"' (by simp) v rest (fun c hc => by simp [hv c hc])
  have hdropv : List.drop v.length (v ++ '"' :: rest) = '"' :: rest := by
    have := List.drop_left v ('"' :: rest)
    simpa using this
  simp only [htake, hany, hdrop1, hdropeq, hdropq, htakev, hdropv,
    List.isEmpty_cons, Bool.false_eq_true, if_false]
  rcases hrest with rfl | ⟨r2, rfl⟩
  · rfl
  · simp [isWs]

theorem parseAttrs_roundtrip :
    ∀ (attrs : List (Str × Str)) (f : Nat),
      (∀ a ∈ attrs, wfAttrKey a.1 = true) →
      (∀ a ∈ attrs, ∀ c ∈ a.2, c ≠ '"') →
      attrs.length < f →
      parseAttrsGo f (attrs.flatMap writeAttr) = .ok attrs := by
  intro attrs
  induction attrs with
  | nil =>
    intro f _ _ hf
    cases f with
    | zero => omega
    | succ f2 => rfl
  | cons a attrs2 ih =>
    intro f hk hv hf
    obtain ⟨k, v⟩ := a
    cases f with
    | zero => omega
    | succ f2 =>
      rw [show (((k, v) :: attrs2).flatMap writeAttr) =
        writeAttr (k, v) ++ attrs2.flatMap writeAttr from rfl]
      have hrest : attrs2.flatMap writeAttr = [] ∨
          ∃ r2, attrs2.flatMap writeAttr = ' ' :: r2 := by
        cases attrs2 with
        | nil => exact Or.inl rfl
        | cons b bs =>
          right
          obtain ⟨bk, bv⟩ := b
          exact ⟨bk ++ '=' :: '"' :: (bv ++ '"' :: bs.flatMap writeAttr), by simp [writeAttr]⟩
      rw [parseAttrsGo_step f2 k v _ (hk (k, v) (by simp)) (hv (k, v) (by simp)) hrest]
      rw [ih f2 (fun x hx => hk x (by simp [hx])) (fun x hx => hv x (by simp [hx]))
        (by simp at hf ⊢; omega)]
      rfl

/-! ### small structural facts -/

theorem containsLit_append_right (pat t post : Str) (h : containsLit pat t = true) :
    containsLit pat (t ++ post) = true := by
  induction t with
  | nil =>
    unfold containsLit at h
    have hpat : pat = [] := by
      cases pat with
      | nil => rfl
      | cons p ps => simp [List.isPrefixOf] at h
    subst hpat
    cases post with
    | nil => rfl
    | cons c cs => simp [containsLit, List.isPrefixOf]
  | cons c t2 ih =>
    unfold containsLit at h ⊢
    rw [Bool.or_eq_true] at h
    rcases h with h | h
    · rw [List.isPrefixOf_iff_prefix] at h
      simp only [List.cons_append]
      have : pat <+: (c :: t2) ++ post := h.trans (List.prefix_append _ _)
      rw [Bool.or_eq_true]
      left
      rw [List.isPrefixOf_iff_prefix]
      simpa using this
    · simp only [List.cons_append]
      rw [Bool.or_eq_true]
      exact Or.inr (ih h)

theorem containsLit_append_left (pat pre t : Str) (h : containsLit pat t = true) :
    containsLit pat (pre ++ t) = true := by
  induction pre with
  | nil => simpa using h
  | cons c p2 ih =>
    simp only [List.cons_append]
    unfold containsLit
    rw [Bool.or_eq_true]
    exact Or.inr ih

theorem containsLit_of_infix (pat v s : Str) (hinf : v <:+: s)
    (h : containsLit pat v = true) : containsLit pat s = true := by
  obtain ⟨pre, post, rfl⟩ := hinf
  rw [List.append_assoc]
  exact containsLit_append_left pat pre _ (containsLit_append_right pat v post h)

theorem flatMap_writeAttr_head (a : Str × Str) (as : List (Str × Str)) :
    ∃ r, ((a :: as).flatMap writeAttr) = ' ' :: r := by
  obtain ⟨k, v⟩ := a
  exact ⟨k ++ '=' :: '"' :: (v ++ '"' :: as.flatMap writeAttr), by simp [writeAttr]⟩

theorem flatMap_writeAttr_last (attrs : List (Str × Str)) (h : attrs ≠ []) :
    ∃ w, attrs.flatMap writeAttr = w ++ ['"'] := by
  induction attrs with
  | nil => exact absurd rfl h
  | cons a as ih =>
    cases as with
    | nil =>
      obtain ⟨k, v⟩ := a
      refine ⟨' ' :: (k ++ '=' :: '"' :: v), ?_⟩
      simp [writeAttr]
    | cons b bs =>
      obtain ⟨w, hw⟩ := ih (by simp)
      refine ⟨writeAttr a ++ w, ?_⟩
      rw [show ((a :: b :: bs).flatMap writeAttr) = writeAttr a ++ (b :: bs).flatMap writeAttr
        from rfl]
      rw [hw, List.append_assoc]

theorem flatMap_writeAttr_length (attrs : List (Str × Str)) :
    attrs.length ≤ (attrs.flatMap writeAttr).length := by
  induction attrs with
  | nil => simp
  | cons a as ih =>
    obtain ⟨k, v⟩ := a
    rw [show (((k, v) :: as).flatMap writeAttr) = writeAttr (k, v) ++ as.flatMap writeAttr
      from rfl]
    have hw : 1 ≤ (writeAttr (k, v)).length := by simp [writeAttr]
    rw [List.length_append, List.length_cons]
    omega

theorem wfName_facts (n : Str) (h : wfName n = true) :
    n ≠ [] ∧ (∀ c ∈ n, isWs c = false ∧ c ≠ '"' ∧ c ≠ '\'' ∧ c ≠ '>') ∧
      n.getLast? ≠ some '/' ∧
      ∀ c, n.head? = some c → c ≠ '!' ∧ c ≠ '?' ∧ c ≠ '/' := by
  simp only [wfName, Bool.and_eq_true, List.all_eq_true] at h
  obtain ⟨⟨⟨hne, hall⟩, hlast⟩, hhead⟩ := h
  refine ⟨?_, ?_, ?_, ?_⟩
  · intro hnil
    rw [hnil] at hne
    simp at hne
  · intro c hc
    have h5 := hall c hc
    simp only [Bool.and_eq_true, decide_eq_true_eq, Bool.not_eq_true'] at h5
    exact ⟨h5.1.1.1, h5.1.1.2, h5.1.2, h5.2⟩
  · simpa using hlast
  · intro c hc
    rw [hc] at hhead
    simp only [Bool.and_eq_true, decide_eq_true_eq] at hhead
    exact ⟨hhead.1.1, hhead.1.2, hhead.2⟩

theorem takeWhile_name (name : Str) (attrs : List (Str × Str))
    (hnw : ∀ c ∈ name, isWs c = false) :
    (name ++ attrs.flatMap writeAttr).takeWhile (fun c => !isWs c) = name := by
  cases attrs with
  | nil =>
    simp only [show (([] : List (Str × Str)).flatMap writeAttr) = [] from rfl,
      List.append_nil]
    exact takeWhile_all _ name (fun c hc => by simp [hnw c hc])
  | cons a as =>
    obtain ⟨r, hr⟩ := flatMap_writeAttr_head a as
    rw [hr]
    exact takeWhile_middle _ ' ' (by simp [isWs]) name r (fun c hc => by simp [hnw c hc])

theorem parseTagContent_write (name : Str) (attrs : List (Str × Str)) (em : Bool)
    (hn : wfName name = true)
    (hk : ∀ a ∈ attrs, wfAttrKey a.1 = true)
    (hv : ∀ a ∈ attrs, ∀ c ∈ a.2, c ≠ '"') :
    parseTagContent (name ++ attrs.flatMap writeAttr ++ (if em then ['/'] else [])) =
      .ok (if em then .empty name attrs else .start name attrs) := by
  obtain ⟨hne, hchars, hlastn, hheadn⟩ := wfName_facts name hn
  have hnw : ∀ c ∈ name, isWs c = false := fun c hc => (hchars c hc).1
  have htw := takeWhile_name name attrs hnw
  have hempty : name.isEmpty = false := by
    cases name with
    | nil => exact absurd rfl hne
    | cons c n2 => rfl
  have hcond : ¬((name.any fun c => decide (c = '"' ∨ c = '\'' ∨ c = '>')) = true ∨
      name.getLast? = some '/') := by
    rintro (h | h)
    · rw [List.any_eq_true] at h
      obtain ⟨c, hc, hprop⟩ := h
      have h6 := hchars c hc
      rcases (by simpa using hprop : c = '"' ∨ c = '\'' ∨ c = '>') with rfl | rfl | rfl
      · exact h6.2.1 rfl
      · exact h6.2.2.1 rfl
      · exact h6.2.2.2 rfl
    · exact hlastn h
  have hdrop : (name ++ attrs.flatMap writeAttr).drop name.length = attrs.flatMap writeAttr :=
    List.drop_left _ _
  have hfuel : attrs.length < (name ++ attrs.flatMap writeAttr).length := by
    have h1 := flatMap_writeAttr_length attrs
    have h2 : 1 ≤ name.length := by
      cases name with
      | nil => exact absurd rfl hne
      | cons c n2 => simp
    rw [List.length_append]
    omega
  have hround := parseAttrs_roundtrip attrs (name ++ attrs.flatMap writeAttr).length hk hv hfuel
  cases em with
  | true =>
    simp only [if_true, reduceIte]
    have hlast : ((name ++ attrs.flatMap writeAttr) ++ ['/']).getLast? = some '/' :=
      List.getLast?_concat _
    simp only [parseTagContent, hlast, List.dropLast_concat, if_true, htw]
    rw [if_neg (by simp [hempty]), if_neg hcond, hdrop, hround]
    rfl
  | false =>
    rw [show (if (false : Bool) then ['/'] else ([] : Str)) = [] from rfl]
    rw [show (if (false : Bool) then XmlEvent.empty name attrs else XmlEvent.start name attrs) =
      XmlEvent.start name attrs from rfl]
    have hlast : (name ++ attrs.flatMap writeAttr ++ []).getLast? ≠ some '/' := by
      rw [List.append_nil]
      cases attrs with
      | nil =>
        simp only [show (([] : List (Str × Str)).flatMap writeAttr) = [] from rfl,
          List.append_nil]
        exact hlastn
      | cons a as =>
        obtain ⟨w, hw⟩ := flatMap_writeAttr_last (a :: as) (by simp)
        rw [hw, ← List.append_assoc, List.getLast?_concat]
        simp
    simp only [List.append_nil] at hlast ⊢
    simp only [parseTagContent]
    rw [if_neg hlast]
    simp only [htw]
    rw [if_neg (by simp [hempty]), if_neg hcond, hdrop, hround]
    simp only [if_neg hlast]
    rfl

/-! ### per-event re-parse (writer output back through parseOne) -/

theorem isPrefixOf_append_self (p r : Str) : p.isPrefixOf (p ++ r) = true := by
  rw [List.isPrefixOf_iff_prefix]
  exact ⟨r, rfl⟩

theorem parseOne_write_comment (t tail : Str) (hwf : wfEvent (.comment t) = true) :
    parseOne (writeEvent (.comment t) ++ tail) = .ok (some (.comment t, tail)) := by
  have hc : containsLit "-->".data t = false := by
    simp only [wfEvent, Bool.not_eq_true'] at hwf
    exact hwf
  have hn : noHit "-->".data t = true := noHit_of_not_contains _ (by decide) t hc
  have hshape : writeEvent (.comment t) ++ tail =
      '<' :: '!' :: '-' :: '-' :: (t ++ ('-' :: '-' :: '>' :: tail)) := by
    simp [writeEvent]
  rw [hshape]
  have hpre : "!--".data.isPrefixOf
      ('!' :: '-' :: '-' :: (t ++ ('-' :: '-' :: '>' :: tail))) = true :=
    isPrefixOf_append_self "!--".data _
  have hsplit : splitOnce "-->".data (t ++ ('-' :: '-' :: '>' :: tail)) = some (t, tail) := by
    have h0 := splitOnce_noHit "-->".data (by decide) t tail hn
    rw [show (t ++ "-->".data ++ tail) = t ++ ('-' :: '-' :: '>' :: tail) by simp] at h0
    exact h0
  simp only [parseOne, hpre, reduceIte, List.drop_succ_cons, List.drop_zero, hsplit]

theorem parseOne_write_cdata (t tail : Str) (hwf : wfEvent (.cdata t) = true) :
    parseOne (writeEvent (.cdata t) ++ tail) = .ok (some (.cdata t, tail)) := by
  have hc : containsLit "]]>".data t = false := by
    simp only [wfEvent, Bool.not_eq_true'] at hwf
    exact hwf
  have hn : noHit "]]>".data t = true := noHit_of_not_contains _ (by decide) t hc
  have hshape : writeEvent (.cdata t) ++ tail =
      '<' :: '!' :: '[' :: 'C' :: 'D' :: 'A' :: 'T' :: 'A' :: '[' ::
        (t ++ (']' :: ']' :: '>' :: tail)) := by
    simp [writeEvent]
  rw [hshape]
  have hpre1 : "!--".data.isPrefixOf
      ('!' :: '[' :: 'C' :: 'D' :: 'A' :: 'T' :: 'A' :: '[' ::
        (t ++ (']' :: ']' :: '>' :: tail))) = false := rfl
  have hpre2 : "![CDATA[".data.isPrefixOf
      ('!' :: '[' :: 'C' :: 'D' :: 'A' :: 'T' :: 'A' :: '[' ::
        (t ++ (']' :: ']' :: '>' :: tail))) = true :=
    isPrefixOf_append_self "![CDATA[".data _
  have hsplit : splitOnce "]]>".data (t ++ (']' :: ']' :: '>' :: tail)) = some (t, tail) := by
    have h0 := splitOnce_noHit "]]>".data (by decide) t tail hn
    rw [show (t ++ "]]>".data ++ tail) = t ++ (']' :: ']' :: '>' :: tail) by simp] at h0
    exact h0
  simp only [parseOne, hpre1, hpre2, Bool.false_eq_true, reduceIte,
    List.drop_succ_cons, List.drop_zero, hsplit]

theorem parseOne_write_doctype (t tail : Str) (hwf : wfEvent (.doctype t) = true) :
    parseOne (writeEvent (.doctype t) ++ tail) = .ok (some (.doctype t, tail)) := by
  have hc : containsLit ">".data t = false := by
    simp only [wfEvent, Bool.not_eq_true'] at hwf
    exact hwf
  have hn : noHit ">".data t = true := noHit_of_not_contains _ (by decide) t hc
  have hshape : writeEvent (.doctype t) ++ tail =
      '<' :: '!' :: 'D' :: 'O' :: 'C' :: 'T' :: 'Y' :: 'P' :: 'E' ::
        (t ++ ('>' :: tail)) := by
    simp [writeEvent]
  rw [hshape]
  have hpre1 : "!--".data.isPrefixOf
      ('!' :: 'D' :: 'O' :: 'C' :: 'T' :: 'Y' :: 'P' :: 'E' :: (t ++ ('>' :: tail))) = false := rfl
  have hpre2 : "![CDATA[".data.isPrefixOf
      ('!' :: 'D' :: 'O' :: 'C' :: 'T' :: 'Y' :: 'P' :: 'E' :: (t ++ ('>' :: tail))) = false := rfl
  have hpre3 : "!DOCTYPE".data.isPrefixOf
      ('!' :: 'D' :: 'O' :: 'C' :: 'T' :: 'Y' :: 'P' :: 'E' :: (t ++ ('>' :: tail))) = true :=
    isPrefixOf_append_self "!DOCTYPE".data _
  have hsplit : splitOnce ">".data (t ++ ('>' :: tail)) = some (t, tail) := by
    have h0 := splitOnce_noHit ">".data (by decide) t tail hn
    rw [show (t ++ ">".data ++ tail) = t ++ ('>' :: tail) by simp] at h0
    exact h0
  simp only [parseOne, hpre1, hpre2, hpre3, Bool.false_eq_true, reduceIte,
    List.drop_succ_cons, List.drop_zero, hsplit]

theorem parseOne_write_pi (c tail : Str) (hwf : wfEvent (.pi c) = true) :
    parseOne (writeEvent (.pi c) ++ tail) = .ok (some (.pi c, tail)) := by
  simp only [wfEvent, Bool.and_eq_true, Bool.not_eq_true'] at hwf
  obtain ⟨hc, hdecl⟩ := hwf
  have hn : noHit "?>".data c = true := noHit_of_not_contains _ (by decide) c hc
  have hshape : writeEvent (.pi c) ++ tail = '<' :: '?' :: (c ++ ('?' :: '>' :: tail)) := by
    simp [writeEvent]
  rw [hshape]
  have hpre1 : "!--".data.isPrefixOf ('?' :: (c ++ ('?' :: '>' :: tail))) = false := rfl
  have hpre2 : "![CDATA[".data.isPrefixOf ('?' :: (c ++ ('?' :: '>' :: tail))) = false := rfl
  have hpre3 : "!DOCTYPE".data.isPrefixOf ('?' :: (c ++ ('?' :: '>' :: tail))) = false := rfl
  have hpre4 : "!".data.isPrefixOf ('?' :: (c ++ ('?' :: '>' :: tail))) = false := rfl
  have hpre5 : "?".data.isPrefixOf ('?' :: (c ++ ('?' :: '>' :: tail))) = true :=
    isPrefixOf_append_self "?".data _
  have hsplit : splitOnce "?>".data (c ++ ('?' :: '>' :: tail)) = some (c, tail) := by
    have h0 := splitOnce_noHit "?>".data (by decide) c tail hn
    rw [show (c ++ "?>".data ++ tail) = c ++ ('?' :: '>' :: tail) by simp] at h0
    exact h0
  simp only [parseOne, hpre1, hpre2, hpre3, hpre4, hpre5, Bool.false_eq_true, reduceIte,
    List.drop_succ_cons, List.drop_zero, hsplit, hdecl]

theorem parseOne_write_endE (n tail : Str) (hwf : wfEvent (.endE n) = true) :
    parseOne (writeEvent (.endE n) ++ tail) = .ok (some (.endE n, tail)) := by
  simp only [wfEvent, Bool.and_eq_true, Bool.not_eq_true'] at hwf
  obtain ⟨hne, hc⟩ := hwf
  have hn : noHit ">".data n = true := noHit_of_not_contains _ (by decide) n hc
  have hshape : writeEvent (.endE n) ++ tail = '<' :: '/' :: (n ++ ('>' :: tail)) := by
    simp [writeEvent]
  rw [hshape]
  have hpre1 : "!--".data.isPrefixOf ('/' :: (n ++ ('>' :: tail))) = false := rfl
  have hpre2 : "![CDATA[".data.isPrefixOf ('/' :: (n ++ ('>' :: tail))) = false := rfl
  have hpre3 : "!DOCTYPE".data.isPrefixOf ('/' :: (n ++ ('>' :: tail))) = false := rfl
  have hpre4 : "!".data.isPrefixOf ('/' :: (n ++ ('>' :: tail))) = false := rfl
  have hpre5 : "?".data.isPrefixOf ('/' :: (n ++ ('>' :: tail))) = false := rfl
  have hpre6 : "/".data.isPrefixOf ('/' :: (n ++ ('>' :: tail))) = true :=
    isPrefixOf_append_self "/".data _
  have hsplit : splitOnce ">".data (n ++ ('>' :: tail)) = some (n, tail) := by
    have h0 := splitOnce_noHit ">".data (by decide) n tail hn
    rw [show (n ++ ">".data ++ tail) = n ++ ('>' :: tail) by simp] at h0
    exact h0
  have hemp : n.isEmpty = false := by
    cases n with
    | nil => simp at hne
    | cons a b => rfl
  simp only [parseOne, hpre1, hpre2, hpre3, hpre4, hpre5, hpre6, Bool.false_eq_true,
    reduceIte, List.drop_succ_cons, List.drop_zero, hsplit, hemp]

theorem parseOne_write_start (name : Str) (attrs : List (Str × Str)) (tail : Str)
    (hwf : wfEvent (.start name attrs) = true)
    (hdq : eventNoDQ (.start name attrs) = true) :
    parseOne (writeEvent (.start name attrs) ++ tail) = .ok (some (.start name attrs, tail)) := by
  simp only [wfEvent, Bool.and_eq_true, List.all_eq_true] at hwf
  obtain ⟨hn, hkeys⟩ := hwf
  have hk : ∀ a ∈ attrs, wfAttrKey a.1 = true := hkeys
  have hv : ∀ a ∈ attrs, ∀ c ∈ a.2, c ≠ '"' := by
    simp only [eventNoDQ, List.all_eq_true] at hdq
    intro a ha c hc
    have h7 := hdq a ha c hc
    simpa using h7
  obtain ⟨hne, hchars, hlastn, hheadn⟩ := wfName_facts name hn
  obtain ⟨nh, name2, rfl⟩ : ∃ nh n2, name = nh :: n2 := by
    cases name with
    | nil => exact absurd rfl hne
    | cons a b => exact ⟨a, b, rfl⟩
  obtain ⟨hh1, hh2, hh3⟩ := hheadn nh (by simp)
  obtain ⟨-, hq1, hq2, hq3⟩ := hchars nh (by simp)
  have hshape : writeEvent (.start (nh :: name2) attrs) ++ tail =
      '<' :: nh :: (name2 ++ (attrs.flatMap writeAttr ++ ('>' :: tail))) := by
    simp [writeEvent, writeStartLike]
  rw [hshape]
  have hp1 : "!--".data.isPrefixOf
      (nh :: (name2 ++ (attrs.flatMap writeAttr ++ ('>' :: tail)))) = false :=
    isPrefixOf_cons_ne '!' "--".data nh _ hh1
  have hp2 : "![CDATA[".data.isPrefixOf
      (nh :: (name2 ++ (attrs.flatMap writeAttr ++ ('>' :: tail)))) = false :=
    isPrefixOf_cons_ne '!' "[CDATA[".data nh _ hh1
  have hp3 : "!DOCTYPE".data.isPrefixOf
      (nh :: (name2 ++ (attrs.flatMap writeAttr ++ ('>' :: tail)))) = false :=
    isPrefixOf_cons_ne '!' "DOCTYPE".data nh _ hh1
  have hp4 : "!".data.isPrefixOf
      (nh :: (name2 ++ (attrs.flatMap writeAttr ++ ('>' :: tail)))) = false :=
    isPrefixOf_cons_ne '!' [] nh _ hh1
  have hp5 : "?".data.isPrefixOf
      (nh :: (name2 ++ (attrs.flatMap writeAttr ++ ('>' :: tail)))) = false :=
    isPrefixOf_cons_ne '?' [] nh _ hh2
  have hp6 : "/".data.isPrefixOf
      (nh :: (name2 ++ (attrs.flatMap writeAttr ++ ('>' :: tail)))) = false :=
    isPrefixOf_cons_ne '/' [] nh _ hh3
  have hchars2 : ∀ c ∈ nh :: name2, c ≠ '>' ∧ c ≠ '"' ∧ c ≠ '\'' := by
    intro c hc
    have h6 := hchars c hc
    exact ⟨h6.2.2.2, h6.2.1, h6.2.2.1⟩
  have hs2 := scanTag_attrs attrs hk hv ('>' :: tail)
  rw [scanTag_gt] at hs2
  have hs1 := scanTag_pass (nh :: name2) hchars2 (attrs.flatMap writeAttr ++ ('>' :: tail))
  rw [hs2] at hs1
  have hscan : scanTag none (nh :: (name2 ++ (attrs.flatMap writeAttr ++ ('>' :: tail)))) =
      some ((nh :: name2) ++ attrs.flatMap writeAttr, tail) := by
    rw [show (nh :: (name2 ++ (attrs.flatMap writeAttr ++ ('>' :: tail)))) =
      ((nh :: name2) ++ (attrs.flatMap writeAttr ++ ('>' :: tail))) by simp]
    rw [hs1]
    simp
  have hptc : parseTagContent ((nh :: name2) ++ attrs.flatMap writeAttr) =
      .ok (.start (nh :: name2) attrs) := by
    have h0 := parseTagContent_write (nh :: name2) attrs false hn hk hv
    simpa using h0
  simp only [parseOne, hp1, hp2, hp3, hp4, hp5, hp6, Bool.false_eq_true, reduceIte,
    hscan, hptc]
  rfl

theorem parseOne_write_empty (name : Str) (attrs : List (Str × Str)) (tail : Str)
    (hwf : wfEvent (.empty name attrs) = true)
    (hdq : eventNoDQ (.empty name attrs) = true) :
    parseOne (writeEvent (.empty name attrs) ++ tail) = .ok (some (.empty name attrs, tail)) := by
  simp only [wfEvent, Bool.and_eq_true, List.all_eq_true] at hwf
  obtain ⟨hn, hkeys⟩ := hwf
  have hk : ∀ a ∈ attrs, wfAttrKey a.1 = true := hkeys
  have hv : ∀ a ∈ attrs, ∀ c ∈ a.2, c ≠ '"' := by
    simp only [eventNoDQ, List.all_eq_true] at hdq
    intro a ha c hc
    have h7 := hdq a ha c hc
    simpa using h7
  obtain ⟨hne, hchars, hlastn, hheadn⟩ := wfName_facts name hn
  obtain ⟨nh, name2, rfl⟩ : ∃ nh n2, name = nh :: n2 := by
    cases name with
    | nil => exact absurd rfl hne
    | cons a b => exact ⟨a, b, rfl⟩
  obtain ⟨hh1, hh2, hh3⟩ := hheadn nh (by simp)
  obtain ⟨-, hq1, hq2, hq3⟩ := hchars nh (by simp)
  have hshape : writeEvent (.empty (nh :: name2) attrs) ++ tail =
      '<' :: nh :: (name2 ++ (attrs.flatMap writeAttr ++ ('/' :: '>' :: tail))) := by
    simp [writeEvent, writeStartLike]
  rw [hshape]
  have hp1 : "!--".data.isPrefixOf
      (nh :: (name2 ++ (attrs.flatMap writeAttr ++ ('/' :: '>' :: tail)))) = false :=
    isPrefixOf_cons_ne '!' "--".data nh _ hh1
  have hp2 : "![CDATA[".data.isPrefixOf
      (nh :: (name2 ++ (attrs.flatMap writeAttr ++ ('/' :: '>' :: tail)))) = false :=
    isPrefixOf_cons_ne '!' "[CDATA[".data nh _ hh1
  have hp3 : "!DOCTYPE".data.isPrefixOf
      (nh :: (name2 ++ (attrs.flatMap writeAttr ++ ('/' :: '>' :: tail)))) = false :=
    isPrefixOf_cons_ne '!' "DOCTYPE".data nh _ hh1
  have hp4 : "!".data.isPrefixOf
      (nh :: (name2 ++ (attrs.flatMap writeAttr ++ ('/' :: '>' :: tail)))) = false :=
    isPrefixOf_cons_ne '!' [] nh _ hh1
  have hp5 : "?".data.isPrefixOf
      (nh :: (name2 ++ (attrs.flatMap writeAttr ++ ('/' :: '>' :: tail)))) = false :=
    isPrefixOf_cons_ne '?' [] nh _ hh2
  have hp6 : "/".data.isPrefixOf
      (nh :: (name2 ++ (attrs.flatMap writeAttr ++ ('/' :: '>' :: tail)))) = false :=
    isPrefixOf_cons_ne '/' [] nh _ hh3
  have hchars2 : ∀ c ∈ nh :: name2, c ≠ '>' ∧ c ≠ '"' ∧ c ≠ '\'' := by
    intro c hc
    have h6 := hchars c hc
    exact ⟨h6.2.2.2, h6.2.1, h6.2.2.1⟩
  have hslash : scanTag none ('/' :: '>' :: tail) = some (['/'], tail) := by
    simp [scanTag]
  have hs2 := scanTag_attrs attrs hk hv ('/' :: '>' :: tail)
  rw [hslash] at hs2
  have hs1 := scanTag_pass (nh :: name2) hchars2 (attrs.flatMap writeAttr ++ ('/' :: '>' :: tail))
  rw [hs2] at hs1
  have hscan : scanTag none (nh :: (name2 ++ (attrs.flatMap writeAttr ++ ('/' :: '>' :: tail)))) =
      some ((nh :: name2) ++ attrs.flatMap writeAttr ++ ['/'], tail) := by
    rw [show (nh :: (name2 ++ (attrs.flatMap writeAttr ++ ('/' :: '>' :: tail)))) =
      ((nh :: name2) ++ (attrs.flatMap writeAttr ++ ('/' :: '>' :: tail))) by simp]
    rw [hs1]
    simp
  have hptc : parseTagContent ((nh :: name2) ++ attrs.flatMap writeAttr ++ ['/']) =
      .ok (.empty (nh :: name2) attrs) := by
    have h0 := parseTagContent_write (nh :: name2) attrs true hn hk hv
    simpa using h0
  simp only [parseOne, hp1, hp2, hp3, hp4, hp5, hp6, Bool.false_eq_true, reduceIte,
    hscan, hptc]
  rfl

theorem not_contains_qgt_writeAttr (k v : Str)
    (hk : containsLit ['?', '>'] k = false) (hv : containsLit ['?', '>'] v = false) :
    containsLit ['?', '>'] (writeAttr (k, v)) = false := by
  have c1 : containsLit ['?', '>'] (v ++ ['"']) = false :=
    not_contains2_append '?' '>' v ['"'] hv (by decide)
      (fun _ h => by simp at h)
  have c2 : containsLit ['?', '>'] ('"' :: (v ++ ['"'])) = false := by
    have := not_contains2_append '?' '>' ['"'] (v ++ ['"']) (by decide) c1
      (fun h _ => by simp at h)
    simpa using this
  have c3 : containsLit ['?', '>'] ('=' :: '"' :: (v ++ ['"'])) = false := by
    have := not_contains2_append '?' '>' ['='] ('"' :: (v ++ ['"'])) (by decide) c2
      (fun h _ => by simp at h)
    simpa using this
  have c4 : containsLit ['?', '>'] (k ++ '=' :: '"' :: (v ++ ['"'])) = false :=
    not_contains2_append '?' '>' k _ hk c3 (fun _ h => by simp at h)
  have c5 : containsLit ['?', '>'] (' ' :: (k ++ '=' :: '"' :: (v ++ ['"']))) = false := by
    have := not_contains2_append '?' '>' [' '] (k ++ '=' :: '"' :: (v ++ ['"'])) (by decide) c4
      (fun h _ => by simp at h)
    simpa using this
  have hsh : writeAttr (k, v) = ' ' :: (k ++ '=' :: '"' :: (v ++ ['"'])) := by
    simp [writeAttr]
  rw [hsh]
  exact c5

theorem not_contains_qgt_flatMap (attrs : List (Str × Str))
    (h : ∀ a ∈ attrs, containsLit ['?', '>'] a.1 = false ∧ containsLit ['?', '>'] a.2 = false) :
    containsLit ['?', '>'] (attrs.flatMap writeAttr) = false := by
  induction attrs with
  | nil => decide
  | cons a as ih =>
    rw [show ((a :: as).flatMap writeAttr) = writeAttr a ++ as.flatMap writeAttr from rfl]
    obtain ⟨k, v⟩ := a
    refine not_contains2_append '?' '>' _ _
      (not_contains_qgt_writeAttr k v (h (k, v) (by simp)).1 (h (k, v) (by simp)).2)
      (ih (fun x hx => h x (by simp [hx]))) ?_
    intro hlast _
    rw [show writeAttr (k, v) = (' ' :: (k ++ '=' :: '"' :: v)) ++ ['"'] by simp [writeAttr],
      List.getLast?_concat] at hlast
    simp at hlast

theorem parseDecl_write (v1 : Str) (others : List (Str × Str))
    (hkeys : ∀ a ∈ (("version".data, v1) :: others : List (Str × Str)), wfAttrKey a.1 = true)
    (hvals : ∀ a ∈ (("version".data, v1) :: others : List (Str × Str)), ∀ c ∈ a.2, c ≠ '"') :
    parseDecl ("xml".data ++ (("version".data, v1) :: others : List (Str × Str)).flatMap writeAttr) =
      Except.ok (.decl v1 (others.lookup "encoding".data) (others.lookup "standalone".data)) := by
  have hdrop3 : ("xml".data ++ (("version".data, v1) :: others :
      List (Str × Str)).flatMap writeAttr).drop 3 =
      (("version".data, v1) :: others : List (Str × Str)).flatMap writeAttr :=
    List.drop_left "xml".data _
  have hfuel : (("version".data, v1) :: others : List (Str × Str)).length <
      ("xml".data ++ (("version".data, v1) :: others :
        List (Str × Str)).flatMap writeAttr).length := by
    have h1 := flatMap_writeAttr_length (("version".data, v1) :: others)
    rw [List.length_append]
    have h2 : ("xml".data : Str).length = 3 := rfl
    omega
  have hround := parseAttrs_roundtrip (("version".data, v1) :: others)
    (("xml".data ++ (("version".data, v1) :: others :
      List (Str × Str)).flatMap writeAttr).length) hkeys hvals hfuel
  simp only [parseDecl, hdrop3, hround]
  rfl

theorem parseOne_write_declCore (v : Str) (e st : Option Str) (tail : Str)
    (LA : List (Str × Str)) (hne : LA ≠ [])
    (hshape : writeEvent (.decl v e st) ++ tail =
      '<' :: '?' :: (("xml".data ++ LA.flatMap writeAttr) ++ ('?' :: '>' :: tail)))
    (hL : ∀ a ∈ LA, containsLit ['?', '>'] a.1 = false ∧ containsLit ['?', '>'] a.2 = false)
    (hpd : parseDecl ("xml".data ++ LA.flatMap writeAttr) = .ok (.decl v e st)) :
    parseOne (writeEvent (.decl v e st) ++ tail) = .ok (some (.decl v e st, tail)) := by
  rw [hshape]
  have hIn : containsLit ['?', '>'] ("xml".data ++ LA.flatMap writeAttr) = false := by
    refine not_contains2_append '?' '>' _ _ (by decide) (not_contains_qgt_flatMap _ hL) ?_
    intro h _
    rw [show (("xml".data : Str).getLast?) = some 'l' from rfl] at h
    exact absurd h (by decide)
  have hn : noHit "?>".data ("xml".data ++ LA.flatMap writeAttr) = true :=
    noHit_of_not_contains "?>".data (by decide) _ hIn
  have hp1 : "!--".data.isPrefixOf
      ('?' :: (("xml".data ++ LA.flatMap writeAttr) ++ ('?' :: '>' :: tail))) = false := rfl
  have hp2 : "![CDATA[".data.isPrefixOf
      ('?' :: (("xml".data ++ LA.flatMap writeAttr) ++ ('?' :: '>' :: tail))) = false := rfl
  have hp3 : "!DOCTYPE".data.isPrefixOf
      ('?' :: (("xml".data ++ LA.flatMap writeAttr) ++ ('?' :: '>' :: tail))) = false := rfl
  have hp4 : "!".data.isPrefixOf
      ('?' :: (("xml".data ++ LA.flatMap writeAttr) ++ ('?' :: '>' :: tail))) = false := rfl
  have hp5 : "?".data.isPrefixOf
      ('?' :: (("xml".data ++ LA.flatMap writeAttr) ++ ('?' :: '>' :: tail))) = true :=
    isPrefixOf_append_self "?".data _
  have hsplit : splitOnce "?>".data
      (("xml".data ++ LA.flatMap writeAttr) ++ ('?' :: '>' :: tail)) =
      some ("xml".data ++ LA.flatMap writeAttr, tail) := by
    have h0 := splitOnce_noHit "?>".data (by decide) ("xml".data ++ LA.flatMap writeAttr) tail hn
    rw [show (("xml".data ++ LA.flatMap writeAttr) ++ "?>".data ++ tail) =
      ("xml".data ++ LA.flatMap writeAttr) ++ ('?' :: '>' :: tail) by simp] at h0
    exact h0
  have hdecli : isDeclInner ("xml".data ++ LA.flatMap writeAttr) = true := by
    obtain ⟨a, as, rfl⟩ : ∃ a as, LA = a :: as := by
      cases LA with
      | nil => exact absurd rfl hne
      | cons a as => exact ⟨a, as, rfl⟩
    obtain ⟨r, hr⟩ := flatMap_writeAttr_head a as
    rw [hr]
    rfl
  simp only [parseOne, hp1, hp2, hp3, hp4, hp5, Bool.false_eq_true, reduceIte,
    List.drop_succ_cons, List.drop_zero, hsplit, hdecli, hpd]
  rfl

theorem parseOne_write_decl (v : Str) (e st : Option Str) (tail : Str)
    (hwf : wfEvent (.decl v e st) = true) (hdq : eventNoDQ (.decl v e st) = true) :
    parseOne (writeEvent (.decl v e st) ++ tail) = .ok (some (.decl v e st, tail)) := by
  cases e with
  | some enc =>
    cases st with
    | some sa =>
      simp only [wfEvent, Bool.and_eq_true, Bool.not_eq_true', and_true] at hwf
      obtain ⟨⟨hv1, he1⟩, hs1⟩ := hwf
      simp only [eventNoDQ, Bool.and_eq_true, List.all_eq_true, and_true] at hdq
      obtain ⟨⟨hv2, he2⟩, hs2⟩ := hdq
      have hkeys : ∀ a ∈ ([("version".data, v), ("encoding".data, enc),
          ("standalone".data, sa)] : List (Str × Str)), wfAttrKey a.1 = true := by
        intro a ha
        simp at ha
        rcases ha with rfl | rfl | rfl
        · exact (by decide : wfAttrKey "version".data = true)
        · exact (by decide : wfAttrKey "encoding".data = true)
        · exact (by decide : wfAttrKey "standalone".data = true)
      have hvals : ∀ a ∈ ([("version".data, v), ("encoding".data, enc),
          ("standalone".data, sa)] : List (Str × Str)), ∀ c ∈ a.2, c ≠ '"' := by
        intro a ha
        simp at ha
        rcases ha with rfl | rfl | rfl
        · intro c hc; simpa using hv2 c hc
        · intro c hc; simpa using he2 c hc
        · intro c hc; simpa using hs2 c hc
      refine parseOne_write_declCore v (some enc) (some sa) tail
        [("version".data, v), ("encoding".data, enc), ("standalone".data, sa)]
        (by simp) ?_ ?_ ?_
      · simp [writeEvent, writeAttr]
      · intro a ha
        simp at ha
        rcases ha with rfl | rfl | rfl
        · exact ⟨(by decide : containsLit ['?', '>'] "version".data = false), hv1⟩
        · exact ⟨(by decide : containsLit ['?', '>'] "encoding".data = false), he1⟩
        · exact ⟨(by decide : containsLit ['?', '>'] "standalone".data = false), hs1⟩
      · rw [parseDecl_write v [("encoding".data, enc), ("standalone".data, sa)] hkeys hvals]
        rfl
    | none =>
      simp only [wfEvent, Bool.and_eq_true, Bool.not_eq_true', and_true] at hwf
      obtain ⟨hv1, he1⟩ := hwf
      simp only [eventNoDQ, Bool.and_eq_true, List.all_eq_true, and_true] at hdq
      obtain ⟨hv2, he2⟩ := hdq
      have hkeys : ∀ a ∈ ([("version".data, v), ("encoding".data, enc)] :
          List (Str × Str)), wfAttrKey a.1 = true := by
        intro a ha
        simp at ha
        rcases ha with rfl | rfl
        · exact (by decide : wfAttrKey "version".data = true)
        · exact (by decide : wfAttrKey "encoding".data = true)
      have hvals : ∀ a ∈ ([("version".data, v), ("encoding".data, enc)] :
          List (Str × Str)), ∀ c ∈ a.2, c ≠ '"' := by
        intro a ha
        simp at ha
        rcases ha with rfl | rfl
        · intro c hc; simpa using hv2 c hc
        · intro c hc; simpa using he2 c hc
      refine parseOne_write_declCore v (some enc) none tail
        [("version".data, v), ("encoding".data, enc)] (by simp) ?_ ?_ ?_
      · simp [writeEvent, writeAttr]
      · intro a ha
        simp at ha
        rcases ha with rfl | rfl
        · exact ⟨(by decide : containsLit ['?', '>'] "version".data = false), hv1⟩
        · exact ⟨(by decide : containsLit ['?', '>'] "encoding".data = false), he1⟩
      · rw [parseDecl_write v [("encoding".data, enc)] hkeys hvals]
        rfl
  | none =>
    cases st with
    | some sa =>
      simp only [wfEvent, Bool.and_eq_true, Bool.not_eq_true', and_true, true_and] at hwf
      obtain ⟨hv1, hs1⟩ := hwf
      simp only [eventNoDQ, Bool.and_eq_true, List.all_eq_true, and_true, true_and] at hdq
      obtain ⟨hv2, hs2⟩ := hdq
      have hkeys : ∀ a ∈ ([("version".data, v), ("standalone".data, sa)] :
          List (Str × Str)), wfAttrKey a.1 = true := by
        intro a ha
        simp at ha
        rcases ha with rfl | rfl
        · exact (by decide : wfAttrKey "version".data = true)
        · exact (by decide : wfAttrKey "standalone".data = true)
      have hvals : ∀ a ∈ ([("version".data, v), ("standalone".data, sa)] :
          List (Str × Str)), ∀ c ∈ a.2, c ≠ '"' := by
        intro a ha
        simp at ha
        rcases ha with rfl | rfl
        · intro c hc; simpa using hv2 c hc
        · intro c hc; simpa using hs2 c hc
      refine parseOne_write_declCore v none (some sa) tail
        [("version".data, v), ("standalone".data, sa)] (by simp) ?_ ?_ ?_
      · simp [writeEvent, writeAttr]
      · intro a ha
        simp at ha
        rcases ha with rfl | rfl
        · exact ⟨(by decide : containsLit ['?', '>'] "version".data = false), hv1⟩
        · exact ⟨(by decide : containsLit ['?', '>'] "standalone".data = false), hs1⟩
      · rw [parseDecl_write v [("standalone".data, sa)] hkeys hvals]
        rfl
    | none =>
      simp only [wfEvent, Bool.and_eq_true, Bool.not_eq_true', and_true] at hwf
      simp only [eventNoDQ, Bool.and_eq_true, List.all_eq_true, and_true] at hdq
      have hkeys : ∀ a ∈ ([("version".data, v)] : List (Str × Str)),
          wfAttrKey a.1 = true := by
        intro a ha
        simp at ha
        rcases ha with rfl
        exact (by decide : wfAttrKey "version".data = true)
      have hvals : ∀ a ∈ ([("version".data, v)] : List (Str × Str)),
          ∀ c ∈ a.2, c ≠ '"' := by
        intro a ha
        simp at ha
        rcases ha with rfl
        intro c hc; simpa using hdq c hc
      refine parseOne_write_declCore v none none tail
        [("version".data, v)] (by simp) ?_ ?_ ?_
      · simp [writeEvent, writeAttr]
      · intro a ha
        simp at ha
        rcases ha with rfl
        exact ⟨(by decide : containsLit ['?', '>'] "version".data = false), hwf⟩
      · rw [parseDecl_write v ([] : List (Str × Str)) hkeys hvals]
        rfl

theorem parseOne_write_text (t tail : Str) (hwf : wfEvent (.text t) = true)
    (htail : tail = [] ∨ ∃ u, tail = '<' :: u) :
    parseOne (writeEvent (.text t) ++ tail) = .ok (some (.text t, tail)) := by
  have htne : t ≠ [] := by
    simp only [wfEvent, Bool.not_eq_true'] at hwf
    intro hnil
    rw [hnil] at hwf
    simp at hwf
  obtain ⟨c, r, hesc⟩ : ∃ c r, escapeText t = c :: r := by
    cases hx : escapeText t with
    | nil => exact absurd hx (escapeText_ne_nil t htne)
    | cons a b => exact ⟨a, b, rfl⟩
  have hmem : ∀ x ∈ c :: r, x ≠ '<' := by
    intro x hx
    exact escapeText_no_lt t x (by rw [hesc]; exact hx)
  have hc : c ≠ '<' := hmem c (by simp)
  rw [show writeEvent (.text t) ++ tail = c :: (r ++ tail) by
    rw [show writeEvent (.text t) = escapeText t from rfl, hesc]; simp]
  have hrun : (c :: (r ++ tail)).takeWhile (fun x => decide (x ≠ '<')) = c :: r := by
    rcases htail with rfl | ⟨u, rfl⟩
    · rw [show c :: (r ++ ([] : Str)) = c :: r by simp]
      exact takeWhile_all _ (c :: r) (fun x hx => by simp [hmem x hx])
    · rw [show c :: (r ++ ('<' :: u)) = (c :: r) ++ '<' :: u from rfl]
      exact takeWhile_middle _ '<' (by simp) (c :: r) u (fun x hx => by simp [hmem x hx])
  have hune : unescape (c :: r).length (c :: r) = .ok t := by
    have h0 := unescape_escape t (escapeText t).length le_rfl
    rw [hesc] at h0
    exact h0
  have hdrop : (c :: (r ++ tail)).drop (c :: r).length = tail :=
    List.drop_left (c :: r) tail
  simp only [parseOne, hc, hrun, hune, hdrop]
  split
  · rename_i heq
    exact absurd heq (by simp)
  · rename_i rest heq
    rw [List.cons.injEq] at heq
    exact absurd heq.1 hc
  · rfl

theorem writeEvent_head_lt (ev : XmlEvent) (h : isTextEvent ev = false) :
    ∃ w, writeEvent ev = '<' :: w := by
  cases ev with
  | decl v e st => exact ⟨_, rfl⟩
  | start n a => exact ⟨_, rfl⟩
  | endE n => exact ⟨_, rfl⟩
  | empty n a => exact ⟨_, rfl⟩
  | text t => simp [isTextEvent] at h
  | cdata t => exact ⟨_, rfl⟩
  | comment t => exact ⟨_, rfl⟩
  | pi c => exact ⟨_, rfl⟩
  | doctype t => exact ⟨_, rfl⟩

theorem writeEvent_length_pos (ev : XmlEvent) (h : wfEvent ev = true) :
    1 ≤ (writeEvent ev).length := by
  cases ev with
  | text t =>
    have htne : t ≠ [] := by
      simp only [wfEvent, Bool.not_eq_true'] at h
      intro hnil
      rw [hnil] at h
      simp at h
    have := escapeText_ne_nil t htne
    have hpos : 0 < (escapeText t).length := List.length_pos.mpr this
    simpa [writeEvent] using hpos
  | decl v e st => simp [writeEvent]
  | start n a => simp [writeEvent, writeStartLike]
  | endE n => simp [writeEvent]
  | empty n a => simp [writeEvent, writeStartLike]
  | cdata t => simp [writeEvent]
  | comment t => simp [writeEvent]
  | pi c => simp [writeEvent]
  | doctype t => simp [writeEvent]

theorem parseOne_write (ev : XmlEvent) (tail : Str)
    (hwf : wfEvent ev = true) (hdq : eventNoDQ ev = true)
    (htail : isTextEvent ev = true → tail = [] ∨ ∃ u, tail = '<' :: u) :
    parseOne (writeEvent ev ++ tail) = .ok (some (ev, tail)) := by
  cases ev with
  | decl v e st => exact parseOne_write_decl v e st tail hwf hdq
  | start n a => exact parseOne_write_start n a tail hwf hdq
  | endE n => exact parseOne_write_endE n tail hwf
  | empty n a => exact parseOne_write_empty n a tail hwf hdq
  | text t => exact parseOne_write_text t tail hwf (htail rfl)
  | cdata t => exact parseOne_write_cdata t tail hwf
  | comment t => exact parseOne_write_comment t tail hwf
  | pi c => exact parseOne_write_pi c tail hwf
  | doctype t => exact parseOne_write_doctype t tail hwf

theorem parseEvents_write :
    ∀ (evs : List XmlEvent) (fuel : Nat),
      wfSeq evs = true → (∀ e ∈ evs, eventNoDQ e = true) →
      (writeEvents evs).length < fuel →
      parseEvents fuel (writeEvents evs) = .ok evs := by
  intro evs
  induction evs with
  | nil =>
    intro fuel _ _ hf
    cases fuel with
    | zero => omega
    | succ f => rfl
  | cons ev evs2 ih =>
    intro fuel hwf hdq hf
    cases fuel with
    | zero => omega
    | succ f =>
      have hshape : writeEvents (ev :: evs2) = writeEvent ev ++ writeEvents evs2 := rfl
      rw [hshape] at hf ⊢
      have hwfe : wfEvent ev = true ∧ wfSeq evs2 = true ∧
          (∀ e2 r2, evs2 = e2 :: r2 → isTextEvent ev = true → isTextEvent e2 = false) := by
        cases evs2 with
        | nil =>
          refine ⟨hwf, rfl, ?_⟩
          intro e2 r2 hcontra
          simp at hcontra
        | cons e2 r2 =>
          simp only [wfSeq, Bool.and_eq_true, Bool.not_eq_true'] at hwf
          refine ⟨hwf.1.1, ?_, ?_⟩
          · exact hwf.2
          · intro e3 r3 heq ht
            rw [List.cons.injEq] at heq
            have hb := hwf.1.2
            rw [ht] at hb
            simp only [Bool.true_and] at hb
            rw [← heq.1]
            exact hb
      have htail : isTextEvent ev = true →
          writeEvents evs2 = [] ∨ ∃ u, writeEvents evs2 = '<' :: u := by
        intro ht
        cases evs2 with
        | nil => exact Or.inl rfl
        | cons e2 r2 =>
          right
          have he2 := hwfe.2.2 e2 r2 rfl ht
          obtain ⟨w, hw⟩ := writeEvent_head_lt e2 he2
          refine ⟨w ++ writeEvents r2, ?_⟩
          rw [show writeEvents (e2 :: r2) = writeEvent e2 ++ writeEvents r2 from rfl, hw]
          rfl
      have h1 := parseOne_write ev (writeEvents evs2) hwfe.1 (hdq ev (by simp)) htail
      have hlen1 := writeEvent_length_pos ev hwfe.1
      have hflen : (writeEvents evs2).length < f := by
        rw [List.length_append] at hf
        omega
      simp only [parseEvents, h1]
      show (parseEvents f (writeEvents evs2)).map (ev :: ·) = Except.ok (ev :: evs2)
      rw [ih f hwfe.2.1 (fun e he => hdq e (by simp [he])) hflen]
      rfl

/-! ### parser output well-formedness -/

theorem nil_isPrefixOf (l : Str) : ([] : Str).isPrefixOf l = true := by
  cases l <;> rfl

theorem isPrefixOf_one_head (p : Char) (h : Char) (x : Str)
    (hf : [p].isPrefixOf (h :: x) = false) : h ≠ p := by
  intro hhp
  rw [show ([p].isPrefixOf (h :: x)) = ((p == h) && ([] : Str).isPrefixOf x)
    from rfl] at hf
  rw [nil_isPrefixOf, Bool.and_true] at hf
  rw [hhp] at hf
  simp at hf

theorem unescape_ne_nil :
    ∀ (fuel : Nat) (s t : Str), s ≠ [] → unescape fuel s = .ok t → t ≠ [] := by
  intro fuel
  cases fuel with
  | zero =>
    intro s t hs h
    cases s with
    | nil => exact absurd rfl hs
    | cons c r => exact absurd h (by simp [unescape])
  | succ f =>
    intro s t hs h
    cases s with
    | nil => exact absurd rfl hs
    | cons c r =>
      by_cases hc : c = '&'
      · subst hc
        simp only [unescape] at h
        cases hsp : splitOnce ";".data r with
        | none => simp only [hsp] at h; exact absurd h (by simp)
        | some pr =>
          obtain ⟨body, after⟩ := pr
          simp only [hsp] at h
          cases hec : entityChar body with
          | none => simp only [hec] at h; exact absurd h (by simp)
          | some ch =>
            simp only [hec] at h
            cases hu : unescape f after with
            | error e => simp only [hu] at h; exact absurd h (by simp [Except.map])
            | ok t2 =>
              simp only [hu] at h
              have : ch :: t2 = t := by
                simpa [Except.map] using h
              rw [← this]
              simp
      · rw [unescape_cons_ne f c r hc] at h
        cases hu : unescape f r with
        | error e => rw [hu] at h; exact absurd h (by simp [Except.map])
        | ok t2 =>
          rw [hu] at h
          have : c :: t2 = t := by
            simpa [Except.map] using h
          rw [← this]
          simp

theorem lookup_mem (k : Str) (l : List (Str × Str)) (v : Str)
    (h : l.lookup k = some v) : (k, v) ∈ l := by
  induction l with
  | nil => simp [List.lookup] at h
  | cons a as ih =>
    obtain ⟨k2, v2⟩ := a
    simp only [List.lookup] at h
    cases hbk : (k == k2) with
    | true =>
      simp only [hbk] at h
      have hv : v2 = v := by simpa using h
      have hkk : k = k2 := by simpa using hbk
      simp [hkk, hv]
    | false =>
      simp only [hbk] at h
      exact List.mem_cons_of_mem _ (ih h)

theorem parseAttrsGo_spec :
    ∀ (fuel : Nat) (s : Str) (attrs : List (Str × Str)),
      parseAttrsGo fuel s = .ok attrs →
      ∀ a ∈ attrs, wfAttrKey a.1 = true ∧ a.2 <:+: s := by
  intro fuel
  induction fuel with
  | zero =>
    intro s attrs h
    exact absurd h (by simp [parseAttrsGo])
  | succ f ih =>
    intro s attrs h a ha
    cases hA : s.dropWhile isWs with
    | nil =>
      simp only [parseAttrsGo, hA] at h
      obtain rfl : ([] : List (Str × Str)) = attrs := Except.ok.inj h
      simp at ha
    | cons c1 srest =>
      simp only [parseAttrsGo, hA] at h
      cases hke : ((c1 :: srest).takeWhile (fun c => decide (c ≠ '=' ∧ (!isWs c) = true))).isEmpty with
      | true =>
        simp only [hke, if_true] at h
        exact absurd h (by simp)
      | false =>
        simp only [hke, Bool.false_eq_true, if_false] at h
        cases hany : ((c1 :: srest).takeWhile
            (fun c => decide (c ≠ '=' ∧ (!isWs c) = true))).any
            (fun c => decide (c = '"' ∨ c = '\'' ∨ c = '>')) with
        | true =>
          simp only [hany, if_true] at h
          exact absurd h (by simp)
        | false =>
          simp only [hany, Bool.false_eq_true, if_false] at h
          have hkw : wfAttrKey ((c1 :: srest).takeWhile
              (fun c => decide (c ≠ '=' ∧ (!isWs c) = true))) = true := by
            simp only [wfAttrKey, Bool.and_eq_true]
            constructor
            · rw [Bool.not_eq_true']
              exact hke
            · rw [List.all_eq_true]
              intro c hc
              have h1 := List.mem_takeWhile_imp hc
              rw [List.any_eq_false] at hany
              have h2 := hany c hc
              simp only [decide_eq_true_eq, not_or] at h1 h2
              simp [h1.1, h1.2, h2.1, h2.2.1, h2.2.2]
          have hsuf0 : (c1 :: srest) <:+ s := by
            rw [← hA]
            exact List.dropWhile_suffix isWs
          split at h
          · rename_i s2 heqS1
            split at h
            · rename_i q s4 heqS2
              have hsufs4 : s4 <:+ s := by
                have t1 : List.drop ((c1 :: srest).takeWhile
                    (fun c => decide (c ≠ '=' ∧ (!isWs c) = true))).length (c1 :: srest) <:+
                    (c1 :: srest) := List.drop_suffix _ _
                have t2 : ('=' :: s2 : Str) <:+ List.drop ((c1 :: srest).takeWhile
                    (fun c => decide (c ≠ '=' ∧ (!isWs c) = true))).length (c1 :: srest) := by
                  rw [← heqS1]
                  exact List.dropWhile_suffix isWs
                have t3 : s2 <:+ ('=' :: s2 : Str) := ⟨['='], rfl⟩
                have t4 : (q :: s4 : Str) <:+ s2 := by
                  rw [← heqS2]
                  exact List.dropWhile_suffix isWs
                have t5 : s4 <:+ (q :: s4 : Str) := ⟨[q], rfl⟩
                exact (((((t5.trans t4).trans t3).trans t2).trans t1).trans hsuf0)
              split at h
              · rename_i hq
                split at h
                · rename_i head after heqS3
                  have hsufafter : after <:+ s4 := by
                    have u1 : List.drop ((s4.takeWhile (fun x => decide (x ≠ q))).length) s4 <:+ s4 :=
                      List.drop_suffix _ _
                    have u2 : after <:+ (head :: after : Str) := ⟨[head], rfl⟩
                    rw [heqS3] at u1
                    exact u2.trans u1
                  split at h
                  · -- after = []
                    cases hrec : parseAttrsGo f [] with
                    | error e =>
                      simp only [hrec] at h
                      exact absurd h (by simp [Except.map])
                    | ok attrs2 =>
                      simp only [hrec] at h
                      have hcons : ((c1 :: srest).takeWhile
                          (fun c => decide (c ≠ '=' ∧ (!isWs c) = true)),
                          s4.takeWhile (fun x => decide (x ≠ q))) :: attrs2 = attrs := by
                        simpa [Except.map] using h
                      subst hcons
                      rcases List.mem_cons.mp ha with rfl | hmem
                      · refine ⟨hkw, ?_⟩
                        exact (List.takeWhile_prefix _).isInfix.trans hsufs4.isInfix
                      · have h9 := ih [] attrs2 hrec a hmem
                        refine ⟨h9.1, ?_⟩
                        have : a.2 = [] := by
                          have := h9.2
                          rwa [List.infix_nil] at this
                        rw [this]
                        exact List.nil_infix
                  · -- after = cafter :: tail
                    rename_i cafter tail
                    split at h
                    · -- isWs cafter
                      cases hrec : parseAttrsGo f (cafter :: tail) with
                      | error e =>
                        simp only [hrec] at h
                        exact absurd h (by simp [Except.map])
                      | ok attrs2 =>
                        simp only [hrec] at h
                        have hcons : ((c1 :: srest).takeWhile
                            (fun c => decide (c ≠ '=' ∧ (!isWs c) = true)),
                            s4.takeWhile (fun x => decide (x ≠ q))) :: attrs2 = attrs := by
                          simpa [Except.map] using h
                        subst hcons
                        rcases List.mem_cons.mp ha with rfl | hmem
                        · refine ⟨hkw, ?_⟩
                          exact (List.takeWhile_prefix _).isInfix.trans hsufs4.isInfix
                        · have h9 := ih (cafter :: tail) attrs2 hrec a hmem
                          refine ⟨h9.1, ?_⟩
                          exact h9.2.trans (hsufafter.trans hsufs4).isInfix
                    · exact absurd h (by simp)
                · exact absurd h (by simp)
              · exact absurd h (by simp)
            · exact absurd h (by simp)
          · exact absurd h (by simp)

theorem head?_of_takeWhile_ne_nil (p : Char → Bool) (body : Str)
    (h : body.takeWhile p ≠ []) :
    (body.takeWhile p).head? = body.head? := by
  cases body with
  | nil => simp at h
  | cons c r =>
    cases hp : p c with
    | true => rw [List.takeWhile_cons_of_pos hp]; rfl
    | false =>
      rw [List.takeWhile_cons_of_neg (by simp [hp])] at h
      exact absurd rfl h

theorem wfName_of_checks (body : Str)
    (hhead : ∀ ch, body.head? = some ch → ch ≠ '!' ∧ ch ≠ '?' ∧ ch ≠ '/')
    (hne : ¬((body.takeWhile (fun c => !isWs c)).isEmpty = true))
    (hinv : ¬(((body.takeWhile (fun c => !isWs c)).any
        (fun c => decide (c = '"' ∨ c = '\'' ∨ c = '>'))) = true ∨
        (body.takeWhile (fun c => !isWs c)).getLast? = some '/')) :
    wfName (body.takeWhile (fun c => !isWs c)) = true := by
  push_neg at hinv
  obtain ⟨hany, hlast⟩ := hinv
  have hany2 : ((body.takeWhile (fun c => !isWs c)).any
      (fun c => decide (c = '"' ∨ c = '\'' ∨ c = '>'))) = false := by
    cases hx : ((body.takeWhile (fun c => !isWs c)).any
        (fun c => decide (c = '"' ∨ c = '\'' ∨ c = '>')))
    · rfl
    · exact absurd hx hany
  have hne2 : (body.takeWhile (fun c => !isWs c)).isEmpty = false := by
    cases hx : (body.takeWhile (fun c => !isWs c)).isEmpty
    · rfl
    · exact absurd hx hne
  have hnn : body.takeWhile (fun c => !isWs c) ≠ [] := by
    intro hnil
    rw [hnil] at hne2
    simp at hne2
  simp only [wfName, Bool.and_eq_true]
  refine ⟨⟨⟨?_, ?_⟩, ?_⟩, ?_⟩
  · rw [Bool.not_eq_true']
    exact hne2
  · rw [List.all_eq_true]
    intro c hc
    have h1 := List.mem_takeWhile_imp hc
    rw [List.any_eq_false] at hany2
    have h2 := hany2 c hc
    simp only [decide_eq_true_eq, not_or] at h2
    simp [h1, h2.1, h2.2.1, h2.2.2]
  · simp [hlast]
  · obtain ⟨nh, nt, hnh⟩ : ∃ nh nt, body.takeWhile (fun c => !isWs c) = nh :: nt := by
      cases hx : body.takeWhile (fun c => !isWs c) with
      | nil => exact absurd hx hnn
      | cons a b => exact ⟨a, b, rfl⟩
    have hh := head?_of_takeWhile_ne_nil (fun c => !isWs c) body hnn
    rw [hnh] at hh
    have h3 := hhead nh hh.symm
    rw [hnh]
    simp only [List.head?]
    simp [h3.1, h3.2.1, h3.2.2]

theorem dropLast_head? (content : Str) (h : content.dropLast ≠ []) :
    content.dropLast.head? = content.head? := by
  cases content with
  | nil => simp at h
  | cons x xs =>
    cases xs with
    | nil => simp at h
    | cons y t => rfl

theorem drop_takeWhile (p : Char → Bool) :
    ∀ (s : Str), s.drop (s.takeWhile p).length = [] ∨
      ∃ ch u, s.drop (s.takeWhile p).length = ch :: u ∧ p ch = false := by
  intro s
  induction s with
  | nil => exact Or.inl rfl
  | cons c s2 ih =>
    cases hp : p c with
    | true =>
      rw [List.takeWhile_cons_of_pos hp]
      simpa using ih
    | false =>
      rw [List.takeWhile_cons_of_neg (by simp [hp])]
      exact Or.inr ⟨c, s2, rfl, hp⟩

theorem parseTagContent_wf (content : Str) (ev : XmlEvent)
    (hhead : ∀ ch, content.head? = some ch → ch ≠ '!' ∧ ch ≠ '?' ∧ ch ≠ '/')
    (h : parseTagContent content = .ok ev) :
    wfEvent ev = true ∧ isTextEvent ev = false := by
  simp only [parseTagContent] at h
  by_cases hP : content.getLast? = some '/'
  · simp only [if_pos hP] at h
    split at h
    · exact absurd h (by simp)
    · split at h
      · exact absurd h (by simp)
      · rename_i hne hinv
        cases hpa : parseAttrsGo content.dropLast.length
            (content.dropLast.drop
              (content.dropLast.takeWhile (fun c => !isWs c)).length) with
        | error e => simp only [hpa] at h; exact absurd h (by simp [Except.map])
        | ok attrs =>
          simp only [hpa] at h
          have hev : XmlEvent.empty (content.dropLast.takeWhile (fun c => !isWs c)) attrs
              = ev := by
            simpa [Except.map] using h
          subst hev
          have hnn : content.dropLast.takeWhile (fun c => !isWs c) ≠ [] := by
            intro hnil
            rw [hnil] at hne
            simp at hne
          have hbody : content.dropLast ≠ [] := by
            intro hnil
            rw [hnil] at hnn
            simp at hnn
          have hwn := wfName_of_checks content.dropLast
            (fun ch hch => hhead ch ((dropLast_head? content hbody) ▸ hch)) hne hinv
          refine ⟨?_, rfl⟩
          simp only [wfEvent, Bool.and_eq_true]
          refine ⟨hwn, ?_⟩
          rw [List.all_eq_true]
          intro a ha
          exact (parseAttrsGo_spec _ _ attrs hpa a ha).1
  · simp only [if_neg hP] at h
    split at h
    · exact absurd h (by simp)
    · split at h
      · exact absurd h (by simp)
      · rename_i hne hinv
        cases hpa : parseAttrsGo content.length
            (content.drop (content.takeWhile (fun c => !isWs c)).length) with
        | error e => simp only [hpa] at h; exact absurd h (by simp [Except.map])
        | ok attrs =>
          simp only [hpa] at h
          have hev : XmlEvent.start (content.takeWhile (fun c => !isWs c)) attrs = ev := by
            simpa [Except.map] using h
          subst hev
          have hwn := wfName_of_checks content hhead hne hinv
          refine ⟨?_, rfl⟩
          simp only [wfEvent, Bool.and_eq_true]
          refine ⟨hwn, ?_⟩
          rw [List.all_eq_true]
          intro a ha
          exact (parseAttrsGo_spec _ _ attrs hpa a ha).1

theorem parseDecl_wf (inner : Str) (ev : XmlEvent)
    (hni : containsLit "?>".data inner = false)
    (h : parseDecl inner = .ok ev) :
    wfEvent ev = true ∧ isTextEvent ev = false := by
  have hPD : parseDecl inner =
      (match parseAttrsGo inner.length (inner.drop 3) with
       | .error e => .error e
       | .ok attrs =>
         match attrs with
         | (k, v1) :: others =>
           if k = "version".data then
             Except.ok (XmlEvent.decl v1 (others.lookup "encoding".data)
               (others.lookup "standalone".data))
           else .error "decl version"
         | [] => .error "decl version") := by
    cases hx : parseAttrsGo inner.length (inner.drop 3) with
    | error e => simp only [parseDecl, hx]; rfl
    | ok attrs => simp only [parseDecl, hx]; rfl
  rw [hPD] at h
  cases hpa : parseAttrsGo inner.length (inner.drop 3) with
  | error e => simp only [hpa] at h; exact absurd h (by simp)
  | ok attrs =>
    simp only [hpa] at h
    have hvinf : ∀ a ∈ attrs, containsLit "?>".data a.2 = false := by
      intro a ha
      have h1 := (parseAttrsGo_spec _ _ attrs hpa a ha).2
      have h2 : a.2 <:+: inner := h1.trans (List.drop_suffix 3 inner).isInfix
      cases hx : containsLit "?>".data a.2 with
      | false => rfl
      | true =>
        have := containsLit_of_infix "?>".data a.2 inner h2 hx
        rw [this] at hni
        exact absurd hni (by simp)
    split at h
    · rename_i k v1 others
      split at h
      · have hev : XmlEvent.decl v1 (others.lookup "encoding".data)
            (others.lookup "standalone".data) = ev := Except.ok.inj h
        subst hev
        refine ⟨?_, rfl⟩
        have hv1 : containsLit "?>".data v1 = false := hvinf (k, v1) (by simp)
        simp only [wfEvent, Bool.and_eq_true, Bool.not_eq_true']
        refine ⟨⟨hv1, ?_⟩, ?_⟩
        · cases hlk : others.lookup "encoding".data with
          | none => rfl
          | some enc =>
            have hm := lookup_mem _ _ _ hlk
            have := hvinf ("encoding".data, enc) (by simp [hm])
            simpa using this
        · cases hlk : others.lookup "standalone".data with
          | none => rfl
          | some sa =>
            have hm := lookup_mem _ _ _ hlk
            have := hvinf ("standalone".data, sa) (by simp [hm])
            simpa using this
      · exact absurd h (by simp)
    · exact absurd h (by simp)

theorem parseOne_spec (s : Str) (ev : XmlEvent) (rest : Str)
    (h : parseOne s = .ok (some (ev, rest))) :
    wfEvent ev = true ∧
    (isTextEvent ev = true → rest = [] ∨ ∃ u, rest = '<' :: u) ∧
    (∀ u, s = '<' :: u → isTextEvent ev = false) := by
  cases s with
  | nil => exact absurd h (by simp [parseOne])
  | cons c s2 =>
    by_cases hlt : c = '<'
    · subst hlt
      simp only [parseOne] at h
      split at h
      · split at h
        · rename_i content after heq
          have h2 := Option.some.inj (Except.ok.inj h)
          have he : XmlEvent.comment content = ev := congrArg Prod.fst h2
          have hr : after = rest := congrArg Prod.snd h2
          subst he; subst hr
          have hni := (splitOnce_inv "-->".data (by decide) _ _ _ heq).2
          refine ⟨?_, ?_, ?_⟩
          · simp only [wfEvent, Bool.not_eq_true']
            exact noHit_not_contains "-->".data (by decide) content hni
          · intro ht; simp [isTextEvent] at ht
          · intro u _; rfl
        · exact absurd h (by simp)
      · split at h
        · split at h
          · rename_i content after heq
            have h2 := Option.some.inj (Except.ok.inj h)
            have he : XmlEvent.cdata content = ev := congrArg Prod.fst h2
            have hr : after = rest := congrArg Prod.snd h2
            subst he; subst hr
            have hni := (splitOnce_inv "]]>".data (by decide) _ _ _ heq).2
            refine ⟨?_, ?_, ?_⟩
            · simp only [wfEvent, Bool.not_eq_true']
              exact noHit_not_contains "]]>".data (by decide) content hni
            · intro ht; simp [isTextEvent] at ht
            · intro u _; rfl
          · exact absurd h (by simp)
        · split at h
          · split at h
            · rename_i content after heq
              have h2 := Option.some.inj (Except.ok.inj h)
              have he : XmlEvent.doctype content = ev := congrArg Prod.fst h2
              have hr : after = rest := congrArg Prod.snd h2
              subst he; subst hr
              have hni := (splitOnce_inv ">".data (by decide) _ _ _ heq).2
              refine ⟨?_, ?_, ?_⟩
              · simp only [wfEvent, Bool.not_eq_true']
                exact noHit_not_contains ">".data (by decide) content hni
              · intro ht; simp [isTextEvent] at ht
              · intro u _; rfl
            · exact absurd h (by simp)
          · split at h
            · exact absurd h (by simp)
            · split at h
              · split at h
                · rename_i inner after heq
                  have hni : containsLit "?>".data inner = false :=
                    noHit_not_contains "?>".data (by decide) inner
                      (splitOnce_inv "?>".data (by decide) _ _ _ heq).2
                  split at h
                  · cases hpd : parseDecl inner with
                    | error e =>
                      simp only [hpd] at h
                      exact absurd h (by simp [Except.map])
                    | ok dev =>
                      simp only [hpd] at h
                      have h3 : (some (dev, after) : Option (XmlEvent × Str)) =
                          some (ev, rest) := by
                        simpa [Except.map] using h
                      have h2 := Option.some.inj h3
                      have he : dev = ev := congrArg Prod.fst h2
                      have hr : after = rest := congrArg Prod.snd h2
                      subst he; subst hr
                      have hw := parseDecl_wf inner dev hni hpd
                      refine ⟨hw.1, ?_, ?_⟩
                      · intro ht
                        rw [hw.2] at ht
                        exact absurd ht (by simp)
                      · intro u _
                        exact hw.2
                  · rename_i hnd
                    have h2 := Option.some.inj (Except.ok.inj h)
                    have he : XmlEvent.pi inner = ev := congrArg Prod.fst h2
                    have hr : after = rest := congrArg Prod.snd h2
                    subst he; subst hr
                    refine ⟨?_, ?_, ?_⟩
                    · simp only [wfEvent, Bool.and_eq_true, Bool.not_eq_true']
                      refine ⟨hni, ?_⟩
                      cases hx : isDeclInner inner with
                      | false => rfl
                      | true => exact absurd hx hnd
                    · intro ht; simp [isTextEvent] at ht
                    · intro u _; rfl
                · exact absurd h (by simp)
              · split at h
                · split at h
                  · rename_i name after heq
                    split at h
                    · exact absurd h (by simp)
                    · rename_i hnemp
                      have h2 := Option.some.inj (Except.ok.inj h)
                      have he : XmlEvent.endE name = ev := congrArg Prod.fst h2
                      have hr : after = rest := congrArg Prod.snd h2
                      subst he; subst hr
                      have hni := (splitOnce_inv ">".data (by decide) _ _ _ heq).2
                      refine ⟨?_, ?_, ?_⟩
                      · simp only [wfEvent, Bool.and_eq_true, Bool.not_eq_true']
                        constructor
                        · cases hx : name.isEmpty with
                          | false => rfl
                          | true => exact absurd hx hnemp
                        · exact noHit_not_contains ">".data (by decide) name hni
                      · intro ht; simp [isTextEvent] at ht
                      · intro u _; rfl
                  · exact absurd h (by simp)
                · rename_i hn1 hn2 hn3 hn4 hn5 hn6
                  split at h
                  · rename_i content after heq
                    cases hptc : parseTagContent content with
                    | error e =>
                      simp only [hptc] at h
                      exact absurd h (by simp [Except.map])
                    | ok tev =>
                      simp only [hptc] at h
                      have h3 : (some (tev, after) : Option (XmlEvent × Str)) =
                          some (ev, rest) := by
                        simpa [Except.map] using h
                      have h2 := Option.some.inj h3
                      have he : tev = ev := congrArg Prod.fst h2
                      have hr : after = rest := congrArg Prod.snd h2
                      subst he; subst hr
                      have hshape := scanTag_shape s2 none content after heq
                      have hhead : ∀ ch, content.head? = some ch →
                          ch ≠ '!' ∧ ch ≠ '?' ∧ ch ≠ '/' := by
                        intro ch hch
                        obtain ⟨ctail, hct⟩ : ∃ ctail, content = ch :: ctail := by
                          cases content with
                          | nil => simp at hch
                          | cons x y =>
                            simp only [List.head?] at hch
                            exact ⟨y, by rw [Option.some.inj hch]⟩
                        have hs2 : s2 = ch :: (ctail ++ '>' :: after) := by
                          rw [hshape, hct]
                          rfl
                        refine ⟨?_, ?_, ?_⟩
                        · refine isPrefixOf_one_head '!' ch (ctail ++ '>' :: after) ?_
                          cases hx : ("!".data.isPrefixOf (ch :: (ctail ++ '>' :: after))) with
                          | false => rfl
                          | true =>
                            rw [hs2] at hn4
                            exact absurd hx hn4
                        · refine isPrefixOf_one_head '?' ch (ctail ++ '>' :: after) ?_
                          cases hx : ("?".data.isPrefixOf (ch :: (ctail ++ '>' :: after))) with
                          | false => rfl
                          | true =>
                            rw [hs2] at hn5
                            exact absurd hx hn5
                        · refine isPrefixOf_one_head '/' ch (ctail ++ '>' :: after) ?_
                          cases hx : ("/".data.isPrefixOf (ch :: (ctail ++ '>' :: after))) with
                          | false => rfl
                          | true =>
                            rw [hs2] at hn6
                            exact absurd hx hn6
                      have hw := parseTagContent_wf content tev hhead hptc
                      refine ⟨hw.1, ?_, ?_⟩
                      · intro ht
                        rw [hw.2] at ht
                        exact absurd ht (by simp)
                      · intro u _
                        exact hw.2
                  · exact absurd h (by simp)
    · simp only [parseOne] at h
      split at h
      · rename_i heq
        exact absurd heq (by simp)
      · rename_i rest2 heq
        rw [List.cons.injEq] at heq
        exact absurd heq.1 hlt
      · cases hu : unescape ((c :: s2).takeWhile (fun x => decide (x ≠ '<'))).length
            ((c :: s2).takeWhile (fun x => decide (x ≠ '<'))) with
        | error e =>
          simp only [hu] at h
          exact absurd h (by simp [Except.map])
        | ok t =>
          simp only [hu] at h
          have h3 : (some (XmlEvent.text t,
              (c :: s2).drop ((c :: s2).takeWhile (fun x => decide (x ≠ '<'))).length) :
              Option (XmlEvent × Str)) = some (ev, rest) := by
            simpa [Except.map] using h
          have h2 := Option.some.inj h3
          have he : XmlEvent.text t = ev := congrArg Prod.fst h2
          have hr : (c :: s2).drop ((c :: s2).takeWhile
              (fun x => decide (x ≠ '<'))).length = rest := congrArg Prod.snd h2
          subst he
          have hpc : (decide (c ≠ '<')) = true := by simp [hlt]
          have hrun : (c :: s2).takeWhile (fun x => decide (x ≠ '<')) =
              c :: s2.takeWhile (fun x => decide (x ≠ '<')) :=
            List.takeWhile_cons_of_pos hpc
          refine ⟨?_, ?_, ?_⟩
          · simp only [wfEvent, Bool.not_eq_true']
            have htne : t ≠ [] := by
              refine unescape_ne_nil _ _ _ ?_ hu
              rw [hrun]
              simp
            cases hx : t.isEmpty with
            | false => rfl
            | true =>
              rw [List.isEmpty_iff] at hx
              exact absurd hx htne
          · intro _
            rcases drop_takeWhile (fun x => decide (x ≠ '<')) (c :: s2) with hd | ⟨ch, u, hd, hp⟩
            · left
              rw [← hr]
              exact hd
            · right
              have hch : ch = '<' := by simpa using hp
              refine ⟨u, ?_⟩
              rw [← hr, hd, hch]
          · intro u hequ
            rw [List.cons.injEq] at hequ
            exact absurd hequ.1 hlt

theorem parseEvents_succ (f : Nat) (s : Str) :
    parseEvents (f + 1) s =
      (match parseOne s with
       | .error e => .error e
       | .ok none => .ok []
       | .ok (some (ev, rest)) => (parseEvents f rest).map (ev :: ·)) := by
  cases hx : parseOne s with
  | error e => simp only [parseEvents, hx]; rfl
  | ok o =>
    cases o with
    | none => simp only [parseEvents, hx]; rfl
    | some pr =>
      obtain ⟨ev, rest⟩ := pr
      simp only [parseEvents, hx]
      rfl

theorem parseEvents_cons_head (f : Nat) (s : Str) (e2 : XmlEvent) (r2 : List XmlEvent)
    (h : parseEvents f s = .ok (e2 :: r2)) :
    ∃ rest2, parseOne s = .ok (some (e2, rest2)) := by
  cases f with
  | zero => exact absurd h (by simp [parseEvents])
  | succ f2 =>
    rw [parseEvents_succ] at h
    cases hpo : parseOne s with
    | error e => simp only [hpo] at h; exact absurd h (by simp)
    | ok o =>
      cases o with
      | none =>
        simp only [hpo] at h
        have : ([] : List XmlEvent) = e2 :: r2 := Except.ok.inj h
        exact absurd this (by simp)
      | some pr =>
        obtain ⟨ev, rest⟩ := pr
        simp only [hpo] at h
        cases hpe : parseEvents f2 rest with
        | error e => simp only [hpe] at h; exact absurd h (by simp [Except.map])
        | ok evs2 =>
          simp only [hpe] at h
          have hcons : ev :: evs2 = e2 :: r2 := by simpa [Except.map] using h
          rw [List.cons.injEq] at hcons
          exact ⟨rest, by rw [hcons.1]⟩

theorem parseEvents_wf :
    ∀ (fuel : Nat) (s : Str) (evs : List XmlEvent),
      parseEvents fuel s = .ok evs → wfSeq evs = true := by
  intro fuel
  induction fuel with
  | zero =>
    intro s evs h
    exact absurd h (by simp [parseEvents])
  | succ f ih =>
    intro s evs h
    rw [parseEvents_succ] at h
    cases hpo : parseOne s with
    | error e => simp only [hpo] at h; exact absurd h (by simp)
    | ok o =>
      cases o with
      | none =>
        simp only [hpo] at h
        obtain rfl : ([] : List XmlEvent) = evs := Except.ok.inj h
        rfl
      | some pr =>
        obtain ⟨ev, rest⟩ := pr
        simp only [hpo] at h
        cases hpe2 : parseEvents f rest with
        | error e => simp only [hpe2] at h; exact absurd h (by simp [Except.map])
        | ok evs2 =>
          simp only [hpe2] at h
          have hcons : ev :: evs2 = evs := by simpa [Except.map] using h
          subst hcons
          have hw := parseOne_spec s ev rest hpo
          have hseq2 := ih rest evs2 hpe2
          cases evs2 with
          | nil => exact hw.1
          | cons e2 r2 =>
            simp only [wfSeq, Bool.and_eq_true]
            refine ⟨⟨hw.1, ?_⟩, hseq2⟩
            rw [Bool.not_eq_true']
            cases htev : isTextEvent ev with
            | false => simp
            | true =>
              rcases hw.2.1 htev with hrn | ⟨u, hru⟩
              · subst hrn
                cases f with
                | zero => exact absurd hpe2 (by simp [parseEvents])
                | succ f2 =>
                  rw [parseEvents_succ] at hpe2
                  have : ([] : List XmlEvent) = e2 :: r2 := by
                    simpa [parseOne] using hpe2
                  exact absurd this (by simp)
              · subst hru
                obtain ⟨rest2, hpo2⟩ := parseEvents_cons_head f _ e2 r2 hpe2
                have := (parseOne_spec _ e2 rest2 hpo2).2.2 u rfl
                simp [this]

/-- C2 (amended): if `parse_xml_part` accepts `s` with event list `evs` and no raw
attribute or declaration value of `evs` contains a double quote, then re-parsing
`write_xml_part`'s output yields exactly `evs` again. -/
theorem parseXmlPart_write_roundtrip (s : Str) (evs : List XmlEvent)
    (hp : parseXmlPart s = .ok evs)
    (hdq : ∀ e ∈ evs, eventNoDQ e = true) :
    parseXmlPart (writeEvents evs) = .ok evs := by
  have hwf : wfSeq evs = true := parseEvents_wf (s.length + 1) s evs hp
  exact parseEvents_write evs ((writeEvents evs).length + 1) hwf hdq (by omega)

/-- C2 counterexample to the unconditional claim: `<e a='x"y'/>` is accepted by
the parser, but the single-quoted attribute value holding a double quote is
re-serialized with double quotes, and the written bytes no longer re-parse to
the same event list (the re-parse fails). -/
theorem parseXmlPart_roundtrip_counterexample :
    ∃ evs, parseXmlPart "<e a='x\"y'/>".data = .ok evs ∧
      parseXmlPart (writeEvents evs) ≠ .ok evs := by
  refine ⟨[.empty ['e'] [(['a'], ['x', '"', 'y'])]], rfl, ?_⟩
  have hre : parseXmlPart (writeEvents [XmlEvent.empty ['e'] [(['a'], ['x', '"', 'y'])]]) =
      .error "unterminated tag" := rfl
  intro hcontra
  rw [hre] at hcontra
  exact Except.noConfusion hcontra

/-- C2 witness: a concrete document with declaration, attributes, entity text
and a comment round-trips through the writer. -/
theorem parseXmlPart_write_roundtrip_witness :
    parseXmlPart (writeEvents
      [.decl ['1', '.', '0'] (some ['U', 'T', 'F', '-', '8']) none,
       .start ['w', ':', 't'] [(['x', 'm', 'l', ':', 's', 'p', 'a', 'c', 'e'],
         ['p', 'r', 'e', 's', 'e', 'r', 'v', 'e'])],
       .text ['A', ' ', '&', ' ', 'B'],
       .endE ['w', ':', 't'],
       .comment ['c']]) = .ok
      [.decl ['1', '.', '0'] (some ['U', 'T', 'F', '-', '8']) none,
       .start ['w', ':', 't'] [(['x', 'm', 'l', ':', 's', 'p', 'a', 'c', 'e'],
         ['p', 'r', 'e', 's', 'e', 'r', 'v', 'e'])],
       .text ['A', ' ', '&', ' ', 'B'],
       .endE ['w', ':', 't'],
       .comment ['c']] :=
  parseXmlPart_write_roundtrip
    "<?xml version=\"1.0\" encoding=\"UTF-8\"?><w:t xml:space=\"preserve\">A &amp; B</w:t><!--c-->".data
    _ rfl (by decide)

/-! ## C1: the freezer round-trip -/

theorem digitCh_isDigit (m : Nat) (h : m < 10) : (digitCh m).isDigit = true := by
  interval_cases m <;> decide

theorem digitCh_toNat (m : Nat) (h : m < 10) : (digitCh m).toNat - 48 = m := by
  interval_cases m <;> decide

theorem decDigitsGo_all_digits :
    ∀ (fuel n : Nat), (decDigitsGo fuel n).all Char.isDigit = true := by
  intro fuel
  induction fuel with
  | zero => intro n; rfl
  | succ f ih =>
    intro n
    cases n with
    | zero => rfl
    | succ m =>
      rw [show decDigitsGo (f + 1) (m + 1) =
        decDigitsGo f ((m + 1) / 10) ++ [digitCh ((m + 1) % 10)] from rfl]
      rw [List.all_append]
      rw [ih ((m + 1) / 10)]
      simp [digitCh_isDigit _ (Nat.mod_lt _ (by norm_num))]

theorem readNat_append_digit (a : Str) (c : Char) :
    readNat (a ++ [c]) = readNat a * 10 + (c.toNat - 48) := by
  simp [readNat, List.foldl_append]

theorem decDigitsGo_readNat :
    ∀ (fuel n : Nat), n ≤ fuel → readNat (decDigitsGo fuel n) = n := by
  intro fuel
  induction fuel with
  | zero =>
    intro n h
    interval_cases n
    rfl
  | succ f ih =>
    intro n h
    cases n with
    | zero => rfl
    | succ m =>
      rw [show decDigitsGo (f + 1) (m + 1) =
        decDigitsGo f ((m + 1) / 10) ++ [digitCh ((m + 1) % 10)] from rfl]
      rw [readNat_append_digit]
      rw [ih ((m + 1) / 10) (by omega)]
      rw [digitCh_toNat _ (Nat.mod_lt _ (by norm_num))]
      omega

theorem decDigitsGo_length :
    ∀ (fuel n k : Nat), n < 10 ^ k → (decDigitsGo fuel n).length ≤ k := by
  intro fuel
  induction fuel with
  | zero => intro n k _; simp [decDigitsGo]
  | succ f ih =>
    intro n k hn
    cases n with
    | zero => simp [decDigitsGo]
    | succ m =>
      cases k with
      | zero => simp at hn
      | succ k2 =>
        rw [show decDigitsGo (f + 1) (m + 1) =
          decDigitsGo f ((m + 1) / 10) ++ [digitCh ((m + 1) % 10)] from rfl]
        rw [List.length_append]
        have hdiv : (m + 1) / 10 < 10 ^ k2 := by
          rw [Nat.div_lt_iff_lt_mul (by norm_num)]
          calc m + 1 < 10 ^ (k2 + 1) := hn
            _ = 10 ^ k2 * 10 := by ring
        have := ih ((m + 1) / 10) k2 hdiv
        simp
        omega

theorem readNat_replicate_zero (k : Nat) (s : Str) :
    readNat (List.replicate k '0' ++ s) = readNat s := by
  induction k with
  | zero => rfl
  | succ k2 ih =>
    rw [show List.replicate (k2 + 1) '0' = '0' :: List.replicate k2 '0' from rfl]
    rw [show ('0' :: List.replicate k2 '0') ++ s = '0' :: (List.replicate k2 '0' ++ s)
      from rfl]
    rw [show readNat ('0' :: (List.replicate k2 '0' ++ s)) =
      List.foldl (fun acc c => acc * 10 + (c.toNat - 48)) 0 (List.replicate k2 '0' ++ s)
      from rfl]
    exact ih

theorem padZeros_readNat (n : Nat) (hn : n ≤ 9999) :
    readNat (padZeros 4 (decDigits n)) = n := by
  rw [padZeros, readNat_replicate_zero]
  exact decDigitsGo_readNat n n le_rfl

theorem padZeros_length (n : Nat) (hn : n ≤ 9999) :
    (padZeros 4 (decDigits n)).length = 4 := by
  have h1 : (decDigits n).length ≤ 4 :=
    decDigitsGo_length n n 4 (by omega)
  rw [padZeros, List.length_append, List.length_replicate]
  omega

theorem padZeros_digits (n : Nat) :
    (padZeros 4 (decDigits n)).all Char.isDigit = true := by
  rw [padZeros, List.all_append]
  rw [show List.all (decDigits n) Char.isDigit = true from decDigitsGo_all_digits n n]
  rw [Bool.and_true]
  rw [List.all_eq_true]
  intro c hc
  rw [List.eq_of_mem_replicate hc]
  decide

theorem ntToken_inj (i j : Nat) (hi : i ≤ 9999) (hj : j ≤ 9999)
    (h : ntToken i = ntToken j) : i = j := by
  rw [ntToken, ntToken, List.append_assoc, List.append_assoc] at h
  have h2 := List.append_cancel_left h
  have h3 := List.append_cancel_right h2
  have := congrArg readNat h3
  rw [padZeros_readNat i hi, padZeros_readNat j hj] at this
  exact this

/-! ### the NT-token matcher -/

theorem ntM_prev (p : Option Char) (s : Str) : ntM p s = ntM none s := rfl

theorem ntM_hit (d r : Str) (hd : d.length = 4) (hdig : d.all Char.isDigit = true)
    (p : Option Char) :
    ntM p ("<<MT_NT:".data ++ (d ++ (">>".data ++ r))) = some 14 := by
  show numTokLen "<<MT_NT:".data 4 ("<<MT_NT:".data ++ (d ++ (">>".data ++ r))) = some 14
  unfold numTokLen
  rw [if_pos (isPrefixOf_append_self "<<MT_NT:".data _)]
  rw [List.drop_left]
  have htake : (d ++ (">>".data ++ r)).take 4 = d := by
    rw [← hd]
    exact List.take_left d _
  have hdrop : (d ++ (">>".data ++ r)).drop 4 = ">>".data ++ r := by
    rw [← hd]
    exact List.drop_left d _
  rw [if_pos ⟨by rw [htake, hd], by rw [htake]; exact hdig,
    by rw [hdrop]; exact isPrefixOf_append_self ">>".data r⟩]
  rfl

theorem ntM_some_shape (p : Option Char) (s : Str) (n : Nat) (h : ntM p s = some n) :
    n = 14 ∧ ∃ d r, s = "<<MT_NT:".data ++ (d ++ (">>".data ++ r)) ∧
      d.length = 4 ∧ d.all Char.isDigit = true := by
  rw [show ntM p s = numTokLen "<<MT_NT:".data 4 s from rfl] at h
  unfold numTokLen at h
  split at h
  · rename_i hpre
    have h2 : (if (List.take 4 (List.drop ("<<MT_NT:".data.length) s)).length = 4 ∧
        (List.take 4 (List.drop ("<<MT_NT:".data.length) s)).all Char.isDigit = true ∧
        ">>".data.isPrefixOf (List.drop 4 (List.drop ("<<MT_NT:".data.length) s)) = true then
        some ("<<MT_NT:".data.length + 4 + 2) else (none : Option Nat)) = some n := h
    clear h
    split at h2
    · rename_i hcond
      obtain ⟨hlen, hdig, hpre2⟩ := hcond
      have hn : n = 14 := by
        have h3 := Option.some.inj h2
        rw [show ("<<MT_NT:".data.length) = 8 from rfl] at h3
        omega
      rw [List.isPrefixOf_iff_prefix] at hpre hpre2
      obtain ⟨t, ht⟩ := hpre
      have hR : List.drop ("<<MT_NT:".data.length) s = t := by
        rw [← ht]
        exact List.drop_left _ _
      obtain ⟨r2, hr2⟩ := hpre2
      refine ⟨hn, (List.drop ("<<MT_NT:".data.length) s).take 4, r2, ?_, ?_, ?_⟩
      · have hr2t : ">>".data ++ r2 = List.drop 4 t := by rw [hr2, hR]
        have ht4 : t = (List.drop ("<<MT_NT:".data.length) s).take 4 ++ (">>".data ++ r2) := by
          rw [hR, hr2t]
          exact (List.take_append_drop 4 t).symm
        rw [← ht4]
        exact ht.symm
      · exact hlen
      · exact hdig
    · exact absurd h2 (by simp)
  · exact absurd h (by simp)

theorem ntM_short (p : Option Char) (s : Str) (h : s.length < 14) : ntM p s = none := by
  cases hx : ntM p s with
  | none => rfl
  | some n =>
    obtain ⟨-, d, r, hs, hd, -⟩ := ntM_some_shape p s n hx
    rw [hs] at h
    simp [List.length_append, hd] at h
    omega

theorem ntM_of_append (p : Option Char) (x r : Str) (n : Nat)
    (h : ntM p (x ++ r) = some n) (hx : 14 ≤ x.length) : ntM p x = some n := by
  obtain ⟨hn, d, r2, hs, hd, hdig⟩ := ntM_some_shape p (x ++ r) n h
  subst hn
  have hP : ("<<MT_NT:".data ++ (d ++ ">>".data)).length = 14 := by
    simp [List.length_append, hd]
  have hxr : x ++ r = ("<<MT_NT:".data ++ (d ++ ">>".data)) ++ r2 := by
    rw [hs]
    simp
  have htk : x.take 14 = "<<MT_NT:".data ++ (d ++ ">>".data) := by
    have h1 : (x ++ r).take 14 = x.take 14 := List.take_append_of_le_length hx
    have h2 : ((("<<MT_NT:".data ++ (d ++ ">>".data))) ++ r2).take 14 =
        "<<MT_NT:".data ++ (d ++ ">>".data) := by
      rw [← hP]
      exact List.take_left _ _
    rw [← h1, hxr, h2]
  have hxs : x = "<<MT_NT:".data ++ (d ++ (">>".data ++ x.drop 14)) := by
    conv_lhs => rw [← List.take_append_drop 14 x]
    rw [htk]
    simp
  rw [hxs]
  exact ntM_hit d (x.drop 14) hd hdig p

theorem ntM_extend (p : Option Char) (x r : Str) (n : Nat)
    (h : ntM p x = some n) : ntM p (x ++ r) = some n := by
  obtain ⟨hn, d, r2, hs, hd, hdig⟩ := ntM_some_shape p x n h
  subst hn
  rw [hs]
  rw [show ("<<MT_NT:".data ++ (d ++ (">>".data ++ r2))) ++ r =
    "<<MT_NT:".data ++ (d ++ (">>".data ++ (r2 ++ r))) by simp]
  exact ntM_hit d (r2 ++ r) hd hdig p


theorem list_len4 (l : Str) (h : l.length = 4) : ∃ a b c e, l = [a, b, c, e] := by
  match l, h with
  | [a, b, c, e], _ => exact ⟨a, b, c, e, rfl⟩

theorem ntM_junction (sg d r : Str) (hsg : sg ≠ []) (hlen : sg.length ≤ 13)
    (hd : d.length = 4) (hdig : d.all Char.isDigit = true) :
    ntM none (sg ++ ("<<MT_NT:".data ++ (d ++ (">>".data ++ r)))) = none := by
  cases hx : ntM none (sg ++ ("<<MT_NT:".data ++ (d ++ (">>".data ++ r)))) with
  | none => rfl
  | some n =>
    exfalso
    obtain ⟨-, d2, r2, hs, hd2, hdig2⟩ := ntM_some_shape _ _ _ hx
    obtain ⟨a, b, c, e, rfl⟩ := list_len4 d2 hd2
    simp only [List.all_cons, List.all_nil, Bool.and_eq_true, Bool.and_true] at hdig2
    obtain ⟨hda, hdb, hdc, hde⟩ := hdig2
    have h1j : 1 ≤ sg.length := by
      cases sg with
      | nil => exact absurd rfl hsg
      | cons x xs => simp
    have hj1 : (sg ++ ("<<MT_NT:".data ++ (d ++ (">>".data ++ r)))).get? sg.length =
        some '<' := by
      rw [List.get?_append_right (le_refl sg.length)]
      rw [Nat.sub_self]
      rfl
    have hj2 : (sg ++ ("<<MT_NT:".data ++ (d ++ (">>".data ++ r)))).get? (sg.length + 1) =
        some '<' := by
      rw [List.get?_append_right (by omega)]
      rw [show sg.length + 1 - sg.length = 1 from by omega]
      rfl
    rw [hs] at hj1 hj2
    obtain ⟨j, hj⟩ : ∃ j, sg.length = j := ⟨_, rfl⟩
    rw [hj] at hj1 hj2 hlen h1j
    interval_cases j <;>
    first |
      (have hj2b : ("<<MT_NT:".data ++ ([a, b, c, e] ++ (">>".data ++ r2))).get? 2 = some '<' := by
        rw [show (2 : Nat) = 1 + 1 from rfl]
        exact hj2
       rw [show (("<<MT_NT:".data ++ ([a, b, c, e] ++ (">>".data ++ r2))).get? 2) = some 'M' from rfl] at hj2b
       exact absurd (Option.some.inj hj2b) (by decide)) |
      (rw [show (("<<MT_NT:".data ++ ([a, b, c, e] ++ (">>".data ++ r2))).get? 2) = some 'M' from rfl] at hj1
       exact absurd (Option.some.inj hj1) (by decide)) |
      (rw [show (("<<MT_NT:".data ++ ([a, b, c, e] ++ (">>".data ++ r2))).get? 3) = some 'T' from rfl] at hj1
       exact absurd (Option.some.inj hj1) (by decide)) |
      (rw [show (("<<MT_NT:".data ++ ([a, b, c, e] ++ (">>".data ++ r2))).get? 4) = some '_' from rfl] at hj1
       exact absurd (Option.some.inj hj1) (by decide)) |
      (rw [show (("<<MT_NT:".data ++ ([a, b, c, e] ++ (">>".data ++ r2))).get? 5) = some 'N' from rfl] at hj1
       exact absurd (Option.some.inj hj1) (by decide)) |
      (rw [show (("<<MT_NT:".data ++ ([a, b, c, e] ++ (">>".data ++ r2))).get? 6) = some 'T' from rfl] at hj1
       exact absurd (Option.some.inj hj1) (by decide)) |
      (rw [show (("<<MT_NT:".data ++ ([a, b, c, e] ++ (">>".data ++ r2))).get? 7) = some ':' from rfl] at hj1
       exact absurd (Option.some.inj hj1) (by decide)) |
      (rw [show (("<<MT_NT:".data ++ ([a, b, c, e] ++ (">>".data ++ r2))).get? 8) = some a from rfl] at hj1
       have hxeq := Option.some.inj hj1
       rw [hxeq] at hda
       exact absurd hda (by decide)) |
      (rw [show (("<<MT_NT:".data ++ ([a, b, c, e] ++ (">>".data ++ r2))).get? 9) = some b from rfl] at hj1
       have hxeq := Option.some.inj hj1
       rw [hxeq] at hdb
       exact absurd hdb (by decide)) |
      (rw [show (("<<MT_NT:".data ++ ([a, b, c, e] ++ (">>".data ++ r2))).get? 10) = some c from rfl] at hj1
       have hxeq := Option.some.inj hj1
       rw [hxeq] at hdc
       exact absurd hdc (by decide)) |
      (rw [show (("<<MT_NT:".data ++ ([a, b, c, e] ++ (">>".data ++ r2))).get? 11) = some e from rfl] at hj1
       have hxeq := Option.some.inj hj1
       rw [hxeq] at hde
       exact absurd hde (by decide)) |
      (rw [show (("<<MT_NT:".data ++ ([a, b, c, e] ++ (">>".data ++ r2))).get? 12) = some '>' from rfl] at hj1
       exact absurd (Option.some.inj hj1) (by decide)) |
      (rw [show (("<<MT_NT:".data ++ ([a, b, c, e] ++ (">>".data ++ r2))).get? 13) = some '>' from rfl] at hj1
       exact absurd (Option.some.inj hj1) (by decide))

theorem ntM_nil (p : Option Char) : ntM p [] = none := rfl

theorem ntFree_all (R : Str) (hR : ntFree R = true) :
    ∀ p, ntM none (R.drop p) = none := by
  intro p
  by_cases hp : p ≤ R.length
  · rw [ntFree, List.all_eq_true] at hR
    have := hR p (by rw [List.mem_range]; omega)
    cases hx : ntM none (R.drop p) with
    | none => rfl
    | some n => rw [hx] at this; simp at this
  · rw [List.drop_eq_nil_of_le (by omega)]
    exact ntM_nil none

theorem ntM_region_none (R : Str) (hR : ntFree R = true) (d rest : Str)
    (hd : d.length = 4) (hdig : d.all Char.isDigit = true) :
    ∀ p, p < R.length →
      ntM none (R.drop p ++ ("<<MT_NT:".data ++ (d ++ (">>".data ++ rest)))) = none := by
  intro p hp
  by_cases hlong : 14 ≤ (R.drop p).length
  · cases hx : ntM none (R.drop p ++ ("<<MT_NT:".data ++ (d ++ (">>".data ++ rest)))) with
    | none => rfl
    | some n =>
      exfalso
      have h2 := ntM_of_append none (R.drop p) _ n hx hlong
      rw [ntFree_all R hR p] at h2
      exact Option.noConfusion h2
  · have hne : R.drop p ≠ [] := by
      intro h0
      have := congrArg List.length h0
      rw [List.length_drop] at this
      simp at this
      omega
    exact ntM_junction (R.drop p) d rest hne (by omega) hd hdig

theorem firstHit_hit (s0 : Str) (prev : Option Char)
    (h : ntM none s0 = some 14) (hlen : 14 ≤ s0.length) :
    firstHit ntM prev s0 = some ([], s0.take 14, s0.drop 14) := by
  cases s0 with
  | nil => simp at hlen
  | cons c rest =>
    have hm : ntM prev (c :: rest) = some (Nat.succ 13) := (ntM_prev prev (c :: rest)).trans h
    simp only [firstHit, hm]
    rw [if_pos (show 13 + 1 ≤ (c :: rest).length from hlen)]

theorem firstHit_step (c : Char) (r : Str) (prev : Option Char)
    (h : ntM none (c :: r) = none) :
    firstHit ntM prev (c :: r) =
      (firstHit ntM (some c) r).map (fun pr => (c :: pr.1, pr.2.1, pr.2.2)) := by
  have hm : ntM prev (c :: r) = none := (ntM_prev prev (c :: r)).trans h
  simp only [firstHit, hm]

theorem firstHit_through (R cont : Str) (t r : Str)
    (hH : ∀ p, p < R.length → ntM none (R.drop p ++ cont) = none)
    (hc : ∀ q, firstHit ntM q cont = some ([], t, r)) :
    ∀ prev, firstHit ntM prev (R ++ cont) = some (R, t, r) := by
  induction R with
  | nil =>
    intro prev
    simpa using hc prev
  | cons c R2 ih =>
    intro prev
    have h0 : ntM none (c :: (R2 ++ cont)) = none := by
      have := hH 0 (by simp)
      simpa using this
    rw [show (c :: R2) ++ cont = c :: (R2 ++ cont) from rfl]
    rw [firstHit_step c (R2 ++ cont) prev h0]
    rw [ih (fun p hp => by
      have := hH (p + 1) (by simp; omega)
      simpa using this) (some c)]
    rfl

theorem firstHit_none (R : Str) (hH : ∀ p, ntM none (R.drop p) = none) :
    ∀ prev, firstHit ntM prev R = none := by
  induction R with
  | nil =>
    intro prev
    have hm : ntM prev [] = none := ntM_nil prev
    simp only [firstHit, hm]
  | cons c R2 ih =>
    intro prev
    have h0 : ntM none (c :: R2) = none := by
      have := hH 0
      simpa using this
    rw [firstHit_step c R2 prev h0]
    rw [ih (fun p => by
      have := hH (p + 1)
      simpa using this) (some c)]
    rfl

theorem joinPairs_cons (g t : Str) (xs : List (Str × Str)) :
    joinPairs ((g, t) :: xs) = g ++ t ++ joinPairs xs := rfl

theorem scanGo_sandwich :
    ∀ (L : List (Str × Str)) (Rlast : Str) (fuel : Nat) (prev : Option Char),
      L.length ≤ fuel →
      (∀ x ∈ L, ntFree x.1 = true ∧ ∃ d, x.2 = "<<MT_NT:".data ++ (d ++ ">>".data) ∧
        d.length = 4 ∧ d.all Char.isDigit = true) →
      ntFree Rlast = true →
      scanGo ntM fuel prev (joinPairs L ++ Rlast) = (L, Rlast) := by
  intro L
  induction L with
  | nil =>
    intro Rlast fuel prev _ _ hlast
    rw [show joinPairs [] ++ Rlast = Rlast from by simp [joinPairs]]
    cases fuel with
    | zero => rfl
    | succ f =>
      simp only [scanGo]
      rw [firstHit_none Rlast (ntFree_all Rlast hlast) prev]
  | cons x L2 ih =>
    intro Rlast fuel prev hfuel hL hlast
    obtain ⟨R, tok⟩ := x
    cases fuel with
    | zero => simp at hfuel
    | succ f =>
      obtain ⟨hRfree0, d, htok0, hd, hdig⟩ := hL (R, tok) (by simp)
      have hRfree : ntFree R = true := hRfree0
      have htok : tok = "<<MT_NT:".data ++ (d ++ ">>".data) := htok0
      have htoklen : tok.length = 14 := by
        rw [htok]
        simp [List.length_append, hd]
      have hshape : joinPairs ((R, tok) :: L2) ++ Rlast =
          R ++ (tok ++ (joinPairs L2 ++ Rlast)) := by
        rw [joinPairs_cons]
        simp
      rw [hshape]
      have hcont : ∀ q, firstHit ntM q (tok ++ (joinPairs L2 ++ Rlast)) =
          some ([], tok, joinPairs L2 ++ Rlast) := by
        intro q
        have hhit : ntM none (tok ++ (joinPairs L2 ++ Rlast)) = some 14 := by
          rw [htok]
          rw [show ("<<MT_NT:".data ++ (d ++ ">>".data)) ++ (joinPairs L2 ++ Rlast) =
            "<<MT_NT:".data ++ (d ++ (">>".data ++ (joinPairs L2 ++ Rlast))) by simp]
          exact ntM_hit d _ hd hdig none
        have h14 : 14 ≤ (tok ++ (joinPairs L2 ++ Rlast)).length := by
          rw [List.length_append, htoklen]
          omega
        rw [firstHit_hit _ q hhit h14]
        rw [show (tok ++ (joinPairs L2 ++ Rlast)).take 14 = tok from by
          rw [← htoklen]; exact List.take_left _ _]
        rw [show (tok ++ (joinPairs L2 ++ Rlast)).drop 14 = joinPairs L2 ++ Rlast from by
          rw [← htoklen]; exact List.drop_left _ _]
      have hfh := firstHit_through R (tok ++ (joinPairs L2 ++ Rlast)) tok
        (joinPairs L2 ++ Rlast)
        (fun p hp => by
          have h9 := ntM_region_none R hRfree d (joinPairs L2 ++ Rlast) hd hdig p hp
          rw [htok]
          simp only [List.append_assoc] at h9 ⊢
          exact h9)
        hcont prev
      simp only [scanGo]
      rw [show R ++ (tok ++ (joinPairs L2 ++ Rlast)) = R ++ tok ++ (joinPairs L2 ++ Rlast)
        from by simp] at hfh ⊢
      simp only [hfh]
      rw [ih Rlast f tok.getLast? (by simp at hfuel ⊢; omega)
        (fun y hy => hL y (by simp [hy])) hlast]

theorem joinPairs_append (a b : List (Str × Str)) :
    joinPairs (a ++ b) = joinPairs a ++ joinPairs b := by
  induction a with
  | nil => simp [joinPairs]
  | cons x xs ih =>
    obtain ⟨g, t⟩ := x
    rw [List.cons_append, joinPairs_cons, joinPairs_cons, ih]
    simp

theorem joinPairs_length_ge :
    ∀ (M : List (Str × Str)), (∀ x ∈ M, 1 ≤ x.2.length) →
      M.length ≤ (joinPairs M).length := by
  intro M
  induction M with
  | nil => simp
  | cons x xs ih =>
    intro h
    obtain ⟨g, t⟩ := x
    rw [joinPairs_cons]
    have h1 : 1 ≤ t.length := h (g, t) (by simp)
    have h2 := ih (fun y hy => h y (by simp [hy]))
    simp only [List.length_append, List.length_cons]
    omega

theorem firstHit_join (m : Matcher) :
    ∀ (s : Str) (prev : Option Char) (g t r : Str),
      firstHit m prev s = some (g, t, r) → s = g ++ t ++ r := by
  intro s
  induction s with
  | nil =>
    intro prev g t r h
    have hnone : firstHit m prev [] = none := by
      cases hm : m prev [] with
      | none => simp only [firstHit, hm]
      | some n =>
        cases n with
        | zero => simp only [firstHit, hm]
        | succ k =>
          simp only [firstHit, hm]
          rw [if_neg (by simp)]
    rw [hnone] at h
    exact absurd h (by simp)
  | cons c rest ih =>
    intro prev g t r h
    have hmap : ∀ (h2 : (firstHit m (some c) rest).map
          (fun pr => (c :: pr.1, pr.2.1, pr.2.2)) = some (g, t, r)),
        c :: rest = g ++ t ++ r := by
      intro h2
      cases hf : firstHit m (some c) rest with
      | none => rw [hf] at h2; exact absurd h2 (by simp)
      | some pr =>
        obtain ⟨g2, t2, r2⟩ := pr
        rw [hf] at h2
        have h3 : some ((c :: g2, t2, r2) : Str × Str × Str) = some (g, t, r) := h2
        have h4 := Option.some.inj h3
        have hg : c :: g2 = g := congrArg Prod.fst h4
        have ht : t2 = t := congrArg Prod.fst (congrArg Prod.snd h4)
        have hr : r2 = r := congrArg Prod.snd (congrArg Prod.snd h4)
        have h5 := ih (some c) g2 t2 r2 hf
        rw [← hg, ← ht, ← hr, h5]
        simp
    cases hm : m prev (c :: rest) with
    | none =>
      have heq : firstHit m prev (c :: rest) =
          (firstHit m (some c) rest).map (fun pr => (c :: pr.1, pr.2.1, pr.2.2)) := by
        simp only [firstHit, hm]
      rw [heq] at h
      exact hmap h
    | some n =>
      cases n with
      | zero =>
        have heq : firstHit m prev (c :: rest) =
            (firstHit m (some c) rest).map (fun pr => (c :: pr.1, pr.2.1, pr.2.2)) := by
          simp only [firstHit, hm]
        rw [heq] at h
        exact hmap h
      | succ k =>
        have heq : firstHit m prev (c :: rest) =
            if k + 1 ≤ (c :: rest).length then
              some (([] : Str), (c :: rest).take (k + 1), (c :: rest).drop (k + 1))
            else none := by
          simp only [firstHit, hm]
        rw [heq] at h
        by_cases hk : k + 1 ≤ (c :: rest).length
        · rw [if_pos hk] at h
          have h3 : some (([] : Str), (c :: rest).take (k + 1), (c :: rest).drop (k + 1)) =
              some (g, t, r) := h
          have h4 := Option.some.inj h3
          have hg : ([] : Str) = g := congrArg Prod.fst h4
          have ht : (c :: rest).take (k + 1) = t := congrArg Prod.fst (congrArg Prod.snd h4)
          have hr : (c :: rest).drop (k + 1) = r := congrArg Prod.snd (congrArg Prod.snd h4)
          rw [← hg, ← ht, ← hr]
          simp [List.take_append_drop]
        · rw [if_neg hk] at h
          exact absurd h (by simp)

theorem scanGo_join (m : Matcher) :
    ∀ (fuel : Nat) (prev : Option Char) (s : Str) (ps : List (Str × Str)) (lst : Str),
      scanGo m fuel prev s = (ps, lst) → s = joinPairs ps ++ lst := by
  intro fuel
  induction fuel with
  | zero =>
    intro prev s ps lst h
    have h2 : (([] : List (Str × Str)), s) = (ps, lst) := h
    have hp : ([] : List (Str × Str)) = ps := congrArg Prod.fst h2
    have hl : s = lst := congrArg Prod.snd h2
    rw [← hp, ← hl]
    simp [joinPairs]
  | succ f ih =>
    intro prev s ps lst h
    cases hf : firstHit m prev s with
    | none =>
      simp only [scanGo, hf] at h
      have hp : ([] : List (Str × Str)) = ps := congrArg Prod.fst h
      have hl : s = lst := congrArg Prod.snd h
      rw [← hp, ← hl]
      simp [joinPairs]
    | some pr =>
      obtain ⟨g, t, r⟩ := pr
      simp only [scanGo, hf] at h
      have hp : (g, t) :: (scanGo m f t.getLast? r).1 = ps := congrArg Prod.fst h
      have hl : (scanGo m f t.getLast? r).2 = lst := congrArg Prod.snd h
      have hrec := ih t.getLast? r (scanGo m f t.getLast? r).1 (scanGo m f t.getLast? r).2 rfl
      have hjoin := firstHit_join m s prev g t r hf
      rw [← hp, ← hl, joinPairs_cons, hjoin]
      conv_lhs => rw [hrec]
      simp

theorem ntFree_parts (S A r B : Str) (hS : S = A ++ r ++ B) (h : ntFree S = true) :
    ntFree r = true := by
  rw [hS, List.append_assoc] at h
  rw [ntFree, List.all_eq_true]
  intro p hp
  rw [List.mem_range] at hp
  cases hx : ntM none (r.drop p) with
  | none => simp
  | some n =>
    exfalso
    have h1 : ntM none (r.drop p ++ B) = some n := ntM_extend none _ B n hx
    have h2 : (A ++ (r ++ B)).drop (A.length + p) = r.drop p ++ B := by
      rw [List.drop_append]
      exact List.drop_append_of_le_length (by omega)
    have h3 := ntFree_all (A ++ (r ++ B)) h (A.length + p)
    rw [h2, h1] at h3
    exact Option.noConfusion h3

theorem ntToken_shape (n : Nat) (hn : n ≤ 9999) :
    ∃ d, ntToken n = "<<MT_NT:".data ++ (d ++ ">>".data) ∧
      d.length = 4 ∧ d.all Char.isDigit = true :=
  ⟨padZeros 4 (decDigits n), by rw [ntToken, List.append_assoc],
    padZeros_length n hn, padZeros_digits n⟩

theorem ntToken_length (n : Nat) (hn : n ≤ 9999) : (ntToken n).length = 14 := by
  rw [ntToken]
  simp [List.length_append, padZeros_length n hn]

theorem tokensSeq_mem :
    ∀ (L : List (Str × Str × Str)) (id0 : Nat) (x : Str × Str × Str),
      tokensSeq id0 L → x ∈ L → ∃ j, j < L.length ∧ x.2.1 = ntToken (id0 + j) := by
  intro L
  induction L with
  | nil => intro id0 x _ hx; exact absurd hx (by simp)
  | cons y ys ih =>
    intro id0 x hts hx
    have hts2 : y.2.1 = ntToken id0 ∧ tokensSeq (id0 + 1) ys := hts
    rcases List.mem_cons.mp hx with hxy | hxys
    · exact ⟨0, by simp, by rw [hxy, hts2.1]; simp⟩
    · obtain ⟨j, hj, hje⟩ := ih (id0 + 1) x hts2.2 hxys
      exact ⟨j + 1, by simp; omega, by rw [hje]; congr 1; omega⟩

theorem tokensSeq_append :
    ∀ (a b : List (Str × Str × Str)) (id0 : Nat),
      tokensSeq id0 a → tokensSeq (id0 + a.length) b → tokensSeq id0 (a ++ b) := by
  intro a
  induction a with
  | nil => intro b id0 _ hb; simpa using hb
  | cons x xs ih =>
    intro b id0 ha hb
    have ha2 : x.2.1 = ntToken id0 ∧ tokensSeq (id0 + 1) xs := ha
    refine ⟨ha2.1, ih b (id0 + 1) ha2.2 ?_⟩
    rw [show id0 + 1 + xs.length = id0 + (x :: xs).length from by simp; omega]
    exact hb

theorem tokensSeq_lookup :
    ∀ (L : List (Str × Str × Str)) (id0 : Nat),
      tokensSeq id0 L → id0 + L.length ≤ 10000 →
      ∀ x ∈ L, (tokSrc L).lookup x.2.1 = some x.2.2 := by
  intro L
  induction L with
  | nil => intro id0 _ _ x hx; exact absurd hx (by simp)
  | cons y ys ih =>
    intro id0 hts hbnd x hx
    have hts2 : y.2.1 = ntToken id0 ∧ tokensSeq (id0 + 1) ys := hts
    rcases List.mem_cons.mp hx with hxy | hxys
    · rw [hxy]
      rw [show tokSrc (y :: ys) = (y.2.1, y.2.2) :: tokSrc ys from rfl]
      simp only [List.lookup, beq_self_eq_true]
    · obtain ⟨j, hj, hje⟩ := tokensSeq_mem ys (id0 + 1) x hts2.2 hxys
      have hlen : (y :: ys).length = ys.length + 1 := by simp
      have hne : x.2.1 ≠ y.2.1 := by
        rw [hje, hts2.1]
        intro hcontra
        have := ntToken_inj (id0 + 1 + j) id0 (by omega) (by omega) hcontra
        omega
      have hbe : (x.2.1 == y.2.1) = false := by
        rw [beq_eq_false_iff_ne]
        exact hne
      have hstep : List.lookup x.2.1 (tokSrc (y :: ys)) = List.lookup x.2.1 (tokSrc ys) := by
        rw [show tokSrc (y :: ys) = (y.2.1, y.2.2) :: tokSrc ys from rfl]
        simp only [List.lookup, hbe]
      rw [hstep]
      exact ih (id0 + 1) hts2.2 (by omega) x hxys

theorem freezePlainGo_spec (base : Nat) :
    ∀ (ps : List (Str × Str)) (last : Str) (pos id0 : Nat),
      ∃ L : List (Str × Str × Str),
        regSrc L = ps ∧
        (freezePlainGo base pos id0 ps last).1 = joinPairs (regTok L) ++ last ∧
        (freezePlainGo base pos id0 ps last).2.1 = tokSrc L ∧
        tokensSeq id0 L ∧
        (freezePlainGo base pos id0 ps last).2.2.2 = id0 + L.length := by
  intro ps
  induction ps with
  | nil =>
    intro last pos id0
    refine ⟨[], rfl, by simp [freezePlainGo, joinPairs, regTok], rfl, trivial, by
      simp [freezePlainGo]⟩
  | cons x rest ih =>
    intro last pos id0
    obtain ⟨g, f⟩ := x
    obtain ⟨L2, hsrc, htext, hmap, hseq, hid⟩ := ih last (pos + g.length + f.length) (id0 + 1)
    refine ⟨(g, ntToken id0, f) :: L2, ?_, ?_, ?_, ⟨rfl, hseq⟩, ?_⟩
    · rw [show regSrc ((g, ntToken id0, f) :: L2) = (g, f) :: regSrc L2 from rfl, hsrc]
    · have he : (freezePlainGo base pos id0 ((g, f) :: rest) last).1 =
          g ++ ntToken id0 ++
            (freezePlainGo base (pos + g.length + f.length) (id0 + 1) rest last).1 := rfl
      rw [he, htext]
      rw [show regTok ((g, ntToken id0, f) :: L2) = (g, ntToken id0) :: regTok L2 from rfl]
      rw [joinPairs_cons]
      simp
    · have he : (freezePlainGo base pos id0 ((g, f) :: rest) last).2.1 =
          (ntToken id0, f) ::
            (freezePlainGo base (pos + g.length + f.length) (id0 + 1) rest last).2.1 := rfl
      rw [he, hmap]
      rfl
    · have he : (freezePlainGo base pos id0 ((g, f) :: rest) last).2.2.2 =
          (freezePlainGo base (pos + g.length + f.length) (id0 + 1) rest last).2.2.2 := rfl
      rw [he, hid]
      simp
      omega

theorem freezePlain_spec (g : Str) (base id0 : Nat) :
    ∃ L : List (Str × Str × Str), ∃ last1 : Str,
      joinPairs (regSrc L) ++ last1 = g ∧
      (freezePlain g base id0).1 = joinPairs (regTok L) ++ last1 ∧
      (freezePlain g base id0).2.1 = tokSrc L ∧
      tokensSeq id0 L ∧
      (freezePlain g base id0).2.2.2 = id0 + L.length := by
  obtain ⟨L, hsrc, htext, hmap, hseq, hid⟩ :=
    freezePlainGo_spec base (scanAll freezeM g).1 (scanAll freezeM g).2 0 id0
  refine ⟨L, (scanAll freezeM g).2, ?_, htext, hmap, hseq, hid⟩
  rw [hsrc]
  exact (scanGo_join freezeM g.length none g (scanAll freezeM g).1
    (scanAll freezeM g).2 rfl).symm

theorem freezeTextGo_spec :
    ∀ (ps : List (Str × Str)) (lastPlain : Str) (pos id0 : Nat),
      ∃ L : List (Str × Str × Str), ∃ Rlast : Str,
        joinPairs (regSrc L) ++ Rlast = joinPairs ps ++ lastPlain ∧
        (freezeTextGo pos id0 ps lastPlain).1 = joinPairs (regTok L) ++ Rlast ∧
        (freezeTextGo pos id0 ps lastPlain).2.1 = tokSrc L ∧
        tokensSeq id0 L ∧
        (freezeTextGo pos id0 ps lastPlain).2.2.2 = id0 + L.length := by
  intro ps
  induction ps with
  | nil =>
    intro lastPlain pos id0
    obtain ⟨L, last1, hsrc, htext, hmap, hseq, hid⟩ := freezePlain_spec lastPlain pos id0
    exact ⟨L, last1, by rw [hsrc]; simp [joinPairs], htext, hmap, hseq, hid⟩
  | cons x rest ih =>
    intro lastPlain pos id0
    obtain ⟨g, sent⟩ := x
    obtain ⟨L1, last1, hsrc1, htext1, hmap1, hseq1, hid1⟩ := freezePlain_spec g pos id0
    obtain ⟨L2, Rlast2, hsrc2, htext2, hmap2, hseq2, hid2⟩ :=
      ih lastPlain (pos + g.length + sent.length) (freezePlain g pos id0).2.2.2
    have he1 : (freezeTextGo pos id0 ((g, sent) :: rest) lastPlain).1 =
        (freezePlain g pos id0).1 ++ sent ++
          (freezeTextGo (pos + g.length + sent.length)
            (freezePlain g pos id0).2.2.2 rest lastPlain).1 := rfl
    have he2 : (freezeTextGo pos id0 ((g, sent) :: rest) lastPlain).2.1 =
        (freezePlain g pos id0).2.1 ++
          (freezeTextGo (pos + g.length + sent.length)
            (freezePlain g pos id0).2.2.2 rest lastPlain).2.1 := rfl
    have he4 : (freezeTextGo pos id0 ((g, sent) :: rest) lastPlain).2.2.2 =
        (freezeTextGo (pos + g.length + sent.length)
          (freezePlain g pos id0).2.2.2 rest lastPlain).2.2.2 := rfl
    have hseq2' : tokensSeq (id0 + L1.length) L2 := by rw [hid1] at hseq2; exact hseq2
    cases hL2 : L2 with
    | nil =>
      refine ⟨L1, last1 ++ sent ++ Rlast2, ?_, ?_, ?_, hseq1, ?_⟩
      · have hsrc2' : Rlast2 = joinPairs rest ++ lastPlain := by
          rw [hL2] at hsrc2
          simpa [joinPairs, regSrc] using hsrc2
        rw [joinPairs_cons, ← hsrc1, hsrc2']
        simp
      · rw [he1, htext1, htext2, hL2]
        rw [show regTok ([] : List (Str × Str × Str)) = [] from rfl]
        rw [show joinPairs ([] : List (Str × Str)) = [] from rfl]
        simp
      · rw [he2, hmap1, hmap2, hL2]
        simp [tokSrc]
      · rw [he4, hid2, hid1, hL2]
        simp
    | cons z zs =>
      refine ⟨L1 ++ ((last1 ++ sent ++ z.1, z.2.1, z.2.2) :: zs), Rlast2, ?_, ?_, ?_, ?_, ?_⟩
      · rw [hL2] at hsrc2
        rw [show regSrc (z :: zs) = (z.1, z.2.2) :: regSrc zs from rfl] at hsrc2
        rw [joinPairs_cons] at hsrc2
        rw [show regSrc (L1 ++ ((last1 ++ sent ++ z.1, z.2.1, z.2.2) :: zs)) =
          regSrc L1 ++ ((last1 ++ sent ++ z.1, z.2.2) :: regSrc zs) from by
            rw [regSrc, List.map_append]; rfl]
        rw [joinPairs_append, joinPairs_cons]
        rw [joinPairs_cons]
        rw [← hsrc1]
        simp only [List.append_assoc] at hsrc2 ⊢
        rw [← hsrc2]
      · rw [he1, htext1, htext2, hL2]
        rw [show regTok (z :: zs) = (z.1, z.2.1) :: regTok zs from rfl]
        rw [show regTok (L1 ++ ((last1 ++ sent ++ z.1, z.2.1, z.2.2) :: zs)) =
          regTok L1 ++ ((last1 ++ sent ++ z.1, z.2.1) :: regTok zs) from by
            rw [regTok, List.map_append]; rfl]
        rw [joinPairs_append, joinPairs_cons, joinPairs_cons]
        simp
      · rw [he2, hmap1, hmap2, hL2]
        rw [show tokSrc (L1 ++ ((last1 ++ sent ++ z.1, z.2.1, z.2.2) :: zs)) =
          tokSrc L1 ++ ((z.2.1, z.2.2) :: tokSrc zs) from by
            rw [tokSrc, List.map_append]; rfl]
        rfl
      · refine tokensSeq_append L1 _ id0 hseq1 ?_
        rw [hL2] at hseq2'
        have h2 : z.2.1 = ntToken (id0 + L1.length) ∧
            tokensSeq (id0 + L1.length + 1) zs := hseq2'
        exact ⟨h2.1, h2.2⟩
      · rw [he4, hid2, hid1, hL2]
        simp
        omega

theorem freezeText_spec (T : Str) :
    ∃ L : List (Str × Str × Str), ∃ Rlast : Str,
      joinPairs (regSrc L) ++ Rlast = T ∧
      (freezeText T).text = joinPairs (regTok L) ++ Rlast ∧
      (freezeText T).ntMap = tokSrc L ∧
      tokensSeq 1 L ∧
      (freezeText T).ntMap.length = L.length := by
  obtain ⟨L, Rlast, hsrc, htext, hmap, hseq, _⟩ :=
    freezeTextGo_spec (scanAll anySentinelM T).1 (scanAll anySentinelM T).2 0 1
  refine ⟨L, Rlast, ?_, htext, hmap, hseq, ?_⟩
  · rw [hsrc]
    exact (scanGo_join anySentinelM T.length none T (scanAll anySentinelM T).1
      (scanAll anySentinelM T).2 rfl).symm
  · show (freezeTextGo 0 1 (scanAll anySentinelM T).1 (scanAll anySentinelM T).2).2.1.length =
      L.length
    rw [hmap, tokSrc, List.length_map]

theorem joinPairs_parts :
    ∀ (M : List (Str × Str)) (R S : Str), joinPairs M ++ R = S →
      (∀ x ∈ M, ∃ A B, S = A ++ x.1 ++ B) ∧ ∃ A, S = A ++ R := by
  intro M
  induction M with
  | nil =>
    intro R S h
    refine ⟨fun x hx => absurd hx (by simp), ⟨[], ?_⟩⟩
    rw [← h]
    simp [joinPairs]
  | cons y ys ih =>
    intro R S h
    rw [joinPairs_cons] at h
    obtain ⟨hmem, A0, hA0⟩ := ih R (joinPairs ys ++ R) rfl
    refine ⟨?_, ?_⟩
    · intro x hx
      rcases List.mem_cons.mp hx with hxy | hxys
      · refine ⟨[], y.2 ++ joinPairs ys ++ R, ?_⟩
        rw [← h, hxy]
        simp
      · obtain ⟨A, B, hAB⟩ := hmem x hxys
        refine ⟨y.1 ++ y.2 ++ A, B, ?_⟩
        rw [← h]
        simp only [List.append_assoc] at hAB ⊢
        rw [hAB]
    · refine ⟨y.1 ++ y.2 ++ A0, ?_⟩
      rw [← h]
      simp only [List.append_assoc] at hA0 ⊢
      rw [hA0]

theorem trace_ntFree (L : List (Str × Str × Str)) (Rlast T : Str)
    (h : joinPairs (regSrc L) ++ Rlast = T) (hT : ntFree T = true) :
    (∀ x ∈ L, ntFree x.1 = true) ∧ ntFree Rlast = true := by
  obtain ⟨hmem, A0, hA0⟩ := joinPairs_parts (regSrc L) Rlast T h
  constructor
  · intro x hx
    have hx2 : (x.1, x.2.2) ∈ regSrc L := by
      rw [regSrc]
      exact List.mem_map.mpr ⟨x, hx, rfl⟩
    obtain ⟨A, B, hAB⟩ := hmem (x.1, x.2.2) hx2
    exact ntFree_parts T A x.1 B hAB hT
  · exact ntFree_parts T A0 Rlast [] (by rw [hA0]; simp) hT

theorem unfreeze_fold (M : List (Str × Str)) :
    ∀ (L : List (Str × Str × Str)),
      (∀ x ∈ L, M.lookup x.2.1 = some x.2.2) →
      ((regTok L).map (fun pr => pr.1 ++ ntLookup M pr.2)).foldr (· ++ ·) [] =
        joinPairs (regSrc L) := by
  intro L
  induction L with
  | nil => intro _; simp [regTok, regSrc, joinPairs]
  | cons y ys ih =>
    intro hlook
    rw [show regTok (y :: ys) = (y.1, y.2.1) :: regTok ys from rfl]
    rw [show regSrc (y :: ys) = (y.1, y.2.2) :: regSrc ys from rfl]
    rw [List.map_cons, List.foldr_cons, joinPairs_cons]
    rw [ih (fun x hx => hlook x (by simp [hx]))]
    rw [show ntLookup M y.2.1 = y.2.2 from by
      rw [ntLookup, hlook y (by simp)]
      rfl]

theorem freeze_scan_core (T : Str) (hT : ntFree T = true)
    (L : List (Str × Str × Str)) (Rlast : Str)
    (hsrc : joinPairs (regSrc L) ++ Rlast = T)
    (htext : (freezeText T).text = joinPairs (regTok L) ++ Rlast)
    (hseq : tokensSeq 1 L)
    (hlen : L.length ≤ 9999) :
    scanAll ntM (freezeText T).text = (regTok L, Rlast) := by
  obtain ⟨hreg, hlast⟩ := trace_ntFree L Rlast T hsrc hT
  have hshape : ∀ y ∈ L, ∃ d, y.2.1 = "<<MT_NT:".data ++ (d ++ ">>".data) ∧
      d.length = 4 ∧ d.all Char.isDigit = true := by
    intro y hy
    obtain ⟨j, hj, hje⟩ := tokensSeq_mem L 1 y hseq hy
    rw [hje]
    exact ntToken_shape (1 + j) (by omega)
  have hmem : ∀ x ∈ regTok L, ntFree x.1 = true ∧
      ∃ d, x.2 = "<<MT_NT:".data ++ (d ++ ">>".data) ∧
        d.length = 4 ∧ d.all Char.isDigit = true := by
    intro x hx
    rw [regTok] at hx
    obtain ⟨y, hy, hyx⟩ := List.mem_map.mp hx
    rw [← hyx]
    exact ⟨hreg y hy, hshape y hy⟩
  have hbound : (regTok L).length ≤ (joinPairs (regTok L) ++ Rlast).length := by
    have h1 : (regTok L).length ≤ (joinPairs (regTok L)).length := by
      refine joinPairs_length_ge (regTok L) ?_
      intro x hx
      obtain ⟨d, hd1, hd2, _⟩ := (hmem x hx).2
      rw [hd1]
      simp [List.length_append, hd2]
    rw [List.length_append]
    omega
  rw [show scanAll ntM (freezeText T).text =
    scanGo ntM (freezeText T).text.length none (freezeText T).text from rfl]
  rw [htext]
  exact scanGo_sandwich (regTok L) Rlast (joinPairs (regTok L) ++ Rlast).length none
    hbound hmem hlast

/-- C1 (amended): freeze/unfreeze round-trip for inputs free of NT-shaped
tokens, with at most 9999 map entries. -/
theorem freeze_roundtrip (T : Str) (hnt : ntFree T = true)
    (hbound : (freezeText T).ntMap.length ≤ 9999) :
    unfreezeText (freezeText T).text (freezeText T).ntMap = T ∧
    findMatches ntM (freezeText T).text = (freezeText T).ntMap.map (fun pr => pr.1) := by
  obtain ⟨L, Rlast, hsrc, htext, hmap, hseq, hlen⟩ := freezeText_spec T
  have hlen9999 : L.length ≤ 9999 := by rw [← hlen]; exact hbound
  have hscan := freeze_scan_core T hnt L Rlast hsrc htext hseq hlen9999
  have hlook : ∀ x ∈ L, (tokSrc L).lookup x.2.1 = some x.2.2 :=
    tokensSeq_lookup L 1 hseq (by omega)
  have hrepl : replaceAll ntM (ntLookup (freezeText T).ntMap) (freezeText T).text = T := by
    rw [replaceAll, hscan, hmap]
    show ((regTok L).map (fun pr => pr.1 ++ ntLookup (tokSrc L) pr.2)).foldr (· ++ ·) [] ++
      Rlast = T
    rw [unfreeze_fold (tokSrc L) L hlook]
    exact hsrc
  constructor
  · rw [unfreezeText]
    by_cases hguard : ((freezeText T).ntMap.isEmpty || (freezeText T).text.isEmpty) = true
    · rw [if_pos hguard]
      rcases Bool.or_eq_true_iff.mp hguard with hme | hte
      · have hL : L = [] := by
          have h1 : tokSrc L = [] := by
            rw [← hmap]
            exact List.isEmpty_iff.mp hme
          rw [tokSrc] at h1
          exact List.map_eq_nil.mp h1
        rw [hL] at htext hsrc
        rw [show regTok ([] : List (Str × Str × Str)) = [] from rfl] at htext
        rw [show regSrc ([] : List (Str × Str × Str)) = [] from rfl] at hsrc
        rw [show joinPairs ([] : List (Str × Str)) = [] from rfl] at htext hsrc
        rw [htext]
        rw [← hsrc]
      · have hT0 : (freezeText T).text = [] := List.isEmpty_iff.mp hte
        have hL : L = [] := by
          cases hL2 : L with
          | nil => rfl
          | cons z zs =>
            exfalso
            rw [hL2] at htext hseq
            have hz : z.2.1 = ntToken 1 ∧ tokensSeq 2 zs := hseq
            rw [hT0] at htext
            rw [show regTok (z :: zs) = (z.1, z.2.1) :: regTok zs from rfl,
              joinPairs_cons] at htext
            have hlen0 := congrArg List.length htext
            simp only [List.length_nil, List.length_append] at hlen0
            have h14 : z.2.1.length = 14 := by
              rw [hz.1]
              exact ntToken_length 1 (by omega)
            omega
        rw [hL] at htext hsrc
        rw [show regTok ([] : List (Str × Str × Str)) = [] from rfl] at htext
        rw [show regSrc ([] : List (Str × Str × Str)) = [] from rfl] at hsrc
        rw [show joinPairs ([] : List (Str × Str)) = [] from rfl] at htext hsrc
        rw [htext]
        rw [← hsrc]
    · rw [if_neg hguard]
      exact hrepl
  · rw [findMatches, hscan, hmap]
    show (regTok L).map (fun pr => pr.2) = (tokSrc L).map (fun pr => pr.1)
    rw [regTok, tokSrc, List.map_map, List.map_map]
    rfl

/-- C1: counterexample to the unconditional round-trip: an input containing
an NT-shaped token is not restored (the freezer issues a colliding token and
unfreezing rewrites both occurrences). -/
theorem freeze_roundtrip_counterexample :
    unfreezeText (freezeText "X <<MT_NT:0001>>".data).text
      (freezeText "X <<MT_NT:0001>>".data).ntMap ≠ "X <<MT_NT:0001>>".data := by
  decide

/-- C1: witness instantiating the amended round-trip theorem on a concrete
input with one frozen match. -/
theorem freeze_roundtrip_witness :
    ntFree "a (b) c".data = true ∧
    (freezeText "a (b) c".data).ntMap.length ≤ 9999 ∧
    (unfreezeText (freezeText "a (b) c".data).text (freezeText "a (b) c".data).ntMap =
        "a (b) c".data ∧
      findMatches ntM (freezeText "a (b) c".data).text =
        (freezeText "a (b) c".data).ntMap.map (fun pr => pr.1)) :=
  ⟨by decide, by decide, freeze_roundtrip "a (b) c".data (by decide) (by decide)⟩

end MT
